import Mathlib

/-!
# TLB-Coherence-Simulator: cache hierarchy, MSHRs, eviction and the event engine

A shallow embedding of `Cache.cpp`, `CacheSys.cpp`, `ReplPolicy.cpp`, `Request.hpp`,
`utils.hpp` and the key comparator of `Core.hpp`.

Modelling conventions.

* Objects that the C++ code reaches through pointers live in one `World`: caches and
  hierarchies (`CacheSys`) are addressed by their position in `World.caches` and
  `World.systems`.  A `weak_ptr` that does not resolve is an index outside the list.
* A `CacheLine &` or `CacheLine *` is a location `(set, way)` inside the owning cache.
* `uint64_t` addresses are natural numbers; the address that `evict` and the coherence
  paths rebuild with left shifts is reduced modulo `2 ^ 64`.
* An `assert` that fails, a vector indexed outside its bounds and a null dereference end the
  run with an `Err`; a run that ends in an `Err` returns nothing.
* The recursion between caches (lower cache, higher caches) is bounded by a fuel argument.
* The collaborators of these files (the per-line coherence protocol,
  `txnKindForCohAction`, the `Core` lookups) are parameters, collected in `Env`.
-/

namespace TLBSim

/-! ## `utils.hpp` -/

/-- Result of `lookupAndFillCache` (`utils.hpp`). -/
inductive RequestStatus where
  | REQUEST_HIT
  | REQUEST_MISS
  | REQUEST_RETRY
  | MSHR_HIT
  | MSHR_HIT_AND_LOCKED
  deriving DecidableEq, Repr, Inhabited

/-- Per-line protocol state (`utils.hpp`). -/
inductive CoherenceState where
  | MODIFIED
  | OWNER
  | EXCLUSIVE
  | SHARED
  | INVALID
  deriving DecidableEq, Repr, Inhabited

/-- Side effect requested by a protocol transition (`utils.hpp`). -/
inductive CoherenceAction where
  | NONE
  | BROADCAST_DATA_READ
  | BROADCAST_DATA_WRITE
  | BROADCAST_TRANSLATION_READ
  | BROADCAST_TRANSLATION_WRITE
  | MEMORY_DATA_WRITEBACK
  | MEMORY_TRANSLATION_WRITEBACK
  deriving DecidableEq, Repr, Inhabited

/-- Transaction kinds (`utils.hpp`). -/
inductive kind where
  | DATA_READ
  | DATA_WRITE
  | TRANSLATION_READ
  | TRANSLATION_WRITE
  | DATA_WRITEBACK
  | TRANSLATION_WRITEBACK
  | BROADCASTED_DATA_WRITE
  | BROADCASTED_DATA_READ
  | BROADCASTED_TRANSLATION_WRITE
  | BROADCASTED_TRANSLATION_READ
  deriving DecidableEq, Repr, Inhabited

/-- Cache roles; the enum is declared in `Cache.hpp`, the three values are the ones used in
`Cache.cpp`. -/
inductive CacheType where
  | DATA_ONLY
  | TRANSLATION_ONLY
  | DATA_AND_TRANSLATION
  deriving DecidableEq, Repr, Inhabited

/-- Identifies the `assert` that stopped a run. -/
inductive AssertId where
  | hitLineKind          -- Cache.cpp:165
  | mshrLineLocked       -- Cache.cpp:246
  | evictWriteback       -- Cache.cpp:121
  | evictInclusion       -- Cache.cpp:137
  | mshrErased           -- Cache.cpp:392
  | cohSettledInvalid    -- Cache.cpp:455
  | replSetNum           -- ReplPolicy.cpp:14, 33
  | replWay              -- ReplPolicy.cpp:34
  | replVictim           -- ReplPolicy.cpp:27
  | cohListEmpty         -- CacheSys.cpp:98
  | hierCacheType        -- CacheSys.cpp:17, 21
  | hierSize             -- CacheSys.cpp:57, 61
  deriving DecidableEq, Repr, Inhabited

/-- Ways in which a run ends without returning. -/
inductive Err where
  | outOfFuel
  | nullDeref
  | outOfBounds
  | assertFailed (a : AssertId)
  deriving DecidableEq, Repr, Inhabited

/-! ## Data model -/

/-- One way of a set.  `m_coherence_prot` holds the state of the line's protocol object. -/
structure CacheLine where
  valid : Bool
  dirty : Bool
  lock : Bool
  tag : Nat
  is_translation : Bool
  is_large : Bool
  tid : Nat
  m_coherence_prot : CoherenceState
  deriving DecidableEq, Repr, Inhabited

/-- An outstanding miss: the originating kind and the line (`set`, `way`) it is bound to. -/
structure MSHREntry where
  m_txn_kind : kind
  m_line : Nat × Nat
  deriving DecidableEq, Repr, Inhabited

/-- A request (`Request.hpp`).  `m_callback` names the cache whose `release_lock` the
callback is bound to. -/
structure Request where
  m_addr : Nat
  m_type : kind
  m_core_id : Nat
  m_cache_level : Nat
  m_tid : Nat
  m_is_large : Bool
  m_callback : Nat
  deriving DecidableEq, Repr, Inhabited

/-- The LRU policy object of a cache (`ReplPolicy.cpp`): one stack position per way. -/
structure LRURepl where
  m_num_sets : Nat
  m_associativity : Nat
  replStateArr : List (List Nat)
  deriving DecidableEq, Repr, Inhabited

/-- One cache or TLB level. -/
structure Cache where
  m_num_line_offset_bits : Nat
  m_num_index_bits : Nat
  m_tagStore : List (List CacheLine)
  m_repl : LRURepl
  m_mshr_entries : List (Nat × MSHREntry)
  m_lower_cache : Option Nat
  m_higher_caches : List Nat
  m_cache_sys : Nat
  m_core : Nat
  m_cache_level : Nat
  m_cache_type : CacheType
  m_inclusive : Bool
  m_latency_cycles : Nat
  m_core_id : Nat
  m_is_large_page_tlb : Bool
  deriving DecidableEq, Repr, Inhabited

/-- One hierarchy with its clock and its three event lists. -/
structure CacheSys where
  m_caches : List Nat
  m_clk : Nat
  m_is_translation_hier : Bool
  m_memory_latency : Nat
  m_other_cache_sys : List Nat
  m_hit_list : List (Nat × Request)
  m_wait_list : List (Nat × Request)
  m_coh_act_list : List (Request × CoherenceAction)
  deriving DecidableEq, Repr, Inhabited

/-- Everything the simulator's objects can reach.  `rob_done` records the calls of
`mem_mark_done(addr, kind)` in the order they were made. -/
structure World where
  caches : List Cache
  systems : List CacheSys
  rob_done : List (Nat × kind)
  deriving DecidableEq, Repr, Inhabited

/-- The collaborators of `Cache.cpp`: protocol object, kind decoding and `Core` lookups. -/
structure Env where
  /-- `CoherenceProtocol::setNextCoherenceState`: next state and requested action. -/
  setNextCoherenceState : CoherenceState → kind → CoherenceState × CoherenceAction
  /-- `txnKindForCohAction`. -/
  txnKindForCohAction : CoherenceAction → kind
  /-- The kind `DIRECTORY_DATA_WRITE` compared against in `handle_coherence_action`. -/
  DIRECTORY_DATA_WRITE : kind
  /-- The kind `DIRECTORY_TRANSLATION_WRITE`. -/
  DIRECTORY_TRANSLATION_WRITE : kind
  /-- `Core::get_lower_cache(addr, is_translation, is_large, cache_level, cache_type)` of
  core `core`. -/
  get_lower_cache : (core : Nat) → Nat → Bool → Bool → Nat → CacheType → Option Nat
  /-- `Core::getL3TLBAddr(va, tid, is_large)` of core `core`. -/
  getL3TLBAddr : (core : Nat) → Nat → Nat → Bool → Nat
  /-- `Core::retrieveAddr(l3tlbaddr, tid, is_large, is_higher_cache_small_tlb, &propagate)`:
  the address and the value left in `propagate`. -/
  retrieveAddr : (core : Nat) → Nat → Nat → Bool → Bool → Nat × Bool

/-! ## Ordered maps (`std::map` keyed by an integer) -/

/-- Lookup `std::map::find`. -/
def mapFind {α : Type} (m : List (Nat × α)) (k : Nat) : Option α :=
  match m with
  | [] => none
  | (k', v) :: rest => if k' = k then some v else mapFind rest k

/-- Insertion `std::map::insert`: keys stay sorted, an existing key keeps its value. -/
def mapInsert {α : Type} (m : List (Nat × α)) (k : Nat) (v : α) : List (Nat × α) :=
  match m with
  | [] => [(k, v)]
  | (k', v') :: rest =>
    if k < k' then (k, v) :: (k', v') :: rest
    else if k = k' then (k', v') :: rest
    else (k', v') :: mapInsert rest k v

/-- Removal `std::map::erase` of the entry with key `k`. -/
def mapErase {α : Type} (m : List (Nat × α)) (k : Nat) : List (Nat × α) :=
  m.filter (fun e => e.1 != k)

/-! ## `ReplPolicy.cpp` -/

/-- The method `LRURepl::getVictim(set_num)`: the first way at position `associativity - 1`. -/
def LRURepl.getVictim (r : LRURepl) (set_num : Nat) : Except Err Nat :=
  if set_num < r.m_num_sets then
    match r.replStateArr[set_num]? with
    | none => .error .outOfBounds
    | some setReplState =>
      let victim := setReplState.findIdx (fun p => p == r.m_associativity - 1)
      if victim < setReplState.length then .ok victim
      else .error (.assertFailed .replVictim)
  else .error (.assertFailed .replSetNum)

/-- The method `LRURepl::updateReplState(set_num, way)`. -/
def LRURepl.updateReplState (r : LRURepl) (set_num way : Nat) : Except Err LRURepl :=
  if set_num < r.m_num_sets then
    if way < r.m_associativity then
      match r.replStateArr[set_num]? with
      | none => .error .outOfBounds
      | some setReplState =>
        match setReplState[way]? with
        | none => .error .outOfBounds
        | some pivot =>
          let bumped := setReplState.map (fun p => if p < pivot then p + 1 else p)
          .ok { r with replStateArr := r.replStateArr.set set_num (bumped.set way 0) }
    else .error (.assertFailed .replWay)
  else .error (.assertFailed .replSetNum)

/-! ## `Request.hpp` -/

/-- Modelled from the spec: `Request::is_translation_request` is only declared in
`Request.hpp`; a request is a translation request when its kind is one of the translation
kinds. -/
def Request.is_translation_request (r : Request) : Bool :=
  r.m_type == .TRANSLATION_READ || r.m_type == .TRANSLATION_WRITE ||
  r.m_type == .TRANSLATION_WRITEBACK || r.m_type == .BROADCASTED_TRANSLATION_WRITE ||
  r.m_type == .BROADCASTED_TRANSLATION_READ

/-! ## `Cache.cpp`: address decomposition and lookup -/

/-- The method `Cache::get_line_offset`. -/
def Cache.get_line_offset (self : Cache) (addr : Nat) : Nat :=
  addr &&& ((1 <<< self.m_num_line_offset_bits) - 1)

/-- The method `Cache::get_index`. -/
def Cache.get_index (self : Cache) (addr : Nat) : Nat :=
  (addr >>> self.m_num_line_offset_bits) &&& ((1 <<< self.m_num_index_bits) - 1)

/-- The method `Cache::get_tag`. -/
def Cache.get_tag (self : Cache) (addr : Nat) : Nat :=
  (addr >>> self.m_num_line_offset_bits) >>> self.m_num_index_bits

/-- The address rebuilt from a tag and a set number,
`((tag << offset_bits) << index_bits) | (set_num << offset_bits)`, in 64 bits. -/
def Cache.line_addr (self : Cache) (tag set_num : Nat) : Nat :=
  ((((tag <<< self.m_num_line_offset_bits) <<< self.m_num_index_bits) % 2 ^ 64) |||
    ((set_num <<< self.m_num_line_offset_bits) % 2 ^ 64))

/-- The predicate of the `find_if` in `Cache::is_found`. -/
def lineMatches (tag : Nat) (is_translation : Bool) (tid : Nat) (l : CacheLine) : Bool :=
  (l.tag == tag) && l.valid && (l.is_translation == is_translation) && (l.tid == tid)

/-- The method `Cache::is_found`: whether a line matches, and `hit_pos` (the position of the
first match, `set.size()` when there is none). -/
def is_found (set : List CacheLine) (tag : Nat) (is_translation : Bool) (tid : Nat) :
    Bool × Nat :=
  let hit_pos := set.findIdx (lineMatches tag is_translation tid)
  (decide (hit_pos < set.length), hit_pos)

/-- The method `Cache::is_hit`: `is_found(...) & !set[hit_pos].lock`.  When nothing matches
the left operand is false and so is the result, whatever the read of `set[hit_pos]` at
`hit_pos = set.size()` yields. -/
def is_hit (set : List CacheLine) (tag : Nat) (is_translation : Bool) (tid : Nat) :
    Bool × Nat :=
  let r := is_found set tag is_translation tid
  (r.1 && !((set.getD r.2 default).lock), r.2)

/-- Whether the kind is one of the three translation kinds tested in `lookupAndFillCache`. -/
def kind.is_translation_txn (k : kind) : Bool :=
  (k == .TRANSLATION_WRITE) || (k == .TRANSLATION_WRITEBACK) || (k == .TRANSLATION_READ)

/-- Whether the kind dirties a line: a write or a writeback. -/
def kind.is_write_txn (k : kind) : Bool :=
  (k == .TRANSLATION_WRITE) || (k == .DATA_WRITE) || (k == .TRANSLATION_WRITEBACK) ||
  (k == .DATA_WRITEBACK)

/-- Whether the kind is `DATA_WRITEBACK` or `TRANSLATION_WRITEBACK`. -/
def kind.is_writeback (k : kind) : Bool :=
  (k == .TRANSLATION_WRITEBACK) || (k == .DATA_WRITEBACK)

/-- Whether the action is `MEMORY_DATA_WRITEBACK` or `MEMORY_TRANSLATION_WRITEBACK`. -/
def CoherenceAction.is_memory_writeback (a : CoherenceAction) : Bool :=
  (a == .MEMORY_DATA_WRITEBACK) || (a == .MEMORY_TRANSLATION_WRITEBACK)

/-- Whether the action is one of the four `BROADCAST_*` actions. -/
def CoherenceAction.is_broadcast (a : CoherenceAction) : Bool :=
  (a == .BROADCAST_DATA_READ) || (a == .BROADCAST_DATA_WRITE) ||
  (a == .BROADCAST_TRANSLATION_READ) || (a == .BROADCAST_TRANSLATION_WRITE)

/-! ## Access to the objects of a world -/

/-- Dereference a cache pointer. -/
def getCache (w : World) (c : Nat) : Except Err Cache :=
  match w.caches[c]? with
  | some x => .ok x
  | none => .error .nullDeref

/-- Dereference a hierarchy pointer. -/
def getSys (w : World) (s : Nat) : Except Err CacheSys :=
  match w.systems[s]? with
  | some x => .ok x
  | none => .error .nullDeref

/-- The set `m_tagStore[index]`. -/
def Cache.getSet (self : Cache) (index : Nat) : Except Err (List CacheLine) :=
  match self.m_tagStore[index]? with
  | some s => .ok s
  | none => .error .outOfBounds

/-- The line `set[way]`. -/
def getWay (set : List CacheLine) (way : Nat) : Except Err CacheLine :=
  match set[way]? with
  | some l => .ok l
  | none => .error .outOfBounds

/-- The line `m_tagStore[index][way]`. -/
def Cache.getLine (self : Cache) (index way : Nat) : Except Err CacheLine :=
  match self.m_tagStore[index]? with
  | some s => getWay s way
  | none => .error .outOfBounds

/-- Apply `f` to the line `m_tagStore[index][way]` of a cache. -/
def Cache.updLine (self : Cache) (index way : Nat) (f : CacheLine → CacheLine) : Cache :=
  { self with m_tagStore := self.m_tagStore.modify (fun s => s.modify f way) index }

/-- Apply `f` to one cache of the world. -/
def updCache (w : World) (c : Nat) (f : Cache → Cache) : World :=
  { w with caches := w.caches.modify f c }

/-- Apply `f` to one hierarchy of the world. -/
def updSys (w : World) (s : Nat) (f : CacheSys → CacheSys) : World :=
  { w with systems := w.systems.modify f s }

/-- Apply `f` to the line at `(index, way)` of cache `c`: a write through a `CacheLine &`. -/
def updLine (w : World) (c index way : Nat) (f : CacheLine → CacheLine) : World :=
  updCache w c (fun x => x.updLine index way f)

/-- Resolve a cache pointer: an index outside the world is a pointer that is null. -/
def resolve (w : World) (p : Option Nat) : Option Nat :=
  match p with
  | some c => if c < w.caches.length then some c else none
  | none => none

/-- The method `Cache::find_lower_cache_in_core`: the static lower cache when it resolves,
otherwise the one `Core::get_lower_cache` selects. -/
def find_lower_cache_in_core (env : Env) (w : World) (self : Cache) (addr : Nat)
    (is_translation is_large : Bool) : Option Nat :=
  match resolve w self.m_lower_cache with
  | some l => some l
  | none =>
    resolve w (env.get_lower_cache self.m_core addr is_translation is_large
      self.m_cache_level self.m_cache_type)

/-- The method `CacheSys::is_last_level`. -/
def CacheSys.is_last_level (sys : CacheSys) (cache_level : Nat) : Bool :=
  if sys.m_is_translation_hier then cache_level == sys.m_caches.length / 2
  else cache_level == sys.m_caches.length

/-- The call `m_repl->updateReplState(index, way)` on the policy object of cache `c`. -/
def updateRepl (w : World) (c index way : Nat) : Except Err World := do
  let self ← getCache w c
  let r ← self.m_repl.updateReplState index way
  pure (updCache w c (fun x => { x with m_repl := r }))

/-! ## `Cache.cpp`: invalidation, eviction, lookup and fill, coherence dispatch -/

/-- The request built by `Request(addr, txn_kind, m_callback, tid, is_large, m_core_id)`. -/
def Cache.mkRequest (self : Cache) (c addr : Nat) (txn_kind : kind) (tid : Nat)
    (is_large : Bool) : Request :=
  { m_addr := addr, m_type := txn_kind, m_core_id := self.m_core_id, m_cache_level := 0,
    m_tid := tid, m_is_large := is_large, m_callback := c }

/-- The capacity of the MSHR table: `(m_cache_type != TRANSLATION_ONLY) ? 16 : 1`. -/
def Cache.mshr_size (self : Cache) : Nat :=
  if self.m_cache_type ≠ .TRANSLATION_ONLY then 16 else 1

/-- The position a miss would fill (Cache.cpp:198): `hit_pos` when the key is found in the
set, otherwise the victim of the replacement policy. -/
def Cache.insertPos (self : Cache) (set : List CacheLine) (addr : Nat) (txn_kind : kind)
    (tid : Nat) : Except Err Nat :=
  let f := is_found set (self.get_tag addr) txn_kind.is_translation_txn tid
  if f.1 then pure f.2 else self.m_repl.getVictim (self.get_index addr)

/-- Signature of `handle_coherence_action` on a cache, as the parts of `lookupAndFillCache`
below call it. -/
abbrev CohHandler :=
  Nat → CoherenceAction → Nat → Nat → Bool → Nat → Bool → Bool → World → Except Err World

/-- Signature of `lookupAndFillCache` on a cache. -/
abbrev Lookup :=
  Nat → Nat → kind → Nat → Bool → Nat → World → Except Err (RequestStatus × World)

/-- Signature of `evict` on a cache: cache, set number, way. -/
abbrev Evictor := Nat → Nat → Nat → World → Except Err World

/-- The coherence block that ends each path of `lookupAndFillCache` (Cache.cpp:178-187,
223-235, 321-328): drive the protocol object of the line at `loc`, whose state is `st`, pick
the subject of the action (the resident line `subject` at `cur_addr` for a memory writeback,
the request otherwise) and dispatch it with `same_cache_sys = true`. -/
def cohDispatch (env : Env) (hca : CohHandler) (c : Nat) (loc : Nat × Nat)
    (st : CoherenceState) (subject : CacheLine) (cur_addr addr tid : Nat)
    (is_large is_translation : Bool) (curr_latency : Nat) (txn_kind : kind) (w : World) :
    Except Err World :=
  let next := env.setNextCoherenceState st txn_kind
  let w1 := updLine w c loc.1 loc.2 (fun l => { l with m_coherence_prot := next.1 })
  let wb := next.2.is_memory_writeback
  hca c next.2 (if wb then cur_addr else addr) (if wb then subject.tid else tid)
    (if wb then subject.is_large else is_large) curr_latency
    (if wb then subject.is_translation else is_translation) true w1

/-- The hit path of `lookupAndFillCache` (Cache.cpp:156-190), `hit_pos` being the position
`is_hit` left. -/
def hitPath (env : Env) (hca : CohHandler) (self : Cache) (c addr : Nat) (txn_kind : kind)
    (tid : Nat) (is_large : Bool) (curr_latency : Nat) (set : List CacheLine) (hit_pos : Nat)
    (w : World) : Except Err (RequestStatus × World) := do
  let index := self.get_index addr
  let line ← getWay set hit_pos
  let cur_addr := self.line_addr line.tag index
  let w1 := updLine w c index hit_pos
    (fun l => { l with dirty := l.dirty || txn_kind.is_write_txn })
  if !(xor (!txn_kind.is_translation_txn) line.is_translation) then
    .error (.assertFailed .hitLineKind)
  else
    let w2 ← (if !txn_kind.is_writeback then updateRepl w1 c index hit_pos else pure w1)
    let sys ← getSys w2 self.m_cache_sys
    let r := self.mkRequest c addr txn_kind tid is_large
    let w3 := updSys w2 self.m_cache_sys
      (fun s => { s with m_hit_list := mapInsert s.m_hit_list (sys.m_clk + curr_latency) r })
    let w4 ← cohDispatch env hca c (index, hit_pos) line.m_coherence_prot line cur_addr addr
      tid is_large txn_kind.is_translation_txn curr_latency txn_kind w3
    pure (RequestStatus.REQUEST_HIT, w4)

/-- The MSHR-hit path of `lookupAndFillCache` (Cache.cpp:210-253): `line` is the line at
`insert_pos`, `entry` the MSHR entry found for `addr`. -/
def mshrPath (env : Env) (hca : CohHandler) (self : Cache) (c addr : Nat) (txn_kind : kind)
    (tid : Nat) (is_large : Bool) (curr_latency : Nat) (insert_pos : Nat) (line : CacheLine)
    (entry : MSHREntry) (w : World) : Except Err (RequestStatus × World) := do
  let index := self.get_index addr
  let is_translation := txn_kind.is_translation_txn
  let cur_addr := self.line_addr line.tag index
  let mline ← self.getLine entry.m_line.1 entry.m_line.2
  let same := (self.get_tag addr == mline.tag) && (is_translation == mline.is_translation)
  let w1 :=
    if txn_kind.is_write_txn && same then
      updLine w c entry.m_line.1 entry.m_line.2 (fun l => { l with dirty := true })
    else w
  let w2 ←
    (if same then
      cohDispatch env hca c entry.m_line mline.m_coherence_prot line cur_addr addr tid is_large
        is_translation curr_latency txn_kind w1
    else pure w1)
  let w3 ← (if !txn_kind.is_writeback then updateRepl w2 c index insert_pos else pure w2)
  if txn_kind.is_writeback then
    let self3 ← getCache w3 c
    let mline3 ← self3.getLine entry.m_line.1 entry.m_line.2
    if mline3.lock then pure (RequestStatus.MSHR_HIT_AND_LOCKED, w3)
    else .error (.assertFailed .mshrLineLocked)
  else pure (RequestStatus.MSHR_HIT, w3)

/-- The overwrite of the line at `insert_pos` and the MSHR allocation (Cache.cpp:257-265). -/
def fillLine (self : Cache) (c addr : Nat) (txn_kind : kind) (tid : Nat) (is_large : Bool)
    (insert_pos : Nat) (w : World) : World :=
  let index := self.get_index addr
  let w1 := updLine w c index insert_pos
    (fun l => { l with valid := true, lock := true, tag := self.get_tag addr,
                       is_translation := txn_kind.is_translation_txn,
                       is_large := is_large, tid := tid,
                       dirty := txn_kind.is_write_txn })
  let mshr_entry : MSHREntry := { m_txn_kind := txn_kind, m_line := (index, insert_pos) }
  updCache w1 c
    (fun x => { x with m_mshr_entries := mapInsert x.m_mshr_entries addr mshr_entry })

/-- The forwarding of a miss (Cache.cpp:284-319): to the lower cache, to memory through the
wait list, or to the L3 TLB. -/
def forwardMiss (env : Env) (laf : Lookup) (self : Cache) (c addr : Nat) (txn_kind : kind)
    (tid : Nat) (is_large : Bool) (curr_latency : Nat) (w : World) : Except Err World := do
  let is_translation := txn_kind.is_translation_txn
  let sys ← getSys w self.m_cache_sys
  let last := sys.is_last_level self.m_cache_level
  if !last && ((txn_kind != kind.DATA_WRITEBACK) ||
      (txn_kind != kind.TRANSLATION_WRITEBACK)) then
    match find_lower_cache_in_core env w self addr is_translation is_large with
    | some l =>
      let lower ← getCache w l
      let is_tr_to_dat_boundary :=
        (self.m_cache_type == CacheType.TRANSLATION_ONLY) &&
        (lower.m_cache_type == CacheType.DATA_AND_TRANSLATION)
      let access_addr :=
        if is_tr_to_dat_boundary then env.getL3TLBAddr self.m_core addr tid is_large
        else addr
      let res ← laf l access_addr txn_kind tid is_large (curr_latency + self.m_latency_cycles) w
      pure res.2
    | none => pure w
  else if (last && !is_translation && !sys.m_is_translation_hier) ||
      (last && is_translation && sys.m_is_translation_hier) then
    let r := self.mkRequest c addr txn_kind tid is_large
    let due := sys.m_clk + curr_latency + sys.m_memory_latency
    pure (updSys w self.m_cache_sys
      (fun s => { s with m_wait_list := mapInsert s.m_wait_list due r }))
  else
    match find_lower_cache_in_core env w self addr is_translation is_large with
    | some l =>
      let res ← laf l addr txn_kind tid is_large (curr_latency + self.m_latency_cycles) w
      pure res.2
    | none => pure w

/-- The miss path with MSHR room (Cache.cpp:254-277, 284-330): overwrite the line at
`insert_pos`, allocate the MSHR, evict if `needs_eviction`, update the replacement state,
forward the miss and run the coherence block.  `old_tag` is the tag the line held before
the overwrite, from which `cur_addr` was computed (Cache.cpp:204). -/
def missPath (env : Env) (ev : Evictor) (laf : Lookup) (hca : CohHandler) (self : Cache)
    (c addr : Nat) (txn_kind : kind) (tid : Nat) (is_large : Bool) (curr_latency : Nat)
    (insert_pos : Nat) (needs_eviction : Bool) (old_tag : Nat) (w : World) :
    Except Err (RequestStatus × World) := do
  let index := self.get_index addr
  let cur_addr := self.line_addr old_tag index
  let w2 := fillLine self c addr txn_kind tid is_large insert_pos w
  let w3 ← (if needs_eviction then ev c index insert_pos w2 else pure w2)
  let w4 ← (if !txn_kind.is_writeback then updateRepl w3 c index insert_pos else pure w3)
  let w5 ← forwardMiss env laf self c addr txn_kind tid is_large curr_latency w4
  let self5 ← getCache w5 c
  let line5 ← self5.getLine index insert_pos
  let w7 ← cohDispatch env hca c (index, insert_pos) line5.m_coherence_prot line5 cur_addr addr
    tid is_large txn_kind.is_translation_txn curr_latency txn_kind w5
  pure (RequestStatus.REQUEST_MISS, w7)

/-- The broadcast of an action to the peer hierarchies (Cache.cpp:430-436): a synthetic
write request and the action are appended to each peer's coherence-action list. -/
def enqueueBroadcast (self : Cache) (c : Nat) (coh_action : CoherenceAction) (addr tid : Nat)
    (is_large is_translation : Bool) (w : World) : Except Err World := do
  let sys ← getSys w self.m_cache_sys
  let r := self.mkRequest c addr
    (if is_translation then kind.TRANSLATION_WRITE else kind.DATA_WRITE) tid is_large
  sys.m_other_cache_sys.foldlM
    (fun wacc p => do
      let _ ← getSys wacc p
      pure (updSys wacc p
        (fun s => { s with m_coh_act_list := s.m_coh_act_list ++ [(r, coh_action)] })))
    w

/-- The handling of a broadcast that came from another hierarchy (Cache.cpp:440-457).  The
source calls `is_found(set, tag, tid, is_translation, hit_pos)`: the `bool` parameter of
`is_found` receives `tid` and its `uint64_t` parameter receives the flag derived from the
action. -/
def peerBroadcast (env : Env) (self : Cache) (c : Nat) (coh_action : CoherenceAction)
    (addr tid : Nat) (w : World) : Except Err World := do
  let tag := self.get_tag addr
  let index := self.get_index addr
  let set ← self.getSet index
  let is_translation :=
    (coh_action == CoherenceAction.BROADCAST_TRANSLATION_WRITE) ||
    (coh_action == CoherenceAction.BROADCAST_TRANSLATION_READ)
  let f := is_found set tag (tid != 0) (if is_translation then 1 else 0)
  if f.1 then
    let line ← getWay set f.2
    let coh_txn_kind := env.txnKindForCohAction coh_action
    let next := env.setNextCoherenceState line.m_coherence_prot coh_txn_kind
    let w1 := updLine w c index f.2 (fun l => { l with m_coherence_prot := next.1 })
    if coh_txn_kind = env.DIRECTORY_DATA_WRITE ∨
        coh_txn_kind = env.DIRECTORY_TRANSLATION_WRITE then
      let w2 := updLine w1 c index f.2 (fun l => { l with valid := false })
      if next.1 = CoherenceState.INVALID then pure w2
      else .error (.assertFailed .cohSettledInvalid)
    else pure w1
  else pure w

/-- The loop of `invalidate` and `evict` over `m_higher_caches`: call `inv` on every higher
cache that resolves. -/
def forHigher (inv : Nat → World → Except Err World) (higher : List Nat) (w : World) :
    Except Err World :=
  higher.foldlM (fun wacc h => if h < wacc.caches.length then inv h wacc else pure wacc) w

/-- The method `Cache::invalidate(addr, tid, is_translation)` on cache `c`: clear `valid` on
the first matching line of the set, then invalidate in every higher cache that resolves. -/
def invalidate : Nat → Nat → Nat → Nat → Bool → World → Except Err World
  | 0, _, _, _, _, _ => .error .outOfFuel
  | fuel + 1, c, addr, tid, is_translation, w => do
    let self ← getCache w c
    let tag := self.get_tag addr
    let index := self.get_index addr
    let set ← self.getSet index
    let r := is_found set tag is_translation tid
    let w1 := if r.1 then updLine w c index r.2 (fun l => { l with valid := false }) else w
    forHigher (fun h wacc => invalidate fuel h addr tid is_translation wacc)
      self.m_higher_caches w1

mutual

/-- The method `Cache::evict(set_num, line)` on cache `c`, where `line` is the line at
`(set_num, way)`. -/
def evict (env : Env) : Nat → Nat → Nat → Nat → World → Except Err World
  | 0, _, _, _, _ => .error .outOfFuel
  | fuel + 1, c, set_num, way, w => do
    let self ← getCache w c
    let line ← self.getLine set_num way
    let evict_addr := self.line_addr line.tag set_num
    let w1 ←
      (if self.m_inclusive then
        forHigher (fun h wacc => invalidate fuel h evict_addr line.tid line.is_translation wacc)
          self.m_higher_caches w
      else pure w)
    let lower_cache := find_lower_cache_in_core env w1 self evict_addr line.is_translation
      line.is_large
    if line.dirty then
      match lower_cache with
      | some l =>
        let res ← lookupAndFillCache env fuel l evict_addr
          (if line.is_translation then kind.TRANSLATION_WRITEBACK else kind.DATA_WRITEBACK)
          line.tid line.is_large 0 w1
        let w3 := updLine res.2 c set_num way
          (fun l => { l with m_coherence_prot := CoherenceState.INVALID })
        if self.m_inclusive then
          if res.1 = RequestStatus.REQUEST_HIT ∨ res.1 = RequestStatus.MSHR_HIT_AND_LOCKED then
            pure w3
          else .error (.assertFailed .evictWriteback)
        else pure w3
      | none => pure w1
    else
      match lower_cache with
      | some l =>
        if self.m_inclusive then
          let lower ← getCache w1 l
          let index := lower.get_index evict_addr
          let tag := lower.get_index evict_addr
          let set ← lower.getSet index
          if (is_found set tag line.is_translation line.tid).1 then pure w1
          else .error (.assertFailed .evictInclusion)
        else pure w1
      | none => pure w1

/-- The method `Cache::lookupAndFillCache(addr, txn_kind, tid, is_large, curr_latency)` on
cache `c`. -/
def lookupAndFillCache (env : Env) :
    Nat → Nat → Nat → kind → Nat → Bool → Nat → World → Except Err (RequestStatus × World)
  | 0, _, _, _, _, _, _, _ => .error .outOfFuel
  | fuel + 1, c, addr, txn_kind, tid, is_large, curr_latency, w => do
    let self ← getCache w c
    let tag := self.get_tag addr
    let index := self.get_index addr
    let set ← self.getSet index
    let is_translation := txn_kind.is_translation_txn
    let h := is_hit set tag is_translation tid
    if h.1 then
      hitPath env (handle_coherence_action env fuel) self c addr txn_kind tid is_large
        curr_latency set h.2 w
    else
      let it_not_valid := set.any (fun l => !l.valid)
      let f := is_found set tag is_translation tid
      let needs_eviction := !it_not_valid && !f.1
      let insert_pos ← self.insertPos set addr txn_kind tid
      let line ← getWay set insert_pos
      let mshr_iter := mapFind self.m_mshr_entries addr
      match (if line.valid then mshr_iter else none) with
      | some entry =>
        mshrPath env (handle_coherence_action env fuel) self c addr txn_kind tid is_large
          curr_latency insert_pos line entry w
      | none =>
        if self.m_mshr_entries.length < self.mshr_size then
          missPath env (evict env fuel) (lookupAndFillCache env fuel)
            (handle_coherence_action env fuel) self c addr txn_kind tid is_large curr_latency
            insert_pos needs_eviction line.tag w
        else pure (RequestStatus.REQUEST_RETRY, w)

/-- The method `Cache::handle_coherence_action(coh_action, addr, tid, is_large, curr_latency,
is_translation, same_cache_sys)` on cache `c`. -/
def handle_coherence_action (env : Env) :
    Nat → Nat → CoherenceAction → Nat → Nat → Bool → Nat → Bool → Bool → World →
      Except Err World
  | 0, _, _, _, _, _, _, _, _, _ => .error .outOfFuel
  | fuel + 1, c, coh_action, addr, tid, is_large, curr_latency, is_translation,
      same_cache_sys, w => do
    let self ← getCache w c
    if coh_action.is_memory_writeback then
      match find_lower_cache_in_core env w self addr is_translation is_large with
      | some l =>
        let res ← lookupAndFillCache env fuel l addr (env.txnKindForCohAction coh_action)
          tid is_large (curr_latency + self.m_latency_cycles) w
        pure res.2
      | none => pure w
    else if coh_action.is_broadcast then
      let sameAndNotLast ←
        (if same_cache_sys then
          (getSys w self.m_cache_sys).map (fun sys => !sys.is_last_level self.m_cache_level)
        else pure false)
      if sameAndNotLast then
        enqueueBroadcast self c coh_action addr tid is_large is_translation w
      else if !same_cache_sys then
        peerBroadcast env self c coh_action addr tid w
      else pure w
    else pure w

end

/-! ## `Cache.cpp`: MSHR release -/

/-- The first part of `release_lock` (Cache.cpp:372-393): when the MSHR table has an entry
for the address of the request, clear `lock` on the bound line if its tag is still the
request's, and erase the entry. -/
def releaseEntry (self : Cache) (c : Nat) (r : Request) (w : World) : Except Err World :=
  match mapFind self.m_mshr_entries r.m_addr with
  | some entry => do
    let mline ← self.getLine entry.m_line.1 entry.m_line.2
    let wa :=
      if self.get_tag r.m_addr == mline.tag then
        updLine w c entry.m_line.1 entry.m_line.2 (fun l => { l with lock := false })
      else w
    let wb := updCache wa c
      (fun x => { x with m_mshr_entries := mapErase x.m_mshr_entries r.m_addr })
    let self' ← getCache wb c
    if (mapFind self'.m_mshr_entries r.m_addr).isNone then pure wb
    else .error (.assertFailed .mshrErased)
  | none => pure w

/-- The notification of the ROB by an L1 data cache (Cache.cpp:396-399). -/
def markDone (self : Cache) (r : Request) (w : World) : World :=
  if self.m_cache_level == 1 && self.m_cache_type == CacheType.DATA_ONLY then
    { w with rob_done := w.rob_done ++ [(r.m_addr, r.m_type)] }
  else w

/-- One iteration of the loop of `propagate_release_lock` (Cache.cpp:506-526) for the higher
cache `h`; `rel` is `release_lock` on a cache. -/
def propagateStep (env : Env) (rel : Nat → Request → World → Except Err (Request × World))
    (self : Cache) (acc : Request × World) (h : Nat) : Except Err (Request × World) :=
  let r := acc.1
  let wacc := acc.2
  if h < wacc.caches.length then do
    let higher_cache ← getCache wacc h
    let typeOk :=
      (r.is_translation_request && (higher_cache.m_cache_type != CacheType.DATA_ONLY)) ||
      (!r.is_translation_request &&
        (higher_cache.m_cache_type != CacheType.TRANSLATION_ONLY))
    if typeOk then
      let sys ← getSys wacc self.m_cache_sys
      let last := sys.is_last_level self.m_cache_level
      let routeOk :=
        ((r.m_core_id == higher_cache.m_core_id) && last && !sys.m_is_translation_hier) ||
        !last || (last && sys.m_is_translation_hier)
      if routeOk then
        let is_dat_to_tr_boundary :=
          (self.m_cache_type == CacheType.DATA_AND_TRANSLATION) &&
          (higher_cache.m_cache_type == CacheType.TRANSLATION_ONLY)
        let in_translation_hier :=
          (self.m_cache_type == CacheType.TRANSLATION_ONLY) &&
          (higher_cache.m_cache_type == CacheType.TRANSLATION_ONLY)
        let is_higher_cache_small_tlb := !higher_cache.m_is_large_page_tlb
        let ra :=
          if is_dat_to_tr_boundary then
            env.retrieveAddr self.m_core r.m_addr r.m_tid r.m_is_large
              is_higher_cache_small_tlb
          else (r.m_addr, true)
        let access_addr := ra.1
        let propagate_access := ra.2 &&
          ((in_translation_hier && (r.m_is_large == !is_higher_cache_small_tlb)) ||
            !in_translation_hier)
        let r' := if propagate_access then { r with m_addr := access_addr } else r
        if propagate_access then rel h r' wacc
        else pure (r', wacc)
      else pure (r, wacc)
    else pure (r, wacc)
  else pure (r, wacc)

mutual

/-- The method `Cache::release_lock(r)` on cache `c`; returns the request as the call
leaves it. -/
def release_lock (env : Env) : Nat → Nat → Request → World → Except Err (Request × World)
  | 0, _, _, _ => .error .outOfFuel
  | fuel + 1, c, r, w => do
    let self ← getCache w c
    let w1 ← releaseEntry self c r w
    propagate_release_lock env fuel c r (markDone self r w1)

/-- The method `Cache::propagate_release_lock(r)` on cache `c`. -/
def propagate_release_lock (env : Env) :
    Nat → Nat → Request → World → Except Err (Request × World)
  | 0, _, _, _ => .error .outOfFuel
  | fuel + 1, c, r, w => do
    let self ← getCache w c
    self.m_higher_caches.foldlM (propagateStep env (release_lock env fuel) self) (r, w)

end

/-! ## `CacheSys.cpp` -/

/-- The method `CacheSys::lookupAndFillCache(addr, txn_kind)` on hierarchy `s`: enter at
`m_caches[0]`, the remaining arguments taking their defaults. -/
def CacheSys_lookupAndFillCache (env : Env) (fuel s addr : Nat) (txn_kind : kind) (w : World) :
    Except Err (RequestStatus × World) := do
  let sys ← getSys w s
  match sys.m_caches[0]? with
  | some c => lookupAndFillCache env fuel c addr txn_kind 0 false 0 w
  | none => .error .outOfBounds

/-- The method `CacheSys::tick()` on hierarchy `s`.  Queued coherence actions are applied to
`m_caches[0 .. size-2]`, then the clock advances, the hit list is pruned and the due entries
of the wait list have their callback invoked in key order. -/
def tick (env : Env) (fuel s : Nat) (w : World) : Except Err World := do
  let sys ← getSys w s
  let w1 ← sys.m_coh_act_list.foldlM
    (fun wacc (e : Request × CoherenceAction) =>
      if sys.m_caches.length = 0 then .error .outOfBounds
      else
        (sys.m_caches.take (sys.m_caches.length - 1)).foldlM
          (fun wacc2 cid =>
            handle_coherence_action env fuel cid e.2 e.1.m_addr e.1.m_tid e.1.m_is_large 0
              e.1.is_translation_request false wacc2)
          wacc)
    w
  let sys1 ← getSys w1 s
  if sys1.m_coh_act_list.length ≠ sys.m_coh_act_list.length then
    .error (.assertFailed .cohListEmpty)
  else
    let clk := sys1.m_clk + 1
    let w2 := updSys w1 s
      (fun x => { x with m_coh_act_list := [], m_clk := clk,
                         m_hit_list := x.m_hit_list.filter (fun e => !(decide (clk ≥ e.1))) })
    let w3 ← sys1.m_wait_list.foldlM
      (fun wacc (e : Nat × Request) =>
        if clk ≥ e.1 then do
          let res ← release_lock env fuel e.2.m_callback e.2 wacc
          pure res.2
        else pure wacc)
      w2
    pure (updSys w3 s
      (fun x => { x with m_wait_list := x.m_wait_list.filter (fun e => !(decide (clk ≥ e.1))) }))

/-! ## Operations and reachable states -/

/-- The operations through which a state of the simulator evolves. -/
inductive Op where
  | lookupAndFillCache (c addr : Nat) (txn_kind : kind) (tid : Nat) (is_large : Bool)
      (curr_latency : Nat)
  | invalidate (c addr tid : Nat) (is_translation : Bool)
  | handle_coherence_action (c : Nat) (coh_action : CoherenceAction) (addr tid : Nat)
      (is_large : Bool) (curr_latency : Nat) (is_translation same_cache_sys : Bool)
  | release_lock (c : Nat) (r : Request)
  | tick (s : Nat)
  | sysLookup (s addr : Nat) (txn_kind : kind)
  deriving DecidableEq, Repr

/-- Run one operation; the returned status or request is dropped. -/
def Op.run (env : Env) (fuel : Nat) (op : Op) (w : World) : Except Err World :=
  match op with
  | .lookupAndFillCache c addr k tid lg lat =>
    (TLBSim.lookupAndFillCache env fuel c addr k tid lg lat w).map (fun r => r.2)
  | .invalidate c addr tid tr => TLBSim.invalidate fuel c addr tid tr w
  | .handle_coherence_action c a addr tid lg lat tr same =>
    TLBSim.handle_coherence_action env fuel c a addr tid lg lat tr same w
  | .release_lock c r => (TLBSim.release_lock env fuel c r w).map (fun r => r.2)
  | .tick s => TLBSim.tick env fuel s w
  | .sysLookup s addr k => (CacheSys_lookupAndFillCache env fuel s addr k w).map (fun r => r.2)

/-- Run a list of operations in order. -/
def runOps (env : Env) (fuel : Nat) : List Op → World → Except Err World
  | [], w => .ok w
  | op :: rest, w =>
    match op.run env fuel w with
    | .ok w' => runOps env fuel rest w'
    | .error e => .error e

/-- The states reachable from `w0` through operations that `allowed` admits and that
return. -/
inductive Reachable (env : Env) (allowed : Op → Bool) (w0 : World) : World → Prop where
  | init : Reachable env allowed w0 w0
  | step {w w' : World} (op : Op) (fuel : Nat) :
      Reachable env allowed w0 w → allowed op = true → op.run env fuel w = .ok w' →
      Reachable env allowed w0 w'

/-- Empty caches: every line invalid and unlocked, every MSHR table empty. -/
def EmptyCaches (w : World) : Prop :=
  ∀ c ∈ w.caches,
    (∀ set ∈ c.m_tagStore, ∀ l ∈ set, l.valid = false ∧ l.lock = false) ∧
    c.m_mshr_entries = []

/-- The lookup key of a line: `(tag, is_translation, tid)`. -/
def CacheLine.key (l : CacheLine) : Nat × Bool × Nat := (l.tag, l.is_translation, l.tid)

/-- No two distinct valid lines of the set share `(tag, is_translation, tid)`. -/
def NoDupKeys (set : List CacheLine) : Prop :=
  ∀ (i j : Nat) (li lj : CacheLine), set[i]? = some li → set[j]? = some lj →
    li.valid = true → lj.valid = true → li.key = lj.key → i = j

/-- No set of any cache holds two distinct valid lines with the same key. -/
def NoDuplicateLines (w : World) : Prop :=
  ∀ c ∈ w.caches, ∀ set ∈ c.m_tagStore, NoDupKeys set

/-- Every line whose lock bit is set is valid. -/
def LockImpliesValid (w : World) : Prop :=
  ∀ c ∈ w.caches, ∀ set ∈ c.m_tagStore, ∀ l ∈ set, l.lock = true → l.valid = true

/-- Whether the line an MSHR entry of cache `c` is bound to has its lock bit set. -/
def Cache.boundLineLocked (c : Cache) (e : MSHREntry) : Bool :=
  match c.getLine e.m_line.1 e.m_line.2 with
  | .ok l => l.lock
  | .error _ => false

/-- Every entry of every MSHR table is bound to a locked line. -/
def MshrBoundLocked (w : World) : Prop :=
  ∀ c ∈ w.caches, ∀ e ∈ c.m_mshr_entries, c.boundLineLocked e.2 = true

/-- Whether cache `c` holds a valid line for address `addr` with the given flags. -/
def Cache.holds (c : Cache) (addr : Nat) (is_translation : Bool) (tid : Nat) : Bool :=
  match c.m_tagStore[c.get_index addr]? with
  | some set => (is_found set (c.get_tag addr) is_translation tid).1
  | none => false

/-- Whether cache `c` has an open MSHR entry for an address of the line of `addr`. -/
def Cache.fillInFlight (c : Cache) (addr : Nat) : Bool :=
  c.m_mshr_entries.any
    (fun e => c.get_tag e.1 == c.get_tag addr && c.get_index e.1 == c.get_index addr)

/-- The addresses, with their flags, of the valid lines of a cache. -/
def Cache.validLines (c : Cache) : List (Nat × Bool × Nat) :=
  (c.m_tagStore.enum.map
    (fun s => (s.2.filter (fun l => l.valid)).map
      (fun l => (c.line_addr l.tag s.1, l.is_translation, l.tid)))).flatten

/-- The valid lines of the cache a pointer resolves to. -/
def World.validLinesOf (w : World) (h : Nat) : List (Nat × Bool × Nat) :=
  match w.caches[h]? with
  | some hc => hc.validLines
  | none => []

/-- Inclusion: for every inclusive cache and every higher cache of it, each line valid in
the higher cache is valid in the inclusive cache, unless a fill of that line is in flight
there. -/
def Inclusion (w : World) : Prop :=
  ∀ c ∈ w.caches, c.m_inclusive = true →
    ∀ h ∈ c.m_higher_caches, ∀ x ∈ w.validLinesOf h,
      c.holds x.1 x.2.1 x.2.2 = true ∨ c.fillInFlight x.1 = true

/-- Every operation. -/
def Op.any (_ : Op) : Bool := true

/-- The operations `lookupAndFillCache`, `release_lock` and `tick`. -/
def Op.isLookupReleaseTick : Op → Bool
  | .lookupAndFillCache .. => true
  | .sysLookup .. => true
  | .release_lock .. => true
  | .tick .. => true
  | _ => false

/-- The operations other than `invalidate` and a coherence action that arrives from another
hierarchy (`same_cache_sys = false`). -/
def Op.isOwnTraffic : Op → Bool
  | .invalidate .. => false
  | .handle_coherence_action _ _ _ _ _ _ _ same_cache_sys => same_cache_sys
  | _ => true

/-- The operations `lookupAndFillCache`, `handle_coherence_action` and `tick`. -/
def Op.isLookupCoherenceTick : Op → Bool
  | .lookupAndFillCache .. => true
  | .sysLookup .. => true
  | .handle_coherence_action .. => true
  | .tick .. => true
  | _ => false

/-- The set contains a valid line with the given tag, translation flag and tid, and the
first such line is not locked. -/
def HitCondition (set : List CacheLine) (tag : Nat) (is_translation : Bool) (tid : Nat) :
    Prop :=
  ∃ (i : Nat) (l : CacheLine), set[i]? = some l ∧
    (l.valid = true ∧ l.tag = tag ∧ l.is_translation = is_translation ∧ l.tid = tid) ∧
    l.lock = false ∧
    ∀ (j : Nat) (l' : CacheLine), j < i → set[j]? = some l' →
      ¬ (l'.valid = true ∧ l'.tag = tag ∧ l'.is_translation = is_translation ∧ l'.tid = tid)

/-- The replacement state of set `index` has a stack position for every way of `set` and
passes the bounds assertions of `updateReplState`. -/
def Cache.replCovers (self : Cache) (index : Nat) (set : List CacheLine) : Prop :=
  index < self.m_repl.m_num_sets ∧ set.length ≤ self.m_repl.m_associativity ∧
  ∃ st, self.m_repl.replStateArr[index]? = some st ∧ set.length ≤ st.length

/-- At most one line of the set is valid with the given tag, translation flag and tid. -/
def AtMostOneMatch (set : List CacheLine) (tag : Nat) (is_translation : Bool) (tid : Nat) :
    Prop :=
  ∀ (i j : Nat) (li lj : CacheLine), set[i]? = some li → set[j]? = some lj →
    lineMatches tag is_translation tid li = true →
    lineMatches tag is_translation tid lj = true → i = j

/-- The caches that `invalidate` on cache `c` reaches: `c` itself and, through
`m_higher_caches`, the caches above it. -/
inductive Above (w : World) : Nat → Nat → Prop where
  | self (c : Nat) : Above w c c
  | higher (c h x : Nat) (cc : Cache) :
      w.caches[c]? = some cc → h ∈ cc.m_higher_caches → Above w h x → Above w c x

/-- The world `w'` is `w` with the valid bit of some lines cleared. -/
def Cleared (w w' : World) : Prop :=
  w'.systems = w.systems ∧ w'.rob_done = w.rob_done ∧ w'.caches.length = w.caches.length ∧
  ∀ (x : Nat) (cx : Cache), w.caches[x]? = some cx →
    ∃ cx', w'.caches[x]? = some cx' ∧ cx' = { cx with m_tagStore := cx'.m_tagStore } ∧
      cx'.m_tagStore.length = cx.m_tagStore.length ∧
      ∀ (i : Nat) (set : List CacheLine), cx.m_tagStore[i]? = some set →
        ∃ set', cx'.m_tagStore[i]? = some set' ∧ set'.length = set.length ∧
          ∀ (p : Nat) (l : CacheLine), set[p]? = some l →
            ∃ l', set'[p]? = some l' ∧ (l' = l ∨ l' = { l with valid := false })

/-- Cache `x` of the world holds no valid line for `addr` with the given flags. -/
def Clean (addr tid : Nat) (is_translation : Bool) (w : World) (x : Nat) : Prop :=
  ∀ (cx : Cache) (set : List CacheLine), w.caches[x]? = some cx →
    cx.m_tagStore[cx.get_index addr]? = some set →
    ∀ l ∈ set, lineMatches (cx.get_tag addr) is_translation tid l = false

/-- A cache without its replacement state and MSHR table: the wiring, the geometry and the
tag store. -/
def Cache.core (x : Cache) : Cache :=
  { x with m_repl := { m_num_sets := 0, m_associativity := 0, replStateArr := [] },
           m_mshr_entries := [] }

/-- The world `w'` has the caches of `w` up to replacement state and MSHR tables, and the
hierarchies of `w` up to clock, hit list and wait list, with each coherence-action list
either kept or emptied. -/
def Frame (w w' : World) : Prop :=
  w'.caches.map Cache.core = w.caches.map Cache.core ∧
  w'.systems.length = w.systems.length ∧
  ∀ (s : Nat) (sys : CacheSys), w.systems[s]? = some sys →
    ∃ sys', w'.systems[s]? = some sys' ∧
      sys'.m_other_cache_sys = sys.m_other_cache_sys ∧
      (sys'.m_coh_act_list = sys.m_coh_act_list ∨ sys'.m_coh_act_list = [])

/-- A line update that keeps `valid`, `lock` and the key of the line. -/
def KeepsLine (f : CacheLine → CacheLine) : Prop :=
  ∀ l, (f l).valid = l.valid ∧ (f l).lock = l.lock ∧ (f l).tag = l.tag ∧
    (f l).is_translation = l.is_translation ∧ (f l).tid = l.tid

/-- What makes a property of worlds an invariant of the operations: it survives each kind
of elementary change the operations make.  `peer` says whether broadcasts of other
hierarchies may be handled. -/
structure Stable (env : Env) (P : World → Prop) (peer : Prop) : Prop where
  soft : ∀ (w : World) (c i p : Nat) (f : CacheLine → CacheLine), KeepsLine f → P w →
    P (updLine w c i p f)
  unlock : ∀ (w : World) (c i p : Nat), P w →
    P (updLine w c i p (fun l => { l with lock := false }))
  fill : ∀ (w : World) (c : Nat) (self : Cache) (set : List CacheLine) (addr : Nat)
    (k : kind) (tid : Nat) (lg : Bool) (pos : Nat), w.caches[c]? = some self →
    self.m_tagStore[self.get_index addr]? = some set →
    self.insertPos set addr k tid = .ok pos → P w → P (fillLine self c addr k tid lg pos w)
  frame : ∀ (w w' : World), Frame w w' → P w → P w'
  enqueue : ∀ (w w' : World) (self : Cache) (c : Nat) (a : CoherenceAction) (addr tid : Nat)
    (lg tr : Bool), a.is_broadcast = true → P w →
    enqueueBroadcast self c a addr tid lg tr w = .ok w' → P w'
  inval : ∀ (w w' : World),
    (∃ (c : Nat) (self : Cache), w.caches[c]? = some self ∧ self.m_inclusive = true) →
    ∀ (fuel h addr tid : Nat) (tr : Bool), P w → invalidate fuel h addr tid tr w = .ok w' →
    P w'
  peerB : peer → ∀ (w w' : World) (self : Cache) (c : Nat) (a : CoherenceAction)
    (addr tid : Nat), w.caches[c]? = some self → P w →
    peerBroadcast env self c a addr tid w = .ok w' → P w'
  quiet : peer ∨ ∀ (w : World) (s : Nat) (sys : CacheSys), P w → w.systems[s]? = some sys →
    sys.m_coh_act_list = []

/-- No cache is inclusive, no hierarchy has a peer, and no coherence action is queued. -/
def Quiet (w : World) : Prop :=
  (∀ c ∈ w.caches, c.m_inclusive = false) ∧
  (∀ s ∈ w.systems, s.m_other_cache_sys = [] ∧ s.m_coh_act_list = [])

/-! ## Scenarios -/

/-- An instance of the collaborators for the scenarios: a protocol object that keeps its
state and requests no action, no dynamically selected lower cache, identity address maps. -/
def quietEnv : Env :=
  { setNextCoherenceState := fun s _ => (s, .NONE)
    txnKindForCohAction := fun _ => .DATA_WRITE
    DIRECTORY_DATA_WRITE := .BROADCASTED_DATA_WRITE
    DIRECTORY_TRANSLATION_WRITE := .BROADCASTED_TRANSLATION_WRITE
    get_lower_cache := fun _ _ _ _ _ _ => none
    getL3TLBAddr := fun _ a _ _ => a
    retrieveAddr := fun _ a _ _ _ => (a, true) }

/-- A line that holds nothing. -/
def emptyLine : CacheLine :=
  { valid := false, dirty := false, lock := false, tag := 0, is_translation := false,
    is_large := false, tid := 0, m_coherence_prot := .INVALID }

/-- Modelled from the spec: the constructors of `Cache` and `LRURepl` are declared in
`Cache.hpp` and `ReplPolicy.hpp`.  A new cache has `2 ^ index_bits` sets of `associativity`
invalid lines, an empty MSHR table, and way `i` of every set at stack position `i`. -/
def mkCache (off idx assoc : Nat) (lower : Option Nat) (higher : List Nat) (sys level : Nat)
    (ty : CacheType) (incl : Bool) (lat : Nat) : Cache :=
  { m_num_line_offset_bits := off, m_num_index_bits := idx,
    m_tagStore := List.replicate (2 ^ idx) (List.replicate assoc emptyLine),
    m_repl := { m_num_sets := 2 ^ idx, m_associativity := assoc,
                replStateArr := List.replicate (2 ^ idx) (List.range assoc) },
    m_mshr_entries := [], m_lower_cache := lower, m_higher_caches := higher,
    m_cache_sys := sys, m_core := 0, m_cache_level := level, m_cache_type := ty,
    m_inclusive := incl, m_latency_cycles := lat, m_core_id := 0,
    m_is_large_page_tlb := false }

/-- A data hierarchy at clock 0 with empty event lists and no peers. -/
def mkSys (caches : List Nat) (mem : Nat) : CacheSys :=
  { m_caches := caches, m_clk := 0, m_is_translation_hier := false,
    m_memory_latency := mem, m_other_cache_sys := [], m_hit_list := [],
    m_wait_list := [], m_coh_act_list := [] }

/-- A single-core data hierarchy of two levels with 64-byte lines, wired as
`add_cache_to_hier` does: L1 is cache 0, L2 is cache 1. -/
def twoLevel (idx1 assoc1 : Nat) (incl1 : Bool) (lat1 idx2 assoc2 : Nat) (incl2 : Bool)
    (lat2 mem : Nat) : World :=
  { caches := [mkCache 6 idx1 assoc1 (some 1) [] 0 1 .DATA_ONLY incl1 lat1,
               mkCache 6 idx2 assoc2 none [0] 0 2 .DATA_ONLY incl2 lat2],
    systems := [mkSys [0, 1] mem], rob_done := [] }

/-- A hierarchy of one direct-mapped cache with a single set. -/
def oneLevel (mem : Nat) : World :=
  { caches := [mkCache 6 0 1 none [] 0 1 .DATA_ONLY false 1],
    systems := [mkSys [0] mem], rob_done := [] }

/-- The line at `(index, way)` of cache `c`, when there is one. -/
def World.line? (w : World) (c index way : Nat) : Option CacheLine :=
  match w.caches[c]? with
  | some x =>
    match x.m_tagStore[index]? with
    | some s => s[way]?
    | none => none
  | none => none

/-- Whether cache `c` holds, in the set of `addr`, the line a miss fill for the request
installs (valid, locked, the request's tag, tid and flags, dirty exactly for a write or a
writeback) with the MSHR entry of `addr` bound to it. -/
def Cache.filledFor (c : Cache) (addr : Nat) (txn_kind : kind) (tid : Nat) (is_large : Bool) :
    Bool :=
  match c.m_tagStore[c.get_index addr]? with
  | some set =>
    set.enum.any (fun e =>
      e.2.valid && e.2.lock && (e.2.tag == c.get_tag addr) && (e.2.tid == tid) &&
      (e.2.is_translation == txn_kind.is_translation_txn) && (e.2.is_large == is_large) &&
      (e.2.dirty == txn_kind.is_write_txn) &&
      (match mapFind c.m_mshr_entries addr with
       | some m => m.m_line == (c.get_index addr, e.1)
       | none => false))
  | none => false

/-- The address and kind of every request in the hit lists and the wait lists. -/
def World.pending (w : World) : List (Nat × kind) :=
  (w.systems.map (fun s =>
    (s.m_hit_list ++ s.m_wait_list).map (fun e => (e.2.m_addr, e.2.m_type)))).flatten

/-- A cache whose single set holds the same valid line in both of its two ways. -/
def dupWorld : World :=
  { caches :=
      [{ mkCache 6 0 2 none [] 0 1 .DATA_ONLY false 1 with
         m_tagStore := [[{ emptyLine with valid := true }, { emptyLine with valid := true }]] }],
    systems := [mkSys [0] 1], rob_done := [] }

/-- What decides whether `invalidate` returns: the wiring to the higher caches, the geometry
and the number of sets of every cache. -/
def World.shape (w : World) : List (List Nat × Nat × Nat × Nat) :=
  w.caches.map (fun c =>
    (c.m_higher_caches, c.m_num_line_offset_bits, c.m_num_index_bits, c.m_tagStore.length))

/-- Whether `invalidate` on cache `c` meets, within `fuel` levels of higher caches, only
caches that exist and whose tag store has the set of `addr`. -/
def invalidateReady (w : World) (addr : Nat) : Nat → Nat → Bool
  | 0, _ => false
  | fuel + 1, c =>
    match w.caches[c]? with
    | none => false
    | some self =>
      decide (self.get_index addr < self.m_tagStore.length) &&
      self.m_higher_caches.all
        (fun h => !decide (h < w.caches.length) || invalidateReady w addr fuel h)

/-- A cache whose single line holds address `0x0`, valid and unlocked. -/
def residentCache : Cache :=
  { mkCache 6 0 1 none [] 0 1 .DATA_ONLY false 1 with
    m_tagStore := [[{ emptyLine with valid := true }]] }

/-- The one-level hierarchy whose cache is `residentCache`. -/
def residentWorld : World :=
  { caches := [residentCache], systems := [mkSys [0] 1], rob_done := [] }

/-- A two-way TLB with 4 KB pages whose single MSHR is taken by a miss on page 0. -/
def busyTlb : Cache :=
  { mkCache 12 0 2 none [] 0 1 .TRANSLATION_ONLY false 1 with
    m_tagStore := [[emptyLine,
      { emptyLine with valid := true, lock := true, is_translation := true }]],
    m_repl := { m_num_sets := 1, m_associativity := 2, replStateArr := [[1, 0]] },
    m_mshr_entries := [(0, { m_txn_kind := .TRANSLATION_READ, m_line := (0, 1) })] }

/-- A translation hierarchy whose only cache is `busyTlb`. -/
def busyTlbWorld : World :=
  { caches := [busyTlb],
    systems := [{ mkSys [0] 100 with m_is_translation_hier := true }], rob_done := [] }

instance instDecidableEqExcept {ε α : Type} [DecidableEq ε] [DecidableEq α] :
    DecidableEq (Except ε α)
  | .ok a, .ok b =>
    if h : a = b then isTrue (by rw [h]) else isFalse (by intro h'; cases h'; exact h rfl)
  | .error a, .error b =>
    if h : a = b then isTrue (by rw [h]) else isFalse (by intro h'; cases h'; exact h rfl)
  | .ok _, .error _ => isFalse (by intro h; cases h)
  | .error _, .ok _ => isFalse (by intro h; cases h)

instance instDecidableEmptyCaches (w : World) : Decidable (EmptyCaches w) := by
  unfold EmptyCaches; infer_instance

instance instDecidableMshrBoundLocked (w : World) : Decidable (MshrBoundLocked w) := by
  unfold MshrBoundLocked; infer_instance

instance instDecidableLockImpliesValid (w : World) : Decidable (LockImpliesValid w) := by
  unfold LockImpliesValid; infer_instance

instance instDecidableInclusion (w : World) : Decidable (Inclusion w) := by
  unfold Inclusion; infer_instance

/-! ## Preservation of properties -/

/-- The coherence handler, called from within its own hierarchy, preserves `P`. -/
def HcaPres (P : World → Prop) (hca : CohHandler) : Prop :=
  ∀ c a addr tid lg lat tr w w', hca c a addr tid lg lat tr true w = .ok w' → P w → P w'

/-- The lookup preserves `P`. -/
def LafPres (P : World → Prop) (laf : Lookup) : Prop :=
  ∀ c addr k tid lg lat w r, laf c addr k tid lg lat w = .ok r → P w → P r.2

/-- The eviction preserves `P`. -/
def EvPres (P : World → Prop) (ev : Evictor) : Prop :=
  ∀ c i p w w', ev c i p w = .ok w' → P w → P w'

/-- A release preserves `P`. -/
def RelPres (P : World → Prop) (rel : Nat → Request → World → Except Err (Request × World)) :
    Prop :=
  ∀ c r w res, rel c r w = .ok res → P w → P res.2

/-- The property `S` holds of every set of every cache. -/
def AllSets (S : List CacheLine → Prop) (w : World) : Prop :=
  ∀ c ∈ w.caches, ∀ set ∈ c.m_tagStore, S set

instance instDecidableQuiet (w : World) : Decidable (Quiet w) := by
  unfold Quiet; infer_instance

/-! ## Scenarios of the replacement policy, the event engine and the coherence handling -/

/-- A policy object for two sets of four ways: the first set after some accesses, the second
in ascending order. -/
def lruExample : LRURepl :=
  { m_num_sets := 2, m_associativity := 4, replStateArr := [[2, 3, 0, 1], [0, 1, 2, 3]] }

/-- An instance of the collaborators in which a broadcast write is decoded to the directory
write of its kind and drives the line's protocol object to `INVALID`; every other transition
keeps the state and requests no action. -/
def dirEnv : Env :=
  { setNextCoherenceState := fun s k =>
      if k = .BROADCASTED_DATA_WRITE ∨ k = .BROADCASTED_TRANSLATION_WRITE then (.INVALID, .NONE)
      else (s, .NONE)
    txnKindForCohAction := fun a =>
      match a with
      | .BROADCAST_DATA_WRITE => .BROADCASTED_DATA_WRITE
      | .BROADCAST_DATA_READ => .BROADCASTED_DATA_READ
      | .BROADCAST_TRANSLATION_WRITE => .BROADCASTED_TRANSLATION_WRITE
      | .BROADCAST_TRANSLATION_READ => .BROADCASTED_TRANSLATION_READ
      | .MEMORY_DATA_WRITEBACK => .DATA_WRITEBACK
      | .MEMORY_TRANSLATION_WRITEBACK => .TRANSLATION_WRITEBACK
      | .NONE => .DATA_READ
    DIRECTORY_DATA_WRITE := .BROADCASTED_DATA_WRITE
    DIRECTORY_TRANSLATION_WRITE := .BROADCASTED_TRANSLATION_WRITE
    get_lower_cache := fun _ _ _ _ _ _ => none
    getL3TLBAddr := fun _ a _ _ => a
    retrieveAddr := fun _ a _ _ _ => (a, true) }

/-- A data hierarchy of a single cache with 64-byte lines. -/
def flatLevel (idx assoc mem : Nat) : World :=
  { caches := [mkCache 6 idx assoc none [] 0 1 .DATA_ONLY false 1],
    systems := [mkSys [0] mem], rob_done := [] }

/-- A translation hierarchy of `n` direct-mapped single-set TLBs for 4 KB pages, numbered as
`add_cache_to_hier` numbers them: TLB `i` is at level `(i + 2) / 2`. -/
def tlbHier (n mem : Nat) : World :=
  { caches := (List.range n).map
      (fun i => mkCache 12 0 1 none [] 0 ((i + 2) / 2) .TRANSLATION_ONLY false 1),
    systems := [{ mkSys (List.range n) mem with m_is_translation_hier := true }],
    rob_done := [] }

/-- The wait list of hierarchy `s`. -/
def World.waitList (w : World) (s : Nat) : List (Nat × Request) :=
  match w.systems[s]? with
  | some sys => sys.m_wait_list
  | none => []

/-- The request `Request(addr, kind, m_callback, tid, is_large, 0)` with the callback bound
to `release_lock` of cache `c`. -/
def requestOf (c addr : Nat) (txn_kind : kind) (tid : Nat) (is_large : Bool) : Request :=
  { m_addr := addr, m_type := txn_kind, m_core_id := 0, m_cache_level := 0, m_tid := tid,
    m_is_large := is_large, m_callback := c }

/-- Valid bit, lock bit and tag of every line of every cache. -/
def World.lineBits (w : World) : List (List (List (Bool × Bool × Nat))) :=
  w.caches.map (fun c => c.m_tagStore.map (fun s => s.map (fun l => (l.valid, l.lock, l.tag))))

/-- Address and originating kind of every MSHR entry of every cache. -/
def World.mshrKinds (w : World) : List (List (Nat × kind)) :=
  w.caches.map (fun c => c.m_mshr_entries.map (fun e => (e.1, e.2.m_txn_kind)))

/-- What the scenarios observe of a world: the line bits, the MSHR entries, the wait list
of hierarchy 0 and the notifications of the ROB. -/
structure Snapshot where
  lines : List (List (List (Bool × Bool × Nat)))
  mshr : List (List (Nat × kind))
  wait : List (Nat × Request)
  rob : List (Nat × kind)
  deriving DecidableEq, Repr

/-- The snapshot of a world. -/
def World.snapshot (w : World) : Snapshot :=
  { lines := w.lineBits, mshr := w.mshrKinds, wait := w.waitList 0, rob := w.rob_done }

/-- The synthetic request a peer queues with a broadcast of a translation write to address
`0x0` of thread 1 (Cache.cpp:434). -/
def peerWrite : Request :=
  { m_addr := 0, m_type := .TRANSLATION_WRITE, m_core_id := 0, m_cache_level := 0, m_tid := 1,
    m_is_large := false, m_callback := 0 }

/-- The world with `e` as the only entry of the coherence-action list of hierarchy `s`. -/
def World.withQueued (w : World) (s : Nat) (e : Request × CoherenceAction) : World :=
  updSys w s (fun x => { x with m_coh_act_list := [e] })

/-- Whether `is_last_level` holds of the level of cache `c` in hierarchy `s`. -/
def World.atLastLevel (w : World) (s c : Nat) : Option Bool :=
  match w.systems[s]?, w.caches[c]? with
  | some sys, some x => some (sys.is_last_level x.m_cache_level)
  | _, _ => none

/-! ## Wiring and replacement state -/

/-- The wiring and parameters of a cache: everything but the tag store, the replacement
state and the MSHR table. -/
def Cache.wiring (x : Cache) : Cache :=
  { x.core with m_tagStore := [] }

/-- From `w` to `w'` every cache keeps its wiring, and every cache of rank at most `m` keeps
its replacement state. -/
def ReplKept (rk : Nat → Nat) (m : Nat) (w w' : World) : Prop :=
  w'.caches.length = w.caches.length ∧
  ∀ (y : Nat) (cy : Cache), w.caches[y]? = some cy →
    ∃ cy', w'.caches[y]? = some cy' ∧ cy'.wiring = cy.wiring ∧
      (rk y ≤ m → cy'.m_repl = cy.m_repl)

/-- The lower cache of a cache, static or selected by the core, has a larger rank: the
hierarchy has no cycle on the way down. -/
def Descending (env : Env) (rk : Nat → Nat) (w : World) : Prop :=
  ∀ (x : Nat) (cx : Cache) (addr : Nat) (tr lg : Bool) (l : Nat), w.caches[x]? = some cx →
    find_lower_cache_in_core env w cx addr tr lg = some l → rk x < rk l

/-- The coherence handler on cache `c` keeps the replacement states of rank at most `m`. -/
def HcaKept (env : Env) (rk : Nat → Nat) (m : Nat) (hca : CohHandler) (c : Nat) : Prop :=
  ∀ a addr tid lg lat tr same w w', Descending env rk w →
    hca c a addr tid lg lat tr same w = .ok w' → ReplKept rk m w w'

/-- The lookup on a cache of rank above `m` keeps the replacement states of rank at most
`m`. -/
def LafKept (env : Env) (rk : Nat → Nat) (m : Nat) (laf : Lookup) : Prop :=
  ∀ l addr k tid lg lat w r, m < rk l → Descending env rk w →
    laf l addr k tid lg lat w = .ok r → ReplKept rk m w r.2

/-- The eviction on cache `c` keeps the replacement states of rank at most `m`. -/
def EvKept (env : Env) (rk : Nat → Nat) (m : Nat) (ev : Evictor) (c : Nat) : Prop :=
  ∀ i p w w', Descending env rk w → ev c i p w = .ok w' → ReplKept rk m w w'

/-! ## The steps of `tick` -/

/-- The first loop of `tick` (CacheSys.cpp:87-96) on the hierarchy `sys`: every queued
action is applied to `m_caches[0 .. size-2]`. -/
def tickCoherence (env : Env) (fuel : Nat) (sys : CacheSys) (w : World) : Except Err World :=
  sys.m_coh_act_list.foldlM
    (fun wacc (e : Request × CoherenceAction) =>
      if sys.m_caches.length = 0 then .error .outOfBounds
      else
        (sys.m_caches.take (sys.m_caches.length - 1)).foldlM
          (fun wacc2 cid =>
            handle_coherence_action env fuel cid e.2 e.1.m_addr e.1.m_tid e.1.m_is_large 0
              e.1.is_translation_request false wacc2)
          wacc)
    w

/-- The state of hierarchy `s` between the two retirement loops of `tick`: the
coherence-action list is empty, the clock is `clk` and the hit list is pruned. -/
def World.pruned (w : World) (s clk : Nat) : World :=
  updSys w s
    (fun x => { x with m_coh_act_list := [], m_clk := clk,
                       m_hit_list := x.m_hit_list.filter (fun e => !(decide (clk ≥ e.1))) })

/-- The callback of each entry of `due`, invoked once, in the order of the list. -/
def tickCallbacks (env : Env) (fuel : Nat) (due : List (Nat × Request)) (w : World) :
    Except Err World :=
  due.foldlM
    (fun wacc (e : Nat × Request) => do
      let res ← release_lock env fuel e.2.m_callback e.2 wacc
      pure res.2)
    w

/-- The state of hierarchy `s` after the second retirement loop of `tick`: the wait list is
pruned. -/
def World.waitPruned (w : World) (s clk : Nat) : World :=
  updSys w s
    (fun x => { x with m_wait_list := x.m_wait_list.filter (fun e => !(decide (clk ≥ e.1))) })

/-- The hierarchy of `oneLevel 1` at clock 0 with the request of a `DATA_READ 0x0` miss
waiting for cycle 1. -/
def inFlightSys : CacheSys :=
  { mkSys [0] 1 with m_wait_list := [(1, requestOf 0 0 .DATA_READ 0 false)] }

/-- No memory writeback is queued in a coherence-action list. -/
def NoQueuedWriteback (w : World) : Prop :=
  ∀ s ∈ w.systems, ∀ e ∈ s.m_coh_act_list, e.2.is_memory_writeback = false

/-- Sixteen reads at cache 1, of the lines `0x0, 0x40, ..., 0x3C0`, each followed by one
`tick` of hierarchy 0. -/
def sixteenMisses : List Op :=
  ((List.range 16).map
    (fun i => [Op.lookupAndFillCache 1 (0x40 * i) .DATA_READ 0 false 0, Op.tick 0])).flatten

/-- Valid bit, lock bit and tag of the line at `(index, way)` of cache `c`. -/
def World.bitsAt (w : World) (c index way : Nat) : Option (Bool × Bool × Nat) :=
  (w.line? c index way).map (fun l => (l.valid, l.lock, l.tag))

/-- The MSHR entries of cache `c`: address and originating kind. -/
def World.mshrOf (w : World) (c : Nat) : List (Nat × kind) :=
  match w.caches[c]? with
  | some x => x.m_mshr_entries.map (fun e => (e.1, e.2.m_txn_kind))
  | none => []

/-- The addresses of the requests in the wait list of hierarchy `s`. -/
def World.waiting (w : World) (s : Nat) : List Nat :=
  (w.waitList s).map (fun e => e.2.m_addr)

/-! ## `Request.hpp` and `Core.hpp`: the comparators -/

/-- The integer value of a `kind`: the enumerators of `utils.hpp` count from 0 in the order of
their declaration. -/
def kind.toNat : kind → Nat
  | .DATA_READ => 0
  | .DATA_WRITE => 1
  | .TRANSLATION_READ => 2
  | .TRANSLATION_WRITE => 3
  | .DATA_WRITEBACK => 4
  | .TRANSLATION_WRITEBACK => 5
  | .BROADCASTED_DATA_WRITE => 6
  | .BROADCASTED_DATA_READ => 7
  | .BROADCASTED_TRANSLATION_WRITE => 8
  | .BROADCASTED_TRANSLATION_READ => 9

/-- The call operator of `RequestComparator` (Request.hpp:58-61): `>` on each of the five
fields, joined by `&&`; the two `bool` operands of `m_is_large` compare as 0 and 1. -/
def RequestComparator (r1 r2 : Request) : Bool :=
  decide (r1.m_addr > r2.m_addr) && decide (r1.m_type.toNat > r2.m_type.toNat) &&
  decide (r1.m_tid > r2.m_tid) && decide (r1.m_is_large.toNat > r2.m_is_large.toNat) &&
  decide (r1.m_core_id > r2.m_core_id)

/-- The key class `Core::AddrMapKey` (Core.hpp:23-36). -/
structure AddrMapKey where
  m_addr : Nat
  m_tid : Nat
  m_is_large : Bool
  deriving DecidableEq, Repr, Inhabited

/-- The call operator of `Core::AddrMapComparator` (Core.hpp:38-51): three tests in a row,
each returning true when its field of `a` is below that of `b`. -/
def AddrMapComparator (a b : AddrMapKey) : Bool :=
  if a.m_addr < b.m_addr then true
  else if a.m_tid < b.m_tid then true
  else if a.m_is_large.toNat < b.m_is_large.toNat then true
  else false

/-- The method `Cache::is_hit` with the subscript of Cache.cpp:45 checked against the size of
the set.  The operands of `&` are both evaluated, so `set[hit_pos]` is read with the position
`is_found` left in `hit_pos`, whether or not a line matched. -/
def is_hit_checked (set : List CacheLine) (tag : Nat) (is_translation : Bool) (tid : Nat) :
    Except Err (Bool × Nat) :=
  let r := is_found set tag is_translation tid
  match set[r.2]? with
  | some l => .ok (r.1 && !l.lock, r.2)
  | none => .error .outOfBounds

/-! ## `CacheSys.cpp`: building a hierarchy -/

/-- The method `CacheSys::add_cache_to_hier(cache)` on hierarchy `s` for cache `c`.
`NUM_MAX_CACHES` is the constant of `CacheSys.hpp`; `core` is the `m_core` of the hierarchy,
which the caches receive through `set_core`.  The latency tables written at the end of the
method (CacheSys.cpp:64-76) are read by no method of `Cache.cpp` or `CacheSys.cpp` and are
not part of the world; that part of the method is `add_cache_to_hier_latency`. -/
def add_cache_to_hier (NUM_MAX_CACHES core s c : Nat) (w : World) : Except Err World := do
  let sys ← getSys w s
  let cache ← getCache w c
  let typeOk :=
    if sys.m_is_translation_hier then cache.m_cache_type == CacheType.TRANSLATION_ONLY
    else cache.m_cache_type != CacheType.TRANSLATION_ONLY
  if typeOk then
    let size := sys.m_caches.length
    let w1 ←
      (if !sys.m_is_translation_hier then
        if size > 0 then
          match sys.m_caches[size - 1]? with
          | some prev => do
            let wa := updCache w c (fun x =>
              { x with m_higher_caches := x.m_higher_caches ++ [prev], m_cache_level := size + 1 })
            let _ ← getCache wa prev
            pure (updCache wa prev (fun x => { x with m_lower_cache := some c }))
          | none => .error .outOfBounds
        else pure (updCache w c (fun x => { x with m_cache_level := size + 1 }))
      else pure (updCache w c (fun x => { x with m_cache_level := (size + 2) / 2 })))
    let w2 := updCache w1 c
      (fun x => { x with m_lower_cache := none, m_cache_sys := s, m_core := core })
    let w3 := updSys w2 s (fun x => { x with m_caches := x.m_caches ++ [c] })
    let limit := if sys.m_is_translation_hier then NUM_MAX_CACHES * 2 else NUM_MAX_CACHES
    if size + 1 ≤ limit then pure w3 else .error (.assertFailed .hierSize)
  else .error (.assertFailed .hierCacheType)

/-- The caches `cs`, in this order, are the levels of the data hierarchy `s`: the cache at
position `i` (from 0) has level `i + 1`, its lower cache is the one at position `i + 1`, if
any, its higher caches are the one at position `i - 1`, if any, and `is_last_level` holds of
its level exactly at the last position. -/
def Chained (s : Nat) (cs : List Nat) (w : World) : Prop :=
  ∃ sys, w.systems[s]? = some sys ∧ sys.m_caches = cs ∧ sys.m_is_translation_hier = false ∧
    ∀ (i c : Nat), cs[i]? = some c →
      ∃ x, w.caches[c]? = some x ∧ x.m_cache_level = i + 1 ∧
        x.m_lower_cache = cs[i + 1]? ∧
        x.m_higher_caches = (if i = 0 then [] else cs[i - 1]?.toList) ∧
        (sys.is_last_level x.m_cache_level = true ↔ i + 1 = cs.length)

/-- A cache as its constructor leaves it, as far as `add_cache_to_hier` is concerned: it
exists, it is not a TLB, and it has no higher cache yet. -/
def FreshDataCache (w : World) (c : Nat) : Prop :=
  ∃ x, w.caches[c]? = some x ∧ x.m_cache_type ≠ CacheType.TRANSLATION_ONLY ∧
    x.m_higher_caches = []

/-- Three unwired caches and an empty data hierarchy. -/
def unwired : World :=
  { caches := [mkCache 6 0 1 none [] 7 0 .DATA_ONLY false 1,
               mkCache 6 1 2 none [] 7 0 .DATA_ONLY false 10,
               mkCache 6 2 4 none [] 7 0 .DATA_AND_TRANSLATION false 20],
    systems := [mkSys [] 100], rob_done := [] }

/-! ## Release of an MSHR entry -/

/-- Every higher cache of a cache has a smaller rank: the hierarchy has no cycle on the way
up. -/
def HigherAbove (rk : Nat → Nat) (w : World) : Prop :=
  ∀ (x : Nat) (cx : Cache) (h : Nat), w.caches[x]? = some cx → h ∈ cx.m_higher_caches →
    h < w.caches.length → rk h < rk x

/-- From `w` to `w'` the hierarchies are the same, every cache keeps its wiring and the shape
of its tag store and gains no MSHR entry, and every cache of rank at least `m` is the
same. -/
def Released (rk : Nat → Nat) (m : Nat) (w w' : World) : Prop :=
  w'.caches.length = w.caches.length ∧ w'.systems = w.systems ∧
  ∀ (y : Nat) (cy : Cache), w.caches[y]? = some cy →
    ∃ cy', w'.caches[y]? = some cy' ∧ cy'.wiring = cy.wiring ∧
      cy'.m_tagStore.map List.length = cy.m_tagStore.map List.length ∧
      (∀ e ∈ cy'.m_mshr_entries, e ∈ cy.m_mshr_entries) ∧ (m ≤ rk y → cy' = cy)

/-- Whether the line `m_tagStore[index][way]` exists. -/
def Cache.lineExists (self : Cache) (index way : Nat) : Bool :=
  match self.getLine index way with
  | .ok _ => true
  | .error _ => false

/-- Every cache points to a hierarchy that exists and every MSHR entry is bound to a line
that exists. -/
def ReleaseReady (w : World) : Prop :=
  ∀ cx ∈ w.caches, (w.systems[cx.m_cache_sys]?).isSome = true ∧
    ∀ e ∈ cx.m_mshr_entries, cx.lineExists e.2.m_line.1 e.2.m_line.2 = true

instance instDecidableReleaseReady (w : World) : Decidable (ReleaseReady w) := by
  unfold ReleaseReady; infer_instance

/-- The request of the miss `DATA_READ 0x0` that the last level of `twoLevel` queued. -/
def readOfLine0 : Request := requestOf 1 0 .DATA_READ 0 false

/-! ## Sequences of accesses to one set -/

/-- The calls `updateReplState(set_num, way)` for the ways of `ways`, in order. -/
def accessAll (r : LRURepl) (set_num : Nat) (ways : List Nat) : Except Err LRURepl :=
  ways.foldlM (fun acc way => acc.updateReplState set_num way) r

/-- The distinct ways accessed after the last access to `v` in the sequence `ways` (all the
distinct ways of the sequence when `v` is not accessed). -/
def waysAfterLast (ways : List Nat) (v : Nat) : List Nat :=
  (ways.reverse.takeWhile (fun x => x != v)).dedup

/-! ## `CacheSys.cpp`: the latency tables -/

/-- The two latency tables of a hierarchy, `m_cache_latency_cycles` and
`m_total_latency_cycles`, declared in `CacheSys.hpp`. -/
structure LatencyTables where
  m_cache_latency_cycles : List Nat
  m_total_latency_cycles : List Nat
  deriving DecidableEq, Repr, Inhabited

/-- The assignment `table[i] = v`. -/
def setEntry (table : List Nat) (i v : Nat) : Except Err (List Nat) :=
  if i < table.length then .ok (table.set i v) else .error .outOfBounds

/-- The read of `table[i]`. -/
def getEntry (table : List Nat) (i : Nat) : Except Err Nat :=
  match table[i]? with
  | some v => .ok v
  | none => .error .outOfBounds

/-- The last part of `CacheSys::add_cache_to_hier` (CacheSys.cpp:64-76), which writes the
latency tables and nothing else: `size` is `m_caches.size()` after the `push_back` and
`curr_cache_latency` is `get_latency_cycles()` of the cache added.  `MEMORY_ACCESS_ID` is a
constant of a header that is not under src. -/
def add_cache_to_hier_latency (MEMORY_ACCESS_ID size curr_cache_latency : Nat)
    (t : LatencyTables) : Except Err LatencyTables := do
  let cache_latency ← setEntry t.m_cache_latency_cycles (size - 1) curr_cache_latency
  if size > 1 then
    let prev ← getEntry t.m_total_latency_cycles (size - 2)
    let total1 ← setEntry t.m_total_latency_cycles (size - 1) (prev + curr_cache_latency)
    let mem ← getEntry total1 MEMORY_ACCESS_ID
    let total2 ← setEntry total1 MEMORY_ACCESS_ID (mem + curr_cache_latency)
    pure { m_cache_latency_cycles := cache_latency, m_total_latency_cycles := total2 }
  else
    let own ← getEntry cache_latency (size - 1)
    let total1 ← setEntry t.m_total_latency_cycles (size - 1) own
    let mem ← getEntry total1 MEMORY_ACCESS_ID
    let total2 ← setEntry total1 MEMORY_ACCESS_ID (mem + curr_cache_latency)
    pure { m_cache_latency_cycles := cache_latency, m_total_latency_cycles := total2 }

/-- The latency tables after the caches with the latencies `lats` have been added, in this
order, to a hierarchy that had none. -/
def latencyTablesAfter (MEMORY_ACCESS_ID : Nat) (lats : List Nat) (t : LatencyTables) :
    Except Err LatencyTables :=
  lats.enum.foldlM (fun acc e => add_cache_to_hier_latency MEMORY_ACCESS_ID (e.1 + 1) e.2 acc) t

/-! # Theorems -/

/-! ## Running operations -/

theorem reachable_of_runOps (env : Env) (allowed : Op → Bool) (fuel : Nat) (w0 : World) :
    ∀ (ops : List Op) (w1 w : World), Reachable env allowed w0 w1 →
      (∀ op ∈ ops, allowed op = true) → runOps env fuel ops w1 = .ok w →
      Reachable env allowed w0 w := by
  intro ops
  induction ops with
  | nil =>
    intro w1 w h1 _ h
    simp only [runOps, Except.ok.injEq] at h
    exact h ▸ h1
  | cons op rest ih =>
    intro w1 w h1 hall h
    simp only [runOps] at h
    cases hop : op.run env fuel w1 with
    | error e => simp [hop] at h
    | ok w2 =>
      simp only [hop] at h
      exact ih w2 w (Reachable.step op fuel h1 (hall op (List.mem_cons_self _ _)) hop)
        (fun o ho => hall o (List.mem_cons_of_mem _ ho)) h

theorem exists_ok_of_check (x : Except Err World) (chk : World → Bool)
    (h : (match x with | .ok w => chk w | .error _ => false) = true) :
    ∃ w, x = .ok w ∧ chk w = true := by
  cases x with
  | error e => simp at h
  | ok w => exact ⟨w, rfl, h⟩

theorem exists_reachable (env : Env) (allowed : Op → Bool) (fuel : Nat) (ops : List Op)
    (w0 : World) (P : World → Prop) [DecidablePred P] (hall : ops.all allowed = true)
    (h : (match runOps env fuel ops w0 with
          | .ok w => decide (P w)
          | .error _ => false) = true) :
    ∃ w, Reachable env allowed w0 w ∧ P w := by
  obtain ⟨w, hw, hc⟩ := exists_ok_of_check _ (fun w => decide (P w)) h
  refine ⟨w, reachable_of_runOps env allowed fuel w0 ops w0 w Reachable.init ?_ hw, ?_⟩
  · intro op hop
    exact List.all_eq_true.mp hall op hop
  · simpa using hc

/-! ## Scenarios that end outside the specified behaviour -/

/-- C2: in an inclusive two-level hierarchy (L1 with two sets, L2 with one line), after
`DATA_READ 0x0` has completed, `DATA_READ 0x40` returns REQUEST_MISS at L1, yet on return L1
does not hold the filled line: the eviction in L2 rebuilt the address from the overwritten
slot and back-invalidated the line L1 had just installed. -/
theorem miss_fill_back_invalidated :
    EmptyCaches (twoLevel 1 1 true 1 0 1 true 1 1) ∧
    ∃ w w' c', Reachable quietEnv Op.isLookupReleaseTick (twoLevel 1 1 true 1 0 1 true 1 1) w ∧
      lookupAndFillCache quietEnv 4 0 0x40 .DATA_READ 0 false 0 w =
        .ok (.REQUEST_MISS, w') ∧
      w'.caches[0]? = some c' ∧ c'.filledFor 0x40 .DATA_READ 0 false = false ∧
      w'.line? 0 1 0 = some { emptyLine with lock := true } := by
  refine ⟨by decide!, ?_⟩
  obtain ⟨w, hw, hc⟩ := exists_ok_of_check
    (runOps quietEnv 4 [.lookupAndFillCache 0 0 .DATA_READ 0 false 0, .tick 0, .tick 0]
      (twoLevel 1 1 true 1 0 1 true 1 1))
    (fun w =>
      match lookupAndFillCache quietEnv 4 0 0x40 .DATA_READ 0 false 0 w with
      | .ok (st, w') =>
        decide (st = .REQUEST_MISS) &&
        (match w'.caches[0]? with
         | some c' => !(c'.filledFor 0x40 .DATA_READ 0 false)
         | none => false) &&
        decide (w'.line? 0 1 0 = some { emptyLine with lock := true })
      | .error _ => false) (by decide!)
  refine ⟨w, ?_⟩
  cases hl : lookupAndFillCache quietEnv 4 0 0x40 .DATA_READ 0 false 0 w with
  | error e => simp [hl] at hc
  | ok r =>
    obtain ⟨st, w'⟩ := r
    simp only [hl, Bool.and_eq_true, decide_eq_true_eq] at hc
    cases hc0 : w'.caches[0]? with
    | none => simp [hc0] at hc
    | some c' =>
      simp only [hc0, Bool.not_eq_true'] at hc
      exact ⟨w', c', reachable_of_runOps _ _ _ _ _ _ _ Reachable.init (by decide) hw,
        by rw [hc.1.1], hc0, hc.1.2, hc.2⟩

/-- C4: the scenario of the spec (1-way L1, 2-way L2, both inclusive, latencies 1, 10 and
100).  After `DATA_WRITE 0x0000` has completed, L1 holds the line dirty with tag 0;
`DATA_READ 0x1000` then misses in L1 and evicts, but no writeback request is filed: the only
request in the hit list and the wait list of the hierarchy is the read of `0x1000`.  The
eviction ran on the overwritten, clean slot. -/
theorem dirty_victim_not_written_back :
    EmptyCaches (twoLevel 0 1 true 1 0 2 true 10 100) ∧
    ∃ w, Reachable quietEnv Op.isLookupReleaseTick (twoLevel 0 1 true 1 0 2 true 10 100) w ∧
      (w.line? 0 0 0).map (fun l => (l.valid, l.dirty, l.lock, l.tag)) =
        some (true, true, false, 0) ∧
      (lookupAndFillCache quietEnv 4 0 0x1000 .DATA_READ 0 false 0 w).map
          (fun r => (r.1, r.2.pending)) =
        .ok (.REQUEST_MISS, [(0x1000, .DATA_READ)]) := by
  refine ⟨by decide!, ?_⟩
  exact exists_reachable quietEnv _ 4
    (.lookupAndFillCache 0 0 .DATA_WRITE 0 false 0 :: List.replicate 101 (.tick 0)) _ _
    (by decide!) (by decide!)

/-- C5: in the inclusive hierarchy of the spec scenario, after `DATA_READ 0x0000` the write
`DATA_WRITE 0x1000` misses in L1, evicts, sends `DATA_WRITEBACK` to L2, where it misses; the
assertion on the writeback status in `evict` fails. -/
theorem evict_writeback_assertion_fails :
    EmptyCaches (twoLevel 0 1 true 1 0 2 true 10 100) ∧
    ∃ w, Reachable quietEnv Op.isLookupReleaseTick (twoLevel 0 1 true 1 0 2 true 10 100) w ∧
      lookupAndFillCache quietEnv 4 0 0x1000 .DATA_WRITE 0 false 0 w =
        .error (.assertFailed .evictWriteback) := by
  refine ⟨by decide!, ?_⟩
  exact exists_reachable quietEnv _ 4 [.lookupAndFillCache 0 0 .DATA_READ 0 false 0] _ _
    (by decide!) (by decide!)

/-- C7: in a two-level hierarchy of direct-mapped single-set caches, the reads of `0x8` and
`0x0` (one line, two MSHR entries) and the write of `0x40` lead, after the first two
releases, to a state in which an MSHR entry is bound to an unlocked line; the write of
`0x10` then fails the assertion `m_line->lock` of the MSHR-hit path in L2. -/
theorem mshr_entry_bound_to_unlocked_line :
    EmptyCaches (twoLevel 0 1 false 1 0 1 false 1 3) ∧
    ∃ w, Reachable quietEnv Op.isLookupReleaseTick (twoLevel 0 1 false 1 0 1 false 1 3) w ∧
      ¬ MshrBoundLocked w ∧
      lookupAndFillCache quietEnv 4 0 0x10 .DATA_WRITE 0 false 0 w =
        .error (.assertFailed .mshrLineLocked) := by
  refine ⟨by decide!, ?_⟩
  exact exists_reachable quietEnv _ 4
    [.lookupAndFillCache 0 8 .DATA_READ 0 false 0, .tick 0, .tick 0,
     .lookupAndFillCache 0 0 .DATA_READ 0 false 0,
     .lookupAndFillCache 0 0x40 .DATA_WRITE 0 false 0, .tick 0, .tick 0, .tick 0] _ _
    (by decide!) (by decide!)

/-- C8: in an inclusive two-level hierarchy (L1 with two sets, L2 with one line), after
`DATA_READ 0x0` and `DATA_READ 0x40` have both completed, L1 still holds line `0x0` valid
while L2 holds only `0x40` and has no MSHR entry open: inclusion is broken. -/
theorem inclusion_broken :
    EmptyCaches (twoLevel 1 1 true 1 0 1 true 1 1) ∧
    ∃ w, Reachable quietEnv Op.isLookupCoherenceTick (twoLevel 1 1 true 1 0 1 true 1 1) w ∧
      ¬ Inclusion w ∧
      w.caches.map (fun c => c.m_mshr_entries.length) = [0, 0] ∧
      w.caches.map Cache.validLines = [[(0x0, false, 0)], [(0x40, false, 0)]] := by
  refine ⟨by decide!, ?_⟩
  exact exists_reachable quietEnv _ 4
    [.lookupAndFillCache 0 0 .DATA_READ 0 false 0, .tick 0, .tick 0,
     .lookupAndFillCache 0 0x40 .DATA_READ 0 false 0, .tick 0, .tick 0] _ _
    (by decide!) (by decide!)

/-- C9, as stated, fails: after `DATA_READ 0x0` misses in a cache and `invalidate(0x0)` is
called on it, the line is locked and not valid. -/
theorem locked_line_invalidated :
    EmptyCaches (oneLevel 1) ∧
    ∃ w, Reachable quietEnv Op.any (oneLevel 1) w ∧ ¬ LockImpliesValid w := by
  refine ⟨by decide!, ?_⟩
  exact exists_reachable quietEnv _ 4
    [.lookupAndFillCache 0 0 .DATA_READ 0 false 0, .invalidate 0 0 0 false] _ _
    (by decide!) (by decide!)

/-- On a set built with two valid lines of one key, a state that no run from empty caches
produces, the first `invalidate` clears one of the lines and the second call clears the
other. -/
theorem invalidate_twice_differs :
    invalidate 1 0 0 0 false dupWorld =
      .ok (updLine dupWorld 0 0 0 (fun l => { l with valid := false })) ∧
    invalidate 1 0 0 0 false (updLine dupWorld 0 0 0 (fun l => { l with valid := false })) =
      .ok (updLine (updLine dupWorld 0 0 0 (fun l => { l with valid := false })) 0 0 1
        (fun l => { l with valid := false })) ∧
    updLine (updLine dupWorld 0 0 0 (fun l => { l with valid := false })) 0 0 1
        (fun l => { l with valid := false }) ≠
      updLine dupWorld 0 0 0 (fun l => { l with valid := false }) := by
  decide!

/-! ## Lemmas on the model -/

/-! ## Inversion of the error monad -/

theorem bind_ok {α β : Type} {x : Except Err α} {f : α → Except Err β} {b : β}
    (h : (x >>= f) = .ok b) : ∃ a, x = .ok a ∧ f a = .ok b := by
  cases x with
  | error e => simp [bind, Except.bind] at h
  | ok a => exact ⟨a, rfl, h⟩

@[simp] theorem ok_bind {α β : Type} (a : α) (f : α → Except Err β) :
    ((Except.ok a : Except Err α) >>= f) = f a := rfl

@[simp] theorem pure_eq_ok {α : Type} (a : α) : (pure a : Except Err α) = .ok a := rfl

/-! ## Frame lemmas for the world updates -/

@[simp] theorem updCache_systems (w : World) (c : Nat) (f : Cache → Cache) :
    (updCache w c f).systems = w.systems := rfl

@[simp] theorem updCache_rob (w : World) (c : Nat) (f : Cache → Cache) :
    (updCache w c f).rob_done = w.rob_done := rfl

@[simp] theorem updCache_length (w : World) (c : Nat) (f : Cache → Cache) :
    (updCache w c f).caches.length = w.caches.length := by
  simp [updCache]

@[simp] theorem updLine_systems (w : World) (c i p : Nat) (f : CacheLine → CacheLine) :
    (updLine w c i p f).systems = w.systems := rfl

@[simp] theorem updLine_rob (w : World) (c i p : Nat) (f : CacheLine → CacheLine) :
    (updLine w c i p f).rob_done = w.rob_done := rfl

@[simp] theorem updLine_length (w : World) (c i p : Nat) (f : CacheLine → CacheLine) :
    (updLine w c i p f).caches.length = w.caches.length := by
  simp [updLine]

@[simp] theorem updSys_caches (w : World) (s : Nat) (f : CacheSys → CacheSys) :
    (updSys w s f).caches = w.caches := rfl

@[simp] theorem updSys_rob (w : World) (s : Nat) (f : CacheSys → CacheSys) :
    (updSys w s f).rob_done = w.rob_done := rfl

@[simp] theorem updSys_length (w : World) (s : Nat) (f : CacheSys → CacheSys) :
    (updSys w s f).systems.length = w.systems.length := by
  simp [updSys]

@[simp] theorem getSys_updCache (w : World) (c s : Nat) (f : Cache → Cache) :
    getSys (updCache w c f) s = getSys w s := rfl

@[simp] theorem getSys_updLine (w : World) (c i p s : Nat) (f : CacheLine → CacheLine) :
    getSys (updLine w c i p f) s = getSys w s := rfl

@[simp] theorem getCache_updSys (w : World) (s c : Nat) (f : CacheSys → CacheSys) :
    getCache (updSys w s f) c = getCache w c := rfl

theorem getCache_eq_ok {w : World} {c : Nat} {x : Cache} :
    getCache w c = .ok x ↔ w.caches[c]? = some x := by
  unfold getCache
  cases h : w.caches[c]? <;> simp

theorem getSys_eq_ok {w : World} {s : Nat} {x : CacheSys} :
    getSys w s = .ok x ↔ w.systems[s]? = some x := by
  unfold getSys
  cases h : w.systems[s]? <;> simp

theorem getSys_isOk_iff {w : World} {s : Nat} :
    (∃ x, getSys w s = .ok x) ↔ s < w.systems.length := by
  unfold getSys
  cases h : w.systems[s]? with
  | none => simp [List.getElem?_eq_none_iff] at h ⊢; omega
  | some x =>
    simp
    exact (List.getElem?_eq_some.mp h).1

/-- The cache at position `x` after an update of cache `c`. -/
theorem updCache_getElem? (w : World) (c x : Nat) (f : Cache → Cache) :
    (updCache w c f).caches[x]? = (fun a => if c = x then f a else a) <$> w.caches[x]? :=
  List.getElem?_modify f c w.caches x

/-- The hierarchy at position `x` after an update of hierarchy `s`. -/
theorem updSys_getElem? (w : World) (s x : Nat) (f : CacheSys → CacheSys) :
    (updSys w s f).systems[x]? = (fun a => if s = x then f a else a) <$> w.systems[x]? :=
  List.getElem?_modify f s w.systems x

/-- The set at position `i'` after an update of the line `(i, p)`. -/
theorem Cache_updLine_getElem? (self : Cache) (i p i' : Nat) (f : CacheLine → CacheLine) :
    (self.updLine i p f).m_tagStore[i']? =
      (fun s => if i = i' then s.modify f p else s) <$> self.m_tagStore[i']? :=
  List.getElem?_modify _ i self.m_tagStore i'

@[simp] theorem Cache_updLine_length (self : Cache) (i p : Nat) (f : CacheLine → CacheLine) :
    (self.updLine i p f).m_tagStore.length = self.m_tagStore.length := by
  simp [Cache.updLine]

theorem getCache_updCache_same {w : World} {c : Nat} {x : Cache} (f : Cache → Cache)
    (h : getCache w c = .ok x) : getCache (updCache w c f) c = .ok (f x) := by
  rw [getCache_eq_ok] at h ⊢
  rw [updCache_getElem?, h]
  simp

theorem getCache_updCache_ne {w : World} {c c' : Nat} (f : Cache → Cache) (h : c ≠ c') :
    getCache (updCache w c f) c' = getCache w c' := by
  unfold getCache
  rw [updCache_getElem?]
  cases hc : w.caches[c']? <;> simp [h]

theorem getSys_updSys_same {w : World} {s : Nat} {x : CacheSys} (f : CacheSys → CacheSys)
    (h : getSys w s = .ok x) : getSys (updSys w s f) s = .ok (f x) := by
  rw [getSys_eq_ok] at h ⊢
  rw [updSys_getElem?, h]
  simp

theorem updateRepl_ok {w w' : World} {c i p : Nat} (h : updateRepl w c i p = .ok w') :
    ∃ self r, getCache w c = .ok self ∧ self.m_repl.updateReplState i p = .ok r ∧
      w' = updCache w c (fun x => { x with m_repl := r }) := by
  unfold updateRepl at h
  obtain ⟨self, hs, h⟩ := bind_ok h
  obtain ⟨r, hr, h⟩ := bind_ok h
  simp only [pure_eq_ok, Except.ok.injEq] at h
  exact ⟨self, r, hs, hr, h.symm⟩

/-! ## Lookup in a set -/

theorem lineMatches_iff (tag : Nat) (tr : Bool) (tid : Nat) (l : CacheLine) :
    lineMatches tag tr tid l = true ↔
      (l.valid = true ∧ l.tag = tag ∧ l.is_translation = tr ∧ l.tid = tid) := by
  simp only [lineMatches, Bool.and_eq_true, beq_iff_eq]
  constructor
  · rintro ⟨⟨⟨h1, h2⟩, h3⟩, h4⟩
    exact ⟨h2, h1, h3, h4⟩
  · rintro ⟨h1, h2, h3, h4⟩
    exact ⟨⟨⟨h2, h1⟩, h3⟩, h4⟩

theorem is_found_snd (set : List CacheLine) (tag : Nat) (tr : Bool) (tid : Nat) :
    (is_found set tag tr tid).2 = set.findIdx (lineMatches tag tr tid) := rfl

theorem is_found_fst (set : List CacheLine) (tag : Nat) (tr : Bool) (tid : Nat) :
    (is_found set tag tr tid).1 = decide (set.findIdx (lineMatches tag tr tid) < set.length) :=
  rfl

/-- When `is_found` reports a match, `hit_pos` indexes a matching line. -/
theorem is_found_true {set : List CacheLine} {tag : Nat} {tr : Bool} {tid : Nat}
    (h : (is_found set tag tr tid).1 = true) :
    ∃ l, set[(is_found set tag tr tid).2]? = some l ∧ lineMatches tag tr tid l = true := by
  rw [is_found_fst, decide_eq_true_eq] at h
  rw [is_found_snd]
  exact ⟨set[set.findIdx (lineMatches tag tr tid)], List.getElem?_eq_getElem h,
    List.findIdx_getElem⟩

/-- When `is_found` reports no match, no line of the set matches. -/
theorem is_found_false {set : List CacheLine} {tag : Nat} {tr : Bool} {tid : Nat}
    (h : (is_found set tag tr tid).1 = false) :
    ∀ l ∈ set, lineMatches tag tr tid l = false := by
  rw [is_found_fst, decide_eq_false_iff_not, Nat.not_lt] at h
  have := Nat.le_antisymm (List.findIdx_le_length (lineMatches tag tr tid)) h
  exact List.findIdx_eq_length.mp this

/-- `is_hit` is true exactly under `HitCondition`. -/
theorem is_hit_iff (set : List CacheLine) (tag : Nat) (tr : Bool) (tid : Nat) :
    (is_hit set tag tr tid).1 = true ↔ HitCondition set tag tr tid := by
  unfold is_hit HitCondition
  simp only [Bool.and_eq_true, Bool.not_eq_true']
  constructor
  · rintro ⟨hf, hl⟩
    obtain ⟨l, hl1, hl2⟩ := is_found_true hf
    refine ⟨(is_found set tag tr tid).2, l, hl1, (lineMatches_iff _ _ _ _).mp hl2, ?_, ?_⟩
    · have hlt := (List.getElem?_eq_some.mp hl1).1
      have : set.getD (is_found set tag tr tid).2 default = l := by
        rw [List.getD_eq_getElem?_getD, hl1]; rfl
      rw [this] at hl
      exact hl
    · intro j l' hj hl' hm
      rw [is_found_snd] at hj
      have hjl := (List.getElem?_eq_some.mp hl').1
      have := List.not_of_lt_findIdx hj
      rw [(List.getElem?_eq_some.mp hl').2] at this
      rw [(lineMatches_iff _ _ _ _).mpr hm] at this
      exact Bool.noConfusion this
  · rintro ⟨i, l, hi, hm, hlock, hfirst⟩
    have hlt := (List.getElem?_eq_some.mp hi).1
    have hget := (List.getElem?_eq_some.mp hi).2
    have hidx : set.findIdx (lineMatches tag tr tid) = i := by
      rw [List.findIdx_eq hlt]
      refine ⟨by rw [hget]; exact (lineMatches_iff _ _ _ _).mpr hm, ?_⟩
      intro j hji
      have hjl : j < set.length := Nat.lt_trans hji hlt
      cases hmj : lineMatches tag tr tid set[j] with
      | false => rfl
      | true =>
        exact absurd ((lineMatches_iff _ _ _ _).mp hmj)
          (hfirst j set[j] hji (List.getElem?_eq_getElem hjl))
    refine ⟨by rw [is_found_fst, hidx]; exact decide_eq_true hlt, ?_⟩
    rw [is_found_snd, hidx, List.getD_eq_getElem?_getD, hi]
    exact hlock

/-! ## Hits, misses and back-pressure -/

/-! ## The status returned by each path of `lookupAndFillCache` -/

theorem hitPath_status {env : Env} {hca : CohHandler} {self : Cache} {c addr : Nat} {k : kind}
    {tid : Nat} {lg : Bool} {lat : Nat} {set : List CacheLine} {pos : Nat} {w w' : World}
    {st : RequestStatus}
    (h : hitPath env hca self c addr k tid lg lat set pos w = .ok (st, w')) :
    st = .REQUEST_HIT := by
  unfold hitPath at h
  obtain ⟨line, -, h⟩ := bind_ok h
  split at h
  · exact Except.noConfusion h
  · obtain ⟨w2, -, h⟩ := bind_ok h
    obtain ⟨sys, -, h⟩ := bind_ok h
    obtain ⟨w4, -, h⟩ := bind_ok h
    simp only [pure_eq_ok, Except.ok.injEq, Prod.mk.injEq] at h
    exact h.1.symm

theorem mshrPath_status {env : Env} {hca : CohHandler} {self : Cache} {c addr : Nat} {k : kind}
    {tid : Nat} {lg : Bool} {lat pos : Nat} {line : CacheLine} {entry : MSHREntry}
    {w w' : World} {st : RequestStatus}
    (h : mshrPath env hca self c addr k tid lg lat pos line entry w = .ok (st, w')) :
    st = .MSHR_HIT ∨ st = .MSHR_HIT_AND_LOCKED := by
  unfold mshrPath at h
  obtain ⟨mline, -, h⟩ := bind_ok h
  obtain ⟨w2, -, h⟩ := bind_ok h
  obtain ⟨w3, -, h⟩ := bind_ok h
  split at h
  · obtain ⟨s3, -, h⟩ := bind_ok h
    obtain ⟨m3, -, h⟩ := bind_ok h
    split at h
    · simp only [pure_eq_ok, Except.ok.injEq, Prod.mk.injEq] at h
      exact Or.inr h.1.symm
    · exact Except.noConfusion h
  · simp only [pure_eq_ok, Except.ok.injEq, Prod.mk.injEq] at h
    exact Or.inl h.1.symm

theorem missPath_status {env : Env} {ev : Evictor} {laf : Lookup} {hca : CohHandler}
    {self : Cache} {c addr : Nat} {k : kind} {tid : Nat} {lg : Bool} {lat pos : Nat}
    {ne : Bool} {old_tag : Nat} {w w' : World} {st : RequestStatus}
    (h : missPath env ev laf hca self c addr k tid lg lat pos ne old_tag w = .ok (st, w')) :
    st = .REQUEST_MISS := by
  unfold missPath at h
  obtain ⟨w3, -, h⟩ := bind_ok h
  obtain ⟨w4, -, h⟩ := bind_ok h
  obtain ⟨w5, -, h⟩ := bind_ok h
  obtain ⟨s5, -, h⟩ := bind_ok h
  obtain ⟨l5, -, h⟩ := bind_ok h
  obtain ⟨w7, -, h⟩ := bind_ok h
  simp only [pure_eq_ok, Except.ok.injEq, Prod.mk.injEq] at h
  exact h.1.symm

/-- The status of a returning lookup is REQUEST_HIT exactly when `is_hit` holds. -/
theorem lookup_status_hit {env : Env} {fuel c addr : Nat} {k : kind} {tid : Nat} {lg : Bool}
    {lat : Nat} {w w' : World} {st : RequestStatus} {self : Cache} {set : List CacheLine}
    (hself : getCache w c = .ok self) (hset : self.getSet (self.get_index addr) = .ok set)
    (h : lookupAndFillCache env fuel c addr k tid lg lat w = .ok (st, w')) :
    st = .REQUEST_HIT ↔
      (is_hit set (self.get_tag addr) k.is_translation_txn tid).1 = true := by
  cases fuel with
  | zero => simp [lookupAndFillCache] at h
  | succ fuel =>
    rw [lookupAndFillCache] at h
    simp only [hself, ok_bind, hset] at h
    split at h
    · rename_i hh
      simp only [hh, iff_true]
      exact hitPath_status h
    · rename_i hh
      simp only [hh]
      obtain ⟨ip, -, h⟩ := bind_ok h
      obtain ⟨line, -, h⟩ := bind_ok h
      split at h
      · rcases mshrPath_status h with h | h <;> simp [h]
      · split at h
        · simp [missPath_status h]
        · simp only [pure_eq_ok, Except.ok.injEq, Prod.mk.injEq] at h
          simp [← h.1]

theorem getCache_updLine_same {w : World} {c : Nat} {x : Cache} (i p : Nat)
    (f : CacheLine → CacheLine) (h : getCache w c = .ok x) :
    getCache (updLine w c i p f) c = .ok (x.updLine i p f) :=
  getCache_updCache_same _ h

/-- Under `replCovers`, `updateReplState` passes its assertions for every way of the set. -/
theorem updateReplState_ok {self : Cache} {index way : Nat} {set : List CacheLine}
    (hc : self.replCovers index set) (hw : way < set.length) :
    ∃ r, self.m_repl.updateReplState index way = .ok r := by
  obtain ⟨h1, h2, st, h3, h4⟩ := hc
  unfold LRURepl.updateReplState
  have hw2 : way < self.m_repl.m_associativity := Nat.lt_of_lt_of_le hw h2
  have hw3 : way < st.length := Nat.lt_of_lt_of_le hw h4
  simp only [h1, hw2, if_true, h3, List.getElem?_eq_getElem hw3]
  exact ⟨_, rfl⟩

/-- Appending a broadcast to the lists of the peers returns when every peer exists. -/
theorem enqueue_fold_ok (f : CacheSys → CacheSys) :
    ∀ (peers : List Nat) (w : World), (∀ p ∈ peers, p < w.systems.length) →
      ∃ w', peers.foldlM (fun wacc p => do
          let _ ← getSys wacc p
          pure (updSys wacc p f)) w = Except.ok w' := by
  intro peers
  induction peers with
  | nil => intro w _; exact ⟨w, rfl⟩
  | cons p rest ih =>
    intro w hp
    obtain ⟨x, hx⟩ := getSys_isOk_iff.mpr (hp p (List.mem_cons_self _ _))
    simp only [List.foldlM_cons, hx, ok_bind, pure_eq_ok]
    apply ih
    intro q hq
    rw [updSys_length]
    exact hp q (List.mem_cons_of_mem _ hq)

/-- An action that is not a memory writeback is handled without recursion: the call returns
when the hierarchy of the cache and its peers exist. -/
theorem handle_coherence_action_ok (env : Env) (fuel c : Nat) (a : CoherenceAction)
    (addr tid : Nat) (lg : Bool) (lat : Nat) (tr : Bool) (w : World) (self : Cache)
    (sys : CacheSys) (hself : getCache w c = .ok self)
    (ha : a.is_memory_writeback = false) (hsys : getSys w self.m_cache_sys = .ok sys)
    (hpeers : ∀ p ∈ sys.m_other_cache_sys, p < w.systems.length) :
    ∃ w', handle_coherence_action env (fuel + 1) c a addr tid lg lat tr true w = .ok w' := by
  rw [handle_coherence_action]
  simp only [hself, ok_bind, ha, Bool.false_eq_true, if_false]
  split
  · simp only [if_true, hsys, Except.map, ok_bind]
    split
    · unfold enqueueBroadcast
      simp only [hsys, ok_bind]
      exact enqueue_fold_ok _ _ _ hpeers
    · simp
  · exact ⟨w, rfl⟩

theorem exists_bind_pure {x : Except Err World} (st : RequestStatus) (h : ∃ w, x = .ok w) :
    ∃ w', (x >>= fun w4 => (pure (st, w4) : Except Err (RequestStatus × World))) =
      .ok (st, w') := by
  obtain ⟨w, hw⟩ := h
  exact ⟨w, by rw [hw]; rfl⟩

/-- The replacement update of the hit and fill paths returns under `replCovers`, and leaves
the hierarchies and the wiring of the cache as they are. -/
theorem updateRepl_step_ok {w : World} {c : Nat} {self : Cache} {set : List CacheLine}
    {index pos : Nat} (k : kind) (hself : getCache w c = .ok self)
    (hrepl : k.is_writeback = true ∨ self.replCovers index set) (hpos : pos < set.length) :
    ∃ w2, (if (!k.is_writeback) = true then updateRepl w c index pos else pure w) =
        Except.ok w2 ∧
      (∃ self2, getCache w2 c = .ok self2 ∧ self2.m_cache_sys = self.m_cache_sys ∧
        self2.m_cache_level = self.m_cache_level) ∧
      w2.systems = w.systems := by
  cases hwb : k.is_writeback with
  | true =>
    simp only [Bool.not_true, Bool.false_eq_true, if_false]
    exact ⟨_, rfl, ⟨_, hself, rfl, rfl⟩, rfl⟩
  | false =>
    simp only [Bool.not_false, if_true]
    have hcov : self.replCovers index set := by
      rcases hrepl with h | h
      · rw [hwb] at h; exact Bool.noConfusion h
      · exact h
    obtain ⟨r, hr⟩ := updateReplState_ok hcov hpos
    unfold updateRepl
    simp only [hself, ok_bind, hr, pure_eq_ok]
    exact ⟨_, rfl, ⟨_, getCache_updCache_same _ hself, rfl, rfl⟩, by simp⟩

/-- C1: a returning `lookupAndFillCache` has status REQUEST_HIT exactly when the set selected
by `get_index(addr)` holds a valid line with the tag of `addr` and the translation flag and
tid of the request whose first occurrence is not locked; and under that condition the call
does return REQUEST_HIT (with fuel for one nested call) when the replacement state covers
the set or the kind is a writeback, the protocol requests no memory writeback on this kind,
and the hierarchy of the cache and its peers exist. -/
theorem lookup_hit_iff (env : Env) (fuel c addr : Nat) (k : kind) (tid : Nat) (lg : Bool)
    (lat : Nat) (w : World) (self : Cache) (set : List CacheLine)
    (hself : getCache w c = .ok self) (hset : self.getSet (self.get_index addr) = .ok set) :
    (∀ st w', lookupAndFillCache env fuel c addr k tid lg lat w = .ok (st, w') →
      (st = .REQUEST_HIT ↔
        HitCondition set (self.get_tag addr) k.is_translation_txn tid)) ∧
    (HitCondition set (self.get_tag addr) k.is_translation_txn tid →
      (k.is_writeback = true ∨ self.replCovers (self.get_index addr) set) →
      (∀ l ∈ set, (env.setNextCoherenceState l.m_coherence_prot k).2.is_memory_writeback
        = false) →
      (∃ sys, getSys w self.m_cache_sys = .ok sys ∧
        ∀ p ∈ sys.m_other_cache_sys, p < w.systems.length) →
      ∃ w', lookupAndFillCache env (fuel + 2) c addr k tid lg lat w =
        .ok (.REQUEST_HIT, w')) := by
  constructor
  · intro st w' h
    rw [lookup_status_hit hself hset h, is_hit_iff]
  · intro hhit hrepl hact ⟨sys, hsys, hpeers⟩
    have hh := (is_hit_iff _ _ _ _).mpr hhit
    obtain ⟨l, hl, hm⟩ : ∃ l, set[(is_hit set (self.get_tag addr) k.is_translation_txn tid).2]?
        = some l ∧ lineMatches (self.get_tag addr) k.is_translation_txn tid l = true := by
      have : (is_found set (self.get_tag addr) k.is_translation_txn tid).1 = true := by
        unfold is_hit at hh
        simp only [Bool.and_eq_true] at hh
        exact hh.1
      exact is_found_true this
    have hpos := (List.getElem?_eq_some.mp hl).1
    have hmem : l ∈ set := List.getElem?_mem hl
    have htr : l.is_translation = k.is_translation_txn :=
      ((lineMatches_iff _ _ _ _).mp hm).2.2.1
    rw [lookupAndFillCache]
    simp only [hself, ok_bind, hset, hh, if_true]
    unfold hitPath
    simp only [getWay, hl, ok_bind, htr]
    have hx : (!xor (!k.is_translation_txn) k.is_translation_txn) = false := by
      cases k.is_translation_txn <;> rfl
    simp only [hx, Bool.false_eq_true, if_false]
    obtain ⟨w2, hw2, ⟨self2, hself2, hcs2, -⟩, hs2⟩ := updateRepl_step_ok k
      (getCache_updLine_same (self.get_index addr)
        (is_hit set (self.get_tag addr) k.is_translation_txn tid).2
        (fun l => { l with dirty := l.dirty || k.is_write_txn }) hself)
      (show k.is_writeback = true ∨ (self.updLine _ _ _).replCovers (self.get_index addr) set
        from hrepl) hpos
    rw [hw2]
    have hsys2 : getSys w2 self.m_cache_sys = .ok sys := by
      rw [getSys_eq_ok, hs2, updLine_systems]; exact getSys_eq_ok.mp hsys
    simp only [ok_bind, hsys2]
    unfold cohDispatch
    apply exists_bind_pure
    refine handle_coherence_action_ok env fuel c _ _ _ _ _ _ _ (self2.updLine _ _ _) _
      (getCache_updLine_same _ _ _ (by rw [getCache_updSys]; exact hself2)) (hact l hmem)
      (by
        show getSys _ self2.m_cache_sys = _
        rw [hcs2, getSys_updLine]
        exact getSys_updSys_same _ hsys2) ?_
    · intro p hp
      rw [updLine_systems, updSys_length, hs2, updLine_systems]
      exact hpeers p hp

/-- The hit path returns on `residentWorld`: an instance of `lookup_hit_iff`. -/
theorem lookup_hit_iff_witness :
    ∃ w', lookupAndFillCache quietEnv 2 0 0 .DATA_READ 0 false 0 residentWorld =
      .ok (.REQUEST_HIT, w') :=
  (lookup_hit_iff quietEnv 0 0 0 .DATA_READ 0 false 0 residentWorld residentCache
    [{ emptyLine with valid := true }] (by decide!) (by decide!)).2
    ⟨0, { emptyLine with valid := true }, by decide!, by decide!, by decide!,
      fun j _ hj => absurd hj (Nat.not_lt_zero j)⟩
    (Or.inr ⟨by decide!, by decide!, [0], by decide!, by decide!⟩)
    (by decide!)
    ⟨mkSys [0] 1, by decide!, by decide!⟩

/-- C3: when the request is not a hit, the line at the insert position is not an MSHR match
(it is invalid, or the table has no entry for `addr`), and the MSHR table is at capacity (16
entries, or 1 for a TRANSLATION_ONLY cache), `lookupAndFillCache` returns REQUEST_RETRY and
the world it returns is the world it was called on: tag store, MSHR table, replacement
state and all event lists are untouched. -/
theorem retry_when_mshr_full (env : Env) (fuel c addr : Nat) (k : kind) (tid : Nat) (lg : Bool)
    (lat : Nat) (w : World) (self : Cache) (set : List CacheLine) (insert_pos : Nat)
    (line : CacheLine)
    (hself : getCache w c = .ok self) (hset : self.getSet (self.get_index addr) = .ok set)
    (hnohit : ¬ HitCondition set (self.get_tag addr) k.is_translation_txn tid)
    (hpos : self.insertPos set addr k tid = .ok insert_pos)
    (hline : getWay set insert_pos = .ok line)
    (hnomatch : line.valid = false ∨ mapFind self.m_mshr_entries addr = none)
    (hfull : (self.m_cache_type ≠ .TRANSLATION_ONLY ∧ self.m_mshr_entries.length = 16) ∨
      (self.m_cache_type = .TRANSLATION_ONLY ∧ self.m_mshr_entries.length = 1)) :
    lookupAndFillCache env (fuel + 1) c addr k tid lg lat w = .ok (.REQUEST_RETRY, w) := by
  have hh : (is_hit set (self.get_tag addr) k.is_translation_txn tid).1 = false := by
    cases h : (is_hit set (self.get_tag addr) k.is_translation_txn tid).1 with
    | false => rfl
    | true => exact absurd ((is_hit_iff _ _ _ _).mp h) hnohit
  have hm : (if line.valid = true then mapFind self.m_mshr_entries addr else none) = none := by
    rcases hnomatch with h | h
    · simp [h]
    · simp [h]
  have hsz : ¬ self.m_mshr_entries.length < self.mshr_size := by
    unfold Cache.mshr_size
    rcases hfull with ⟨h1, h2⟩ | ⟨h1, h2⟩
    · simp [h1, h2]
    · simp [h1, h2]
  rw [lookupAndFillCache]
  simp only [hself, ok_bind, hset, hh, Bool.false_eq_true, if_false, hpos, hline, hm, hsz,
    pure_eq_ok]

/-- A second translation miss on the busy TLB is rejected: an instance of
`retry_when_mshr_full`. -/
theorem retry_when_mshr_full_witness :
    lookupAndFillCache quietEnv 1 0 0x1000 .TRANSLATION_READ 0 false 0 busyTlbWorld =
      .ok (.REQUEST_RETRY, busyTlbWorld) :=
  retry_when_mshr_full quietEnv 0 0 0x1000 .TRANSLATION_READ 0 false 0 busyTlbWorld busyTlb
    [emptyLine, { emptyLine with valid := true, lock := true, is_translation := true }]
    0 emptyLine (by decide!) (by decide!)
    (by
      rw [← is_hit_iff]
      decide!)
    (by decide!) (by decide!) (Or.inl (by decide!)) (Or.inr (by decide!))

/-! ## Idempotence of `invalidate` -/

/-! ## Worlds that differ by cleared valid bits -/

theorem Cleared.refl (w : World) : Cleared w w := by
  refine ⟨rfl, rfl, rfl, fun x cx hx => ⟨cx, hx, rfl, rfl, fun i set hs => ⟨set, hs, rfl,
    fun p l hl => ⟨l, hl, Or.inl rfl⟩⟩⟩⟩

theorem Cleared.trans {w1 w2 w3 : World} (h12 : Cleared w1 w2) (h23 : Cleared w2 w3) :
    Cleared w1 w3 := by
  obtain ⟨a1, b1, c1, d1⟩ := h12
  obtain ⟨a2, b2, c2, d2⟩ := h23
  refine ⟨a2.trans a1, b2.trans b1, c2.trans c1, fun x cx hx => ?_⟩
  obtain ⟨cx2, hx2, e2, l2, s2⟩ := d1 x cx hx
  obtain ⟨cx3, hx3, e3, l3, s3⟩ := d2 x cx2 hx2
  refine ⟨cx3, hx3, ?_, l3.trans l2, fun i set hs => ?_⟩
  · rw [e3, e2]
  · obtain ⟨set2, hs2, ls2, q2⟩ := s2 i set hs
    obtain ⟨set3, hs3, ls3, q3⟩ := s3 i set2 hs2
    refine ⟨set3, hs3, ls3.trans ls2, fun p l hl => ?_⟩
    obtain ⟨l2', hl2, r2⟩ := q2 p l hl
    obtain ⟨l3', hl3, r3⟩ := q3 p l2' hl2
    refine ⟨l3', hl3, ?_⟩
    rcases r2 with r2 | r2 <;> rcases r3 with r3 | r3
    · exact Or.inl (r3.trans r2)
    · exact Or.inr (by rw [r3, r2])
    · exact Or.inr (r3.trans r2)
    · exact Or.inr (by rw [r3, r2])

/-- Clearing the valid bit of one line. -/
theorem cleared_updLine (w : World) (c i p : Nat) :
    Cleared w (updLine w c i p (fun l => { l with valid := false })) := by
  refine ⟨rfl, rfl, by simp, fun x cx hx => ?_⟩
  simp only [updLine, updCache_getElem?, hx, Option.map_eq_map, Option.map_some',
    Option.some.injEq, exists_eq_left']
  by_cases hxc : c = x
  · simp only [hxc, if_true]
    refine ⟨rfl, Cache_updLine_length _ _ _ _, fun i' set hs => ?_⟩
    simp only [Cache_updLine_getElem?, hs, Option.map_eq_map, Option.map_some',
      Option.some.injEq, exists_eq_left']
    by_cases hi : i = i'
    · simp only [hi, if_true, List.length_modify, true_and]
      intro p' l hl
      simp only [List.getElem?_modify, hl, Option.map_eq_map, Option.map_some',
        Option.some.injEq, exists_eq_left']
      by_cases hp : p = p'
      · simp [hp]
      · simp [hp]
    · simp only [hi, if_false, true_and]
      exact fun p' l hl => ⟨l, hl, Or.inl rfl⟩
  · simp only [hxc, if_false]
    exact ⟨trivial, trivial, fun i' set hs => ⟨set, hs, rfl, fun p' l hl => ⟨l, hl, Or.inl rfl⟩⟩⟩

/-- The loop over the higher caches yields a cleared world when every call does. -/
theorem forHigher_cleared (inv : Nat → World → Except Err World)
    (hinv : ∀ h w w', inv h w = .ok w' → Cleared w w') :
    ∀ (hs : List Nat) (w w' : World), forHigher inv hs w = .ok w' → Cleared w w' := by
  intro hs
  induction hs with
  | nil =>
    intro w w' h
    simp only [forHigher, List.foldlM_nil, pure_eq_ok, Except.ok.injEq] at h
    exact h ▸ Cleared.refl w
  | cons a rest ih =>
    intro w w' h
    simp only [forHigher, List.foldlM_cons] at h
    obtain ⟨w1, h1, h⟩ := bind_ok h
    have c1 : Cleared w w1 := by
      split at h1
      · exact hinv _ _ _ h1
      · simp only [pure_eq_ok, Except.ok.injEq] at h1
        exact h1 ▸ Cleared.refl w
    exact c1.trans (ih w1 w' h)

/-- `invalidate` only clears valid bits. -/
theorem invalidate_cleared (addr tid : Nat) (tr : Bool) :
    ∀ (fuel c : Nat) (w w' : World), invalidate fuel c addr tid tr w = .ok w' →
      Cleared w w' := by
  intro fuel
  induction fuel with
  | zero => intro c w w' h; simp [invalidate] at h
  | succ fuel ih =>
    intro c w w' h
    rw [invalidate] at h
    obtain ⟨self, hself, h⟩ := bind_ok h
    obtain ⟨set, hset, h⟩ := bind_ok h
    have c1 : Cleared w (if (is_found set (self.get_tag addr) tr tid).1 = true then
        updLine w c (self.get_index addr) (is_found set (self.get_tag addr) tr tid).2
          (fun l => { l with valid := false }) else w) := by
      split
      · exact cleared_updLine _ _ _ _
      · exact Cleared.refl w
    exact c1.trans (forHigher_cleared _ (fun h w w' hh => ih h w w' hh) _ _ _ h)

theorem shape_getElem? {w w' : World} (h : w.shape = w'.shape) {x : Nat} {cx : Cache}
    (hx : w.caches[x]? = some cx) :
    ∃ cx', w'.caches[x]? = some cx' ∧ cx'.m_higher_caches = cx.m_higher_caches ∧
      cx'.m_num_line_offset_bits = cx.m_num_line_offset_bits ∧
      cx'.m_num_index_bits = cx.m_num_index_bits ∧
      cx'.m_tagStore.length = cx.m_tagStore.length := by
  have := congrArg (fun l => l[x]?) h
  simp only [World.shape, List.getElem?_map, hx, Option.map_some'] at this
  cases hx' : w'.caches[x]? with
  | none => simp [hx'] at this
  | some cx' =>
    simp only [hx', Option.map_some', Option.some.injEq, Prod.mk.injEq] at this
    exact ⟨cx', rfl, this.1.symm, this.2.1.symm, this.2.2.1.symm, this.2.2.2.symm⟩

theorem shape_length {w w' : World} (h : w.shape = w'.shape) :
    w.caches.length = w'.caches.length := by
  have := congrArg List.length h
  simpa [World.shape] using this

/-- A cache that differs from `cx` in its tag store only has the wiring and geometry of
`cx`. -/
theorem sameConfig {cx cx' : Cache} (e : cx' = { cx with m_tagStore := cx'.m_tagStore }) :
    cx'.m_higher_caches = cx.m_higher_caches ∧
    cx'.m_num_line_offset_bits = cx.m_num_line_offset_bits ∧
    cx'.m_num_index_bits = cx.m_num_index_bits ∧
    (∀ addr, cx'.get_index addr = cx.get_index addr) ∧
    (∀ addr, cx'.get_tag addr = cx.get_tag addr) := by
  rw [e]
  exact ⟨rfl, rfl, rfl, fun _ => rfl, fun _ => rfl⟩

theorem shape_of_cleared {w w' : World} (h : Cleared w w') : w'.shape = w.shape := by
  obtain ⟨-, -, hlen, hc⟩ := h
  apply List.ext_getElem?
  intro x
  simp only [World.shape, List.getElem?_map]
  cases hx : w.caches[x]? with
  | none =>
    have : w'.caches[x]? = none := by
      rw [List.getElem?_eq_none_iff] at hx ⊢; omega
    rw [this]
  | some cx =>
    obtain ⟨cx', hx', e, hl, -⟩ := hc x cx hx
    rw [hx']
    simp only [Option.map_some', Option.some.injEq, Prod.mk.injEq]
    exact ⟨(sameConfig e).1, (sameConfig e).2.1, (sameConfig e).2.2.1, hl⟩

theorem above_of_shape {w w' : World} (h : w.shape = w'.shape) {c x : Nat}
    (ha : Above w c x) : Above w' c x := by
  induction ha with
  | self c => exact Above.self c
  | higher c hh x cc hc hmem _ ih =>
    obtain ⟨cc', hc', hh', -⟩ := shape_getElem? h hc
    exact Above.higher c hh x cc' hc' (hh' ▸ hmem) ih

theorem lineMatches_cleared (tag : Nat) (tr : Bool) (tid : Nat) (l : CacheLine) :
    lineMatches tag tr tid { l with valid := false } = false := by
  simp [lineMatches]

/-- Go back from a set of the cleared world to the set it came from. -/
theorem Cleared.back {w w' : World} (h : Cleared w w') {x i : Nat} {cx' : Cache}
    {set' : List CacheLine} (hx' : w'.caches[x]? = some cx')
    (hs' : cx'.m_tagStore[i]? = some set') :
    ∃ cx set, w.caches[x]? = some cx ∧ cx' = { cx with m_tagStore := cx'.m_tagStore } ∧
      cx.m_tagStore[i]? = some set ∧
      ∀ (p : Nat) (l' : CacheLine), set'[p]? = some l' →
        ∃ l, set[p]? = some l ∧ (l' = l ∨ l' = { l with valid := false }) := by
  obtain ⟨-, -, hlen, hc⟩ := h
  have hxl : x < w.caches.length := hlen ▸ (List.getElem?_eq_some.mp hx').1
  obtain ⟨cx2, hx2, e, hl, hsets⟩ := hc x _ (List.getElem?_eq_getElem hxl)
  rw [hx'] at hx2
  cases Option.some.inj hx2
  have hil : i < (w.caches[x]).m_tagStore.length := hl ▸ (List.getElem?_eq_some.mp hs').1
  obtain ⟨set2, hs2, hsl, hlines⟩ := hsets i _ (List.getElem?_eq_getElem hil)
  rw [hs'] at hs2
  cases Option.some.inj hs2
  refine ⟨_, _, List.getElem?_eq_getElem hxl, e, List.getElem?_eq_getElem hil, ?_⟩
  intro p l' hp
  have hpl : p < ((w.caches[x]).m_tagStore[i]).length := hsl ▸ (List.getElem?_eq_some.mp hp).1
  obtain ⟨l2, hl2, r⟩ := hlines p _ (List.getElem?_eq_getElem hpl)
  rw [hp] at hl2
  cases Option.some.inj hl2
  exact ⟨_, List.getElem?_eq_getElem hpl, r⟩

theorem clean_of_cleared {addr tid : Nat} {tr : Bool} {w w' : World} (h : Cleared w w')
    {x : Nat} (hc : Clean addr tid tr w x) : Clean addr tid tr w' x := by
  intro cx' set' hx' hs' l' hl'
  obtain ⟨cx, set, hx, e, hs, hlines⟩ := h.back hx' hs'
  obtain ⟨p, hp⟩ := List.getElem?_of_mem hl'
  obtain ⟨l, hl, r⟩ := hlines p l' hp
  have hi : cx'.get_index addr = cx.get_index addr := (sameConfig e).2.2.2.1 addr
  have ht : cx'.get_tag addr = cx.get_tag addr := (sameConfig e).2.2.2.2 addr
  rw [hi] at hs
  rw [ht]
  rcases r with r | r
  · rw [r]; exact hc cx set hx hs l (List.getElem?_mem hl)
  · rw [r]; exact lineMatches_cleared _ _ _ _

theorem atMostOne_of_cleared {addr tid : Nat} {tr : Bool} {w w' : World} (h : Cleared w w')
    {x : Nat}
    (hone : ∀ cx set, w.caches[x]? = some cx → cx.m_tagStore[cx.get_index addr]? = some set →
      AtMostOneMatch set (cx.get_tag addr) tr tid) :
    ∀ cx' set', w'.caches[x]? = some cx' → cx'.m_tagStore[cx'.get_index addr]? = some set' →
      AtMostOneMatch set' (cx'.get_tag addr) tr tid := by
  intro cx' set' hx' hs' i j li lj hi hj mi mj
  obtain ⟨cx, set, hx, e, hs, hlines⟩ := h.back hx' hs'
  have hidx : cx'.get_index addr = cx.get_index addr := (sameConfig e).2.2.2.1 addr
  have ht : cx'.get_tag addr = cx.get_tag addr := (sameConfig e).2.2.2.2 addr
  rw [hidx] at hs
  rw [ht] at mi mj
  obtain ⟨li0, hli0, ri⟩ := hlines i li hi
  obtain ⟨lj0, hlj0, rj⟩ := hlines j lj hj
  have ei : li = li0 := by
    rcases ri with r | r
    · exact r
    · rw [r, lineMatches_cleared] at mi; exact Bool.noConfusion mi
  have ej : lj = lj0 := by
    rcases rj with r | r
    · exact r
    · rw [r, lineMatches_cleared] at mj; exact Bool.noConfusion mj
  exact hone cx set hx hs i j li0 lj0 hli0 hlj0 (ei ▸ mi) (ej ▸ mj)

/-- The caches above a pointer that does not resolve: only the pointer itself. -/
theorem above_unresolved {w : World} {h x : Nat} (hh : ¬ h < w.caches.length)
    (ha : Above w h x) : x = h := by
  cases ha with
  | self => rfl
  | higher _ h' _ cc hc _ _ =>
    exact absurd (List.getElem?_eq_some.mp hc).1 hh

theorem clean_unresolved (addr tid : Nat) (tr : Bool) {w : World} {x : Nat}
    (hx : ¬ x < w.caches.length) : Clean addr tid tr w x := by
  intro cx set hcx
  exact absurd (List.getElem?_eq_some.mp hcx).1 hx

/-- After the first matching line of a set with at most one match is cleared, nothing
matches. -/
theorem clean_after_clear {addr tid : Nat} {tr : Bool} {w : World} {c : Nat} {self : Cache}
    {set : List CacheLine} (hself : w.caches[c]? = some self)
    (hset : self.m_tagStore[self.get_index addr]? = some set)
    (hone : AtMostOneMatch set (self.get_tag addr) tr tid) :
    Clean addr tid tr
      (if (is_found set (self.get_tag addr) tr tid).1 = true then
        updLine w c (self.get_index addr) (is_found set (self.get_tag addr) tr tid).2
          (fun l => { l with valid := false }) else w) c := by
  split
  · rename_i hf
    obtain ⟨l0, hl0, hm0⟩ := is_found_true hf
    intro cx' set' hx' hs' l' hl'
    simp only [updLine, updCache_getElem?, hself, Option.map_eq_map, Option.map_some',
      if_true, Option.some.injEq] at hx'
    subst hx'
    have hi : (self.updLine (self.get_index addr) (is_found set (self.get_tag addr) tr tid).2
        (fun l => { l with valid := false })).get_index addr = self.get_index addr := rfl
    have ht : (self.updLine (self.get_index addr) (is_found set (self.get_tag addr) tr tid).2
        (fun l => { l with valid := false })).get_tag addr = self.get_tag addr := rfl
    rw [hi, Cache_updLine_getElem?, hset] at hs'
    simp only [Option.map_eq_map, Option.map_some', if_true, Option.some.injEq] at hs'
    subst hs'
    rw [ht]
    obtain ⟨p, hp⟩ := List.getElem?_of_mem hl'
    rw [List.getElem?_modify] at hp
    cases hsp : set[p]? with
    | none => simp [hsp] at hp
    | some l =>
      simp only [hsp, Option.map_eq_map, Option.map_some', Option.some.injEq] at hp
      by_cases hpp : (is_found set (self.get_tag addr) tr tid).2 = p
      · simp only [hpp, if_true] at hp
        rw [← hp]; exact lineMatches_cleared _ _ _ _
      · simp only [hpp, if_false] at hp
        subst hp
        cases hm : lineMatches (self.get_tag addr) tr tid l with
        | false => rfl
        | true => exact absurd (hone _ _ _ _ hl0 hsp hm0 hm) hpp
  · rename_i hf
    intro cx' set' hx' hs' l' hl'
    rw [hself] at hx'
    cases Option.some.inj hx'
    rw [hset] at hs'
    cases Option.some.inj hs'
    exact is_found_false (Bool.eq_false_iff.mpr hf) l' hl'

/-- After `invalidate` returns, no cache above `c` holds a valid line for the address,
provided each of them held at most one. -/
theorem invalidate_clean (addr tid : Nat) (tr : Bool) :
    ∀ (fuel c : Nat) (w w' : World), invalidate fuel c addr tid tr w = .ok w' →
      (∀ x cx set, Above w c x → w.caches[x]? = some cx →
        cx.m_tagStore[cx.get_index addr]? = some set →
        AtMostOneMatch set (cx.get_tag addr) tr tid) →
      ∀ x, Above w c x → Clean addr tid tr w' x := by
  intro fuel
  induction fuel with
  | zero => intro c w w' h; simp [invalidate] at h
  | succ fuel ih =>
    intro c w w' h hone
    rw [invalidate] at h
    obtain ⟨self, hself, h⟩ := bind_ok h
    obtain ⟨set, hset, h⟩ := bind_ok h
    rw [getCache_eq_ok] at hself
    have hset' : self.m_tagStore[self.get_index addr]? = some set := by
      unfold Cache.getSet at hset
      cases hh : self.m_tagStore[self.get_index addr]? with
      | none => simp [hh] at hset
      | some s => simp only [hh, Except.ok.injEq] at hset; rw [hset]
    have hc1 := clean_after_clear hself hset'
      (hone c self set (Above.self c) hself hset')
    have hcl1 : Cleared w (if (is_found set (self.get_tag addr) tr tid).1 = true then
        updLine w c (self.get_index addr) (is_found set (self.get_tag addr) tr tid).2
          (fun l => { l with valid := false }) else w) := by
      split
      · exact cleared_updLine _ _ _ _
      · exact Cleared.refl w
    -- the loop over the higher caches
    have loop : ∀ (hs : List Nat) (wa wb : World),
        (∀ a ∈ hs, a ∈ self.m_higher_caches) → Cleared w wa →
        forHigher (fun h wacc => invalidate fuel h addr tid tr wacc) hs wa = .ok wb →
        ∀ a ∈ hs, ∀ x, Above w a x → Clean addr tid tr wb x := by
      intro hs
      induction hs with
      | nil => intro wa wb _ _ _ a ha; exact absurd ha (List.not_mem_nil a)
      | cons b rest ihl =>
        intro wa wb hsub hwa hrun a ha x hax
        simp only [forHigher, List.foldlM_cons] at hrun
        obtain ⟨w1, h1, hrest⟩ := bind_ok hrun
        have hc1 : Cleared wa w1 := by
          split at h1
          · exact invalidate_cleared addr tid tr _ _ _ _ h1
          · simp only [pure_eq_ok, Except.ok.injEq] at h1
            exact h1 ▸ Cleared.refl wa
        have hcr : Cleared w1 wb :=
          forHigher_cleared _ (fun h w w' hh => invalidate_cleared addr tid tr _ _ _ _ hh)
            _ _ _ hrest
        rcases List.mem_cons.mp ha with hab | har
        · subst hab
          apply clean_of_cleared hcr
          split at h1
          · rename_i hlt
            apply ih a wa w1 h1 _ x (above_of_shape (shape_of_cleared hwa).symm hax)
            intro y cy sy hay hcy hsy
            have hay' : Above w a y := above_of_shape (shape_of_cleared hwa) hay
            exact atMostOne_of_cleared hwa
              (fun cx set hx hs => hone y cx set
                (Above.higher c a y self hself (hsub a (List.mem_cons_self _ _)) hay') hx hs)
              cy sy hcy hsy
          · rename_i hlt
            simp only [pure_eq_ok, Except.ok.injEq] at h1
            subst h1
            have hlt' : ¬ a < w.caches.length := by
              rw [← hwa.2.2.1]; exact hlt
            rw [above_unresolved hlt' hax]
            exact clean_unresolved addr tid tr hlt
        · exact ihl w1 wb (fun a' ha' => hsub a' (List.mem_cons_of_mem _ ha'))
            (hwa.trans hc1) hrest a har x hax
    intro x hx
    have hcr := forHigher_cleared _
      (fun h w w' hh => invalidate_cleared addr tid tr fuel h w w' hh) _ _ _ h
    cases hx with
    | self => exact clean_of_cleared hcr hc1
    | higher _ hh _ cc hcc hmem hax =>
      rw [hself] at hcc
      cases Option.some.inj hcc
      exact loop _ _ _ (fun a ha => ha) hcl1 h hh hmem x hax

/-- On a world of the same shape in which no cache above `c` holds a valid line for the
address, `invalidate` returns the world as it is. -/
theorem invalidate_noop (addr tid : Nat) (tr : Bool) :
    ∀ (fuel c : Nat) (w0 w0' w : World), invalidate fuel c addr tid tr w0 = .ok w0' →
      w0.shape = w.shape → (∀ x, Above w c x → Clean addr tid tr w x) →
      invalidate fuel c addr tid tr w = .ok w := by
  intro fuel
  induction fuel with
  | zero => intro c w0 w0' w h; simp [invalidate] at h
  | succ fuel ih =>
    intro c w0 w0' w h hshape hclean
    rw [invalidate] at h
    obtain ⟨self0, hself0, h⟩ := bind_ok h
    obtain ⟨set0, hset0, h⟩ := bind_ok h
    rw [getCache_eq_ok] at hself0
    obtain ⟨self, hself, hhi, hoff, hidx, hlen⟩ := shape_getElem? hshape hself0
    have hgi : self.get_index addr = self0.get_index addr := by
      unfold Cache.get_index; rw [hoff, hidx]
    have hil : self.get_index addr < self.m_tagStore.length := by
      rw [hgi, hlen]
      unfold Cache.getSet at hset0
      cases hh : self0.m_tagStore[self0.get_index addr]? with
      | none => simp [hh] at hset0
      | some s => exact (List.getElem?_eq_some.mp hh).1
    have hset : self.m_tagStore[self.get_index addr]? =
        some (self.m_tagStore[self.get_index addr]) := List.getElem?_eq_getElem hil
    have hnf : (is_found (self.m_tagStore[self.get_index addr]) (self.get_tag addr) tr tid).1
        = false := by
      cases hf : (is_found (self.m_tagStore[self.get_index addr]) (self.get_tag addr)
        tr tid).1 with
      | false => rfl
      | true =>
        obtain ⟨l, hl, hm⟩ := is_found_true hf
        have := hclean c (Above.self c) self _ hself hset l (List.getElem?_mem hl)
        rw [hm] at this
        exact Bool.noConfusion this
    rw [invalidate]
    simp only [getCache_eq_ok.mpr hself, ok_bind, Cache.getSet, hset, hnf, Bool.false_eq_true,
      if_false, hhi]
    -- the loop over the higher caches
    have hcl0 : Cleared w0 (if (is_found set0 (self0.get_tag addr) tr tid).1 = true then
        updLine w0 c (self0.get_index addr) (is_found set0 (self0.get_tag addr) tr tid).2
          (fun l => { l with valid := false }) else w0) := by
      split
      · exact cleared_updLine _ _ _ _
      · exact Cleared.refl w0
    have loop : ∀ (hs : List Nat) (wa wb : World),
        (∀ a ∈ hs, a ∈ self.m_higher_caches) → wa.shape = w.shape →
        forHigher (fun h wacc => invalidate fuel h addr tid tr wacc) hs wa = .ok wb →
        forHigher (fun h wacc => invalidate fuel h addr tid tr wacc) hs w = .ok w := by
      intro hs
      induction hs with
      | nil => intro wa wb _ _ _; rfl
      | cons b rest ihl =>
        intro wa wb hsub hwa hrun
        simp only [forHigher, List.foldlM_cons] at hrun ⊢
        obtain ⟨w1, h1, hrest⟩ := bind_ok hrun
        have hlenw : wa.caches.length = w.caches.length := shape_length hwa
        have hw1 : w1.shape = w.shape := by
          split at h1
          · exact (shape_of_cleared (invalidate_cleared addr tid tr _ _ _ _ h1)).trans hwa
          · simp only [pure_eq_ok, Except.ok.injEq] at h1
            exact h1 ▸ hwa
        have hstep : (if b < w.caches.length then invalidate fuel b addr tid tr w
            else pure w) = Except.ok w := by
          split
          · rename_i hlt
            rw [← hlenw] at hlt
            simp only [hlt, if_true] at h1
            exact ih b wa w1 w h1 hwa (fun x hx => hclean x
              (Above.higher c b x self hself (hsub b (List.mem_cons_self _ _)) hx))
          · rfl
        rw [hstep]
        exact ihl w1 wb (fun a ha => hsub a (List.mem_cons_of_mem _ ha)) hw1 hrest
    exact loop _ _ _ (fun a ha => hhi ▸ ha) ((shape_of_cleared hcl0).trans hshape) h

theorem invalidateReady_shape {w w' : World} (hs : w.shape = w'.shape) (addr : Nat) :
    ∀ fuel c, invalidateReady w addr fuel c = invalidateReady w' addr fuel c := by
  intro fuel
  induction fuel with
  | zero => intro c; rfl
  | succ fuel ih =>
    intro c
    simp only [invalidateReady]
    cases hc : w.caches[c]? with
    | none =>
      have : w'.caches[c]? = none := by
        have := shape_length hs
        rw [List.getElem?_eq_none_iff] at hc ⊢; omega
      rw [this]
    | some cx =>
      obtain ⟨cx', hc', hh, ho, hi, hl⟩ := shape_getElem? hs hc
      have hidx : cx'.get_index addr = cx.get_index addr := by
        simp only [Cache.get_index, ho, hi]
      simp only [hc', hh, hidx, hl, shape_length hs, ih]

theorem forHigher_returns (addr tid : Nat) (tr : Bool) (fuel : Nat) (w : World)
    (ih : ∀ c w, invalidateReady w addr fuel c = true →
      ∃ w1, invalidate fuel c addr tid tr w = .ok w1) :
    ∀ (l : List Nat) (wacc : World), wacc.shape = w.shape →
      (∀ h ∈ l, h < w.caches.length → invalidateReady w addr fuel h = true) →
      ∃ w', forHigher (fun h wacc => invalidate fuel h addr tid tr wacc) l wacc = .ok w' := by
  intro l
  induction l with
  | nil => intro wacc _ _; exact ⟨wacc, rfl⟩
  | cons h t iht =>
    intro wacc hs hr
    simp only [forHigher, List.foldlM_cons]
    by_cases hlt : h < wacc.caches.length
    · have hlt' : h < w.caches.length := shape_length hs ▸ hlt
      have hrd := hr h (List.mem_cons_self _ _) hlt'
      rw [← invalidateReady_shape hs] at hrd
      obtain ⟨w2, hw2⟩ := ih h wacc hrd
      have hs2 : w2.shape = w.shape :=
        (shape_of_cleared (invalidate_cleared addr tid tr fuel h wacc w2 hw2)).trans hs
      obtain ⟨w', hw'⟩ := iht w2 hs2 (fun a ha => hr a (List.mem_cons_of_mem _ ha))
      refine ⟨w', ?_⟩
      simp only [hlt, if_true, hw2, ok_bind]
      exact hw'
    · obtain ⟨w', hw'⟩ := iht wacc hs (fun a ha => hr a (List.mem_cons_of_mem _ ha))
      refine ⟨w', ?_⟩
      simp only [hlt, if_false, pure_eq_ok, ok_bind]
      exact hw'

/-- `invalidate` returns when every cache it reaches exists with the set of the address and
the fuel covers the levels above. -/
theorem invalidate_returns (addr tid : Nat) (tr : Bool) :
    ∀ (fuel c : Nat) (w : World), invalidateReady w addr fuel c = true →
      ∃ w1, invalidate fuel c addr tid tr w = .ok w1 := by
  intro fuel
  induction fuel with
  | zero => intro c w h; simp [invalidateReady] at h
  | succ fuel ih =>
    intro c w h
    simp only [invalidateReady] at h
    cases hc : w.caches[c]? with
    | none => simp [hc] at h
    | some self =>
      simp only [hc, Bool.and_eq_true, decide_eq_true_eq, List.all_eq_true, Bool.or_eq_true,
        Bool.not_eq_true', decide_eq_false_iff_not] at h
      obtain ⟨hidx, hall⟩ := h
      obtain ⟨set, hset⟩ : ∃ set, self.m_tagStore[self.get_index addr]? = some set :=
        ⟨_, List.getElem?_eq_getElem hidx⟩
      have hgs : self.getSet (self.get_index addr) = .ok set := by
        unfold Cache.getSet; rw [hset]
      rw [invalidate]
      simp only [getCache_eq_ok.mpr hc, hgs, ok_bind]
      have c1 : Cleared w (if (is_found set (self.get_tag addr) tr tid).1 = true then
          updLine w c (self.get_index addr) (is_found set (self.get_tag addr) tr tid).2
            (fun l => { l with valid := false }) else w) := by
        split
        · exact cleared_updLine _ _ _ _
        · exact Cleared.refl w
      refine forHigher_returns addr tid tr fuel w ih _ _ (shape_of_cleared c1) ?_
      intro a ha hlt
      rcases hall a ha with hn | hy
      · exact absurd hlt hn
      · exact hy

/-- On a state in which the addressed set of this cache and of every cache above it holds
at most one valid line for the key, `invalidate` returns whenever the caches
it reaches exist with the set of the address and the fuel covers the levels above; and when
it returns, calling it again returns the very same world, and no valid line with that key
remains in the addressed set of this cache. -/
theorem invalidate_idempotent (fuel c addr tid : Nat) (tr : Bool) (w : World)
    (hone : ∀ x cx set, Above w c x → w.caches[x]? = some cx →
      cx.m_tagStore[cx.get_index addr]? = some set →
      AtMostOneMatch set (cx.get_tag addr) tr tid) :
    (invalidateReady w addr fuel c = true → ∃ w1, invalidate fuel c addr tid tr w = .ok w1) ∧
    ∀ w1, invalidate fuel c addr tid tr w = .ok w1 →
      invalidate fuel c addr tid tr w1 = .ok w1 ∧
      ∀ cx1 set1, w1.caches[c]? = some cx1 →
        cx1.m_tagStore[cx1.get_index addr]? = some set1 →
        ∀ l ∈ set1, ¬ (l.valid = true ∧ l.tag = cx1.get_tag addr ∧ l.is_translation = tr ∧
          l.tid = tid) := by
  refine ⟨invalidate_returns addr tid tr fuel c w, ?_⟩
  intro w1 h1
  have hcl := invalidate_cleared addr tid tr fuel c w w1 h1
  have hclean := invalidate_clean addr tid tr fuel c w w1 h1 hone
  have hsh := shape_of_cleared hcl
  constructor
  · exact invalidate_noop addr tid tr fuel c w w1 w1 h1 hsh.symm
      (fun x hx => hclean x (above_of_shape hsh hx))
  · intro cx1 set1 hc hs l hl hm
    have := hclean c (Above.self c) cx1 set1 hc hs l hl
    rw [(lineMatches_iff _ _ _ _).mpr hm] at this
    exact Bool.noConfusion this

theorem atMostOne_singleton (l : CacheLine) (tag : Nat) (tr : Bool) (tid : Nat) :
    AtMostOneMatch [l] tag tr tid := by
  intro i j li lj hi hj _ _
  have h1 := (List.getElem?_eq_some.mp hi).1
  have h2 := (List.getElem?_eq_some.mp hj).1
  simp only [List.length_singleton] at h1 h2
  omega

/-- On `residentWorld`, `invalidate(0x0)` returns, clears the line, and a second call
changes nothing: an instance of `invalidate_idempotent`. -/
theorem invalidate_idempotent_witness :
    ∃ w1, invalidate 1 0 0 0 false residentWorld = .ok w1 ∧
      w1.line? 0 0 0 = some emptyLine ∧
      invalidate 1 0 0 0 false w1 = .ok w1 := by
  have h := invalidate_idempotent 1 0 0 0 false residentWorld
    (by
      intro x cx set _ hx hs
      cases x with
      | succ n => simp [residentWorld] at hx
      | zero =>
        simp only [residentWorld, List.getElem?_cons_zero, Option.some.injEq] at hx
        subst hx
        have : residentCache.m_tagStore = [[{ emptyLine with valid := true }]] := rfl
        rw [this] at hs
        cases hi : residentCache.get_index 0 with
        | succ n => rw [hi] at hs; simp at hs
        | zero =>
          rw [hi] at hs
          simp only [List.getElem?_cons_zero, Option.some.injEq] at hs
          subst hs
          exact atMostOne_singleton _ _ _ _)
  obtain ⟨w1, h1⟩ := h.1 (by decide!)
  have e : w1 = updLine residentWorld 0 0 0 (fun l => { l with valid := false }) := by
    have h2 : invalidate 1 0 0 0 false residentWorld =
        .ok (updLine residentWorld 0 0 0 (fun l => { l with valid := false })) := by decide!
    rw [h2] at h1
    exact (Except.ok.inj h1).symm
  exact ⟨w1, h1, by rw [e]; decide!, (h.2 w1 h1).1⟩

/-! ## Changes that leave tag stores and wiring alone -/

theorem frame_refl (w : World) : Frame w w :=
  ⟨rfl, rfl, fun _ sys h => ⟨sys, h, rfl, Or.inl rfl⟩⟩

theorem frame_updCache (w : World) (c : Nat) (g : Cache → Cache)
    (hg : ∀ x, (g x).core = x.core) : Frame w (updCache w c g) := by
  refine ⟨?_, rfl, fun _ sys h => ⟨sys, h, rfl, Or.inl rfl⟩⟩
  apply List.ext_getElem?
  intro n
  simp only [List.getElem?_map, updCache_getElem?]
  cases h : w.caches[n]? with
  | none => rfl
  | some x =>
    simp only [Option.map_eq_map, Option.map_some']
    split
    · rw [hg]
    · rfl

theorem frame_updSys (w : World) (s : Nat) (g : CacheSys → CacheSys)
    (hg : ∀ x, (g x).m_other_cache_sys = x.m_other_cache_sys ∧
      ((g x).m_coh_act_list = x.m_coh_act_list ∨ (g x).m_coh_act_list = [])) :
    Frame w (updSys w s g) := by
  refine ⟨rfl, by simp, fun n sys h => ?_⟩
  simp only [updSys_getElem?, h, Option.map_eq_map, Option.map_some', Option.some.injEq,
    exists_eq_left']
  split
  · exact hg sys
  · exact ⟨rfl, Or.inl rfl⟩

theorem frame_rob (w : World) (r : List (Nat × kind)) : Frame w { w with rob_done := r } :=
  ⟨rfl, rfl, fun _ sys h => ⟨sys, h, rfl, Or.inl rfl⟩⟩

theorem updateRepl_frame {w w' : World} {c i p : Nat} (h : updateRepl w c i p = .ok w') :
    Frame w w' := by
  obtain ⟨self, r, -, -, hw⟩ := updateRepl_ok h
  rw [hw]
  exact frame_updCache _ _ _ (fun _ => rfl)

/-! ## Preservation of a stable property by the operations -/

section Preservation

variable {env : Env} {P : World → Prop} {peer : Prop}

theorem replStep_pres (st : Stable env P peer) {b : Bool} {w w' : World} {c i p : Nat}
    (h : (if b = true then updateRepl w c i p else pure w) = Except.ok w') (hP : P w) :
    P w' := by
  split at h
  · exact st.frame _ _ (updateRepl_frame h) hP
  · simp only [pure_eq_ok, Except.ok.injEq] at h
    exact h ▸ hP

theorem cohDispatch_pres (st : Stable env P peer) {hca : CohHandler} (hh : HcaPres P hca)
    {c : Nat} {loc : Nat × Nat} {s : CoherenceState} {subject : CacheLine}
    {cur_addr addr tid : Nat} {lg tr : Bool} {lat : Nat} {k : kind} {w w' : World}
    (h : cohDispatch env hca c loc s subject cur_addr addr tid lg tr lat k w = .ok w')
    (hP : P w) : P w' := by
  unfold cohDispatch at h
  exact hh _ _ _ _ _ _ _ _ _ h
    (st.soft _ _ _ _ _ (fun l => ⟨rfl, rfl, rfl, rfl, rfl⟩) hP)

theorem hitPath_pres (st : Stable env P peer) {hca : CohHandler} (hh : HcaPres P hca)
    {self : Cache} {c addr : Nat} {k : kind} {tid : Nat} {lg : Bool} {lat : Nat}
    {set : List CacheLine} {pos : Nat} {w : World} {r : RequestStatus × World}
    (h : hitPath env hca self c addr k tid lg lat set pos w = .ok r) (hP : P w) : P r.2 := by
  unfold hitPath at h
  obtain ⟨line, -, h⟩ := bind_ok h
  split at h
  · exact Except.noConfusion h
  · obtain ⟨w2, h2, h⟩ := bind_ok h
    obtain ⟨sys, -, h⟩ := bind_ok h
    obtain ⟨w4, h4, h⟩ := bind_ok h
    simp only [pure_eq_ok, Except.ok.injEq] at h
    rw [← h]
    have p1 : P (updLine w c (self.get_index addr) pos
        (fun l => { l with dirty := l.dirty || k.is_write_txn })) :=
      st.soft _ _ _ _ _ (fun l => ⟨rfl, rfl, rfl, rfl, rfl⟩) hP
    have p2 : P w2 := replStep_pres st h2 p1
    exact cohDispatch_pres st hh h4
      (st.frame _ _ (frame_updSys _ _ _ (fun x => ⟨rfl, Or.inl rfl⟩)) p2)

theorem mshrPath_pres (st : Stable env P peer) {hca : CohHandler} (hh : HcaPres P hca)
    {self : Cache} {c addr : Nat} {k : kind} {tid : Nat} {lg : Bool} {lat pos : Nat}
    {line : CacheLine} {entry : MSHREntry} {w : World} {r : RequestStatus × World}
    (h : mshrPath env hca self c addr k tid lg lat pos line entry w = .ok r) (hP : P w) :
    P r.2 := by
  unfold mshrPath at h
  obtain ⟨mline, -, h⟩ := bind_ok h
  obtain ⟨w2, h2, h⟩ := bind_ok h
  obtain ⟨w3, h3, h⟩ := bind_ok h
  have p1 : P (if (k.is_write_txn && ((self.get_tag addr == mline.tag) &&
      (k.is_translation_txn == mline.is_translation))) = true then
        updLine w c entry.m_line.1 entry.m_line.2 (fun l => { l with dirty := true })
      else w) := by
    split
    · exact st.soft _ _ _ _ _ (fun l => ⟨rfl, rfl, rfl, rfl, rfl⟩) hP
    · exact hP
  have p2 : P w2 := by
    split at h2
    · exact cohDispatch_pres st hh h2 p1
    · simp only [pure_eq_ok, Except.ok.injEq] at h2
      exact h2 ▸ p1
  have p3 : P w3 := replStep_pres st h3 p2
  split at h
  · obtain ⟨s3, -, h⟩ := bind_ok h
    obtain ⟨m3, -, h⟩ := bind_ok h
    split at h
    · simp only [pure_eq_ok, Except.ok.injEq] at h
      rw [← h]; exact p3
    · exact Except.noConfusion h
  · simp only [pure_eq_ok, Except.ok.injEq] at h
    rw [← h]; exact p3

theorem forwardMiss_pres (st : Stable env P peer) {laf : Lookup} (hl : LafPres P laf)
    {self : Cache} {c addr : Nat} {k : kind} {tid : Nat} {lg : Bool} {lat : Nat}
    {w w' : World}
    (h : forwardMiss env laf self c addr k tid lg lat w = .ok w') (hP : P w) : P w' := by
  unfold forwardMiss at h
  obtain ⟨sys, -, h⟩ := bind_ok h
  have hw : ∀ (due : Nat) (r : Request), P (updSys w self.m_cache_sys
      (fun s => { s with m_wait_list := mapInsert s.m_wait_list due r })) :=
    fun _ _ => st.frame _ _ (frame_updSys _ _ _ (fun x => ⟨rfl, Or.inl rfl⟩)) hP
  cases hf : find_lower_cache_in_core env w self addr k.is_translation_txn lg with
  | none =>
    simp only [hf] at h
    split at h
    · simp only [pure_eq_ok, Except.ok.injEq] at h
      exact h ▸ hP
    · split at h
      · simp only [pure_eq_ok, Except.ok.injEq] at h
        rw [← h]; exact hw _ _
      · simp only [pure_eq_ok, Except.ok.injEq] at h
        exact h ▸ hP
  | some l =>
    simp only [hf] at h
    split at h
    · obtain ⟨lower, -, h⟩ := bind_ok h
      obtain ⟨res, hres, h⟩ := bind_ok h
      simp only [pure_eq_ok, Except.ok.injEq] at h
      rw [← h]; exact hl _ _ _ _ _ _ _ _ hres hP
    · split at h
      · simp only [pure_eq_ok, Except.ok.injEq] at h
        rw [← h]; exact hw _ _
      · obtain ⟨res, hres, h⟩ := bind_ok h
        simp only [pure_eq_ok, Except.ok.injEq] at h
        rw [← h]; exact hl _ _ _ _ _ _ _ _ hres hP

theorem missPath_pres (st : Stable env P peer) {ev : Evictor} {laf : Lookup}
    {hca : CohHandler} (he : EvPres P ev) (hl : LafPres P laf) (hh : HcaPres P hca)
    {self : Cache} {c addr : Nat} {k : kind} {tid : Nat} {lg : Bool} {lat pos : Nat}
    {ne : Bool} {old_tag : Nat} {set : List CacheLine} {w : World}
    {r : RequestStatus × World}
    (hself : w.caches[c]? = some self)
    (hset : self.m_tagStore[self.get_index addr]? = some set)
    (hpos : self.insertPos set addr k tid = .ok pos)
    (h : missPath env ev laf hca self c addr k tid lg lat pos ne old_tag w = .ok r)
    (hP : P w) : P r.2 := by
  unfold missPath at h
  obtain ⟨w3, h3, h⟩ := bind_ok h
  obtain ⟨w4, h4, h⟩ := bind_ok h
  obtain ⟨w5, h5, h⟩ := bind_ok h
  obtain ⟨s5, -, h⟩ := bind_ok h
  obtain ⟨l5, -, h⟩ := bind_ok h
  obtain ⟨w7, h7, h⟩ := bind_ok h
  simp only [pure_eq_ok, Except.ok.injEq] at h
  rw [← h]
  have p2 : P (fillLine self c addr k tid lg pos w) :=
    st.fill _ _ _ _ _ _ _ _ _ hself hset hpos hP
  have p3 : P w3 := by
    split at h3
    · exact he _ _ _ _ _ h3 p2
    · simp only [pure_eq_ok, Except.ok.injEq] at h3
      exact h3 ▸ p2
  have p4 : P w4 := replStep_pres st h4 p3
  have p5 : P w5 := forwardMiss_pres st hl h5 p4
  exact cohDispatch_pres st hh h7 p5

theorem getSet_eq_ok {self : Cache} {i : Nat} {set : List CacheLine} :
    self.getSet i = .ok set ↔ self.m_tagStore[i]? = some set := by
  unfold Cache.getSet
  cases h : self.m_tagStore[i]? <;> simp

theorem inclusive_of_cleared {w w' : World} (h : Cleared w w')
    (hi : ∃ (c : Nat) (self : Cache), w.caches[c]? = some self ∧ self.m_inclusive = true) :
    ∃ (c : Nat) (self : Cache), w'.caches[c]? = some self ∧ self.m_inclusive = true := by
  obtain ⟨c, self, hc, hincl⟩ := hi
  obtain ⟨cx', hx', e, -, -⟩ := h.2.2.2 c self hc
  refine ⟨c, cx', hx', ?_⟩
  rw [e]; exact hincl

/-- The back-invalidation loop of an inclusive cache preserves `P`. -/
theorem forHigher_inval_pres (st : Stable env P peer) (fuel addr tid : Nat) (tr : Bool) :
    ∀ (hs : List Nat) (wa wb : World),
      (∃ (c : Nat) (self : Cache), wa.caches[c]? = some self ∧ self.m_inclusive = true) →
      P wa →
      forHigher (fun h wacc => invalidate fuel h addr tid tr wacc) hs wa = .ok wb → P wb := by
  intro hs
  induction hs with
  | nil =>
    intro wa wb _ hP h
    simp only [forHigher, List.foldlM_nil, pure_eq_ok, Except.ok.injEq] at h
    exact h ▸ hP
  | cons a rest ih =>
    intro wa wb hi hP h
    simp only [forHigher, List.foldlM_cons] at h
    obtain ⟨w1, h1, h⟩ := bind_ok h
    split at h1
    · exact ih w1 wb (inclusive_of_cleared (invalidate_cleared _ _ _ _ _ _ _ h1) hi)
        (st.inval _ _ hi _ _ _ _ _ hP h1) h
    · simp only [pure_eq_ok, Except.ok.injEq] at h1
      subst h1
      exact ih _ wb hi hP h

/-- `evict`, `lookupAndFillCache` and `handle_coherence_action` preserve a stable property;
a broadcast from another hierarchy is admitted only when `peer` holds. -/
theorem cache_ops_pres (st : Stable env P peer) :
    ∀ fuel : Nat,
      EvPres P (evict env fuel) ∧ LafPres P (lookupAndFillCache env fuel) ∧
      ∀ (same : Bool), (same = false → peer) →
        ∀ c a addr tid lg lat tr w w',
          handle_coherence_action env fuel c a addr tid lg lat tr same w = .ok w' →
          P w → P w' := by
  intro fuel
  induction fuel with
  | zero =>
    refine ⟨?_, ?_, ?_⟩
    · intro c i p w w' h; simp [evict] at h
    · intro c addr k tid lg lat w r h; simp [lookupAndFillCache] at h
    · intro same _ c a addr tid lg lat tr w w' h; simp [handle_coherence_action] at h
  | succ fuel ih =>
    obtain ⟨ihe, ihl, ihh⟩ := ih
    have ihh' : HcaPres P (handle_coherence_action env fuel) :=
      fun c a addr tid lg lat tr w w' h hP =>
        ihh true (fun e => Bool.noConfusion e) c a addr tid lg lat tr w w' h hP
    refine ⟨?_, ?_, ?_⟩
    · -- evict
      intro c i p w w' h hP
      rw [evict] at h
      obtain ⟨self, hself, h⟩ := bind_ok h
      obtain ⟨line, -, h⟩ := bind_ok h
      obtain ⟨w1, h1, h⟩ := bind_ok h
      have p1 : P w1 := by
        split at h1
        · rename_i hincl
          exact forHigher_inval_pres st _ _ _ _ _ _ _
            ⟨c, self, getCache_eq_ok.mp hself, hincl⟩ hP h1
        · simp only [pure_eq_ok, Except.ok.injEq] at h1
          exact h1 ▸ hP
      cases hlow : find_lower_cache_in_core env w1 self
          (self.line_addr line.tag i) line.is_translation line.is_large with
      | none =>
        simp only [hlow] at h
        split at h
        · simp only [pure_eq_ok, Except.ok.injEq] at h
          exact h ▸ p1
        · simp only [pure_eq_ok, Except.ok.injEq] at h
          exact h ▸ p1
      | some l =>
        simp only [hlow] at h
        split at h
        · obtain ⟨res, hres, h⟩ := bind_ok h
          have p2 : P res.2 := ihl _ _ _ _ _ _ _ _ hres p1
          have p3 : P (updLine res.2 c i p
              (fun l => { l with m_coherence_prot := CoherenceState.INVALID })) :=
            st.soft _ _ _ _ _ (fun l => ⟨rfl, rfl, rfl, rfl, rfl⟩) p2
          split at h
          · split at h
            · simp only [pure_eq_ok, Except.ok.injEq] at h
              exact h ▸ p3
            · exact Except.noConfusion h
          · simp only [pure_eq_ok, Except.ok.injEq] at h
            exact h ▸ p3
        · split at h
          · obtain ⟨lower, -, h⟩ := bind_ok h
            obtain ⟨set, -, h⟩ := bind_ok h
            split at h
            · simp only [pure_eq_ok, Except.ok.injEq] at h
              exact h ▸ p1
            · exact Except.noConfusion h
          · simp only [pure_eq_ok, Except.ok.injEq] at h
            exact h ▸ p1
    · -- lookupAndFillCache
      intro c addr k tid lg lat w r h hP
      rw [lookupAndFillCache] at h
      obtain ⟨self, hself, h⟩ := bind_ok h
      obtain ⟨set, hset, h⟩ := bind_ok h
      by_cases hh : (is_hit set (self.get_tag addr) k.is_translation_txn tid).1 = true
      · simp only [hh, if_true] at h
        exact hitPath_pres st ihh' h hP
      · simp only [hh, if_false] at h
        obtain ⟨pos, hpos, h⟩ := bind_ok h
        obtain ⟨line, -, h⟩ := bind_ok h
        cases hm : (if line.valid = true then mapFind self.m_mshr_entries addr else none) with
        | some entry =>
          simp only [hm] at h
          exact mshrPath_pres st ihh' h hP
        | none =>
          simp only [hm] at h
          split at h
          · exact missPath_pres st ihe ihl ihh' (getCache_eq_ok.mp hself)
              (getSet_eq_ok.mp hset) hpos h hP
          · simp only [pure_eq_ok, Except.ok.injEq] at h
            rw [← h]; exact hP
    · -- handle_coherence_action
      intro same hsame c a addr tid lg lat tr w w' h hP
      rw [handle_coherence_action] at h
      obtain ⟨self, hself, h⟩ := bind_ok h
      split at h
      · split at h
        · obtain ⟨res, hres, h⟩ := bind_ok h
          simp only [pure_eq_ok, Except.ok.injEq] at h
          rw [← h]; exact ihl _ _ _ _ _ _ _ _ hres hP
        · simp only [pure_eq_ok, Except.ok.injEq] at h
          exact h ▸ hP
      · split at h
        · rename_i hbc
          obtain ⟨b, -, h⟩ := bind_ok h
          split at h
          · exact st.enqueue _ _ _ _ _ _ _ _ _ hbc hP h
          · split at h
            · rename_i hns
              have hsf : same = false := by
                cases same
                · rfl
                · simp at hns
              exact st.peerB (hsame hsf) _ _ _ _ _ _ _ (getCache_eq_ok.mp hself) hP h
            · simp only [pure_eq_ok, Except.ok.injEq] at h
              exact h ▸ hP
        · simp only [pure_eq_ok, Except.ok.injEq] at h
          exact h ▸ hP

theorem releaseEntry_pres (st : Stable env P peer) {self : Cache} {c : Nat} {r : Request}
    {w w' : World} (h : releaseEntry self c r w = .ok w') (hP : P w) : P w' := by
  unfold releaseEntry at h
  split at h
  · obtain ⟨mline, -, h⟩ := bind_ok h
    obtain ⟨self', -, h⟩ := bind_ok h
    split at h
    · simp only [pure_eq_ok, Except.ok.injEq] at h
      rw [← h]
      refine st.frame _ _ (frame_updCache _ _ _ (fun _ => rfl)) ?_
      split
      · exact st.unlock _ _ _ _ hP
      · exact hP
    · exact Except.noConfusion h
  · simp only [pure_eq_ok, Except.ok.injEq] at h
    exact h ▸ hP

theorem markDone_pres (st : Stable env P peer) (self : Cache) (r : Request) {w : World}
    (hP : P w) : P (markDone self r w) := by
  unfold markDone
  split
  · exact st.frame _ _ (frame_rob _ _) hP
  · exact hP

theorem propagateStep_pres {rel : Nat → Request → World → Except Err (Request × World)}
    (hr : RelPres P rel) {self : Cache} {acc res : Request × World} {h : Nat}
    (hs : propagateStep env rel self acc h = .ok res) (hP : P acc.2) : P res.2 := by
  unfold propagateStep at hs
  simp only [] at hs
  split at hs
  · obtain ⟨hc, -, hs⟩ := bind_ok hs
    split at hs
    · obtain ⟨sys, -, hs⟩ := bind_ok hs
      split at hs
      · split at hs <;> split at hs <;>
          first
          | exact hr _ _ _ _ hs hP
          | (simp only [pure_eq_ok, Except.ok.injEq] at hs
             rw [← hs]; exact hP)
      · simp only [pure_eq_ok, Except.ok.injEq] at hs
        rw [← hs]; exact hP
    · simp only [pure_eq_ok, Except.ok.injEq] at hs
      rw [← hs]; exact hP
  · simp only [pure_eq_ok, Except.ok.injEq] at hs
    rw [← hs]; exact hP

theorem foldlM_pres {α β : Type} (Q : β → Prop) (f : β → α → Except Err β)
    (hf : ∀ b a b', f b a = .ok b' → Q b → Q b') :
    ∀ (l : List α) (b b' : β), l.foldlM f b = .ok b' → Q b → Q b' := by
  intro l
  induction l with
  | nil =>
    intro b b' h hQ
    simp only [List.foldlM_nil, pure_eq_ok, Except.ok.injEq] at h
    exact h ▸ hQ
  | cons a rest ih =>
    intro b b' h hQ
    simp only [List.foldlM_cons] at h
    obtain ⟨b1, h1, h⟩ := bind_ok h
    exact ih b1 b' h (hf _ _ _ h1 hQ)

/-- `release_lock` and `propagate_release_lock` preserve a stable property. -/
theorem release_pres (st : Stable env P peer) :
    ∀ fuel : Nat, RelPres P (release_lock env fuel) ∧
      RelPres P (propagate_release_lock env fuel) := by
  intro fuel
  induction fuel with
  | zero =>
    constructor
    · intro c r w res h; simp [release_lock] at h
    · intro c r w res h; simp [propagate_release_lock] at h
  | succ fuel ih =>
    obtain ⟨ihr, ihp⟩ := ih
    constructor
    · intro c r w res h hP
      rw [release_lock] at h
      obtain ⟨self, -, h⟩ := bind_ok h
      obtain ⟨w1, h1, h⟩ := bind_ok h
      exact ihp _ _ _ _ h (markDone_pres st _ _ (releaseEntry_pres st h1 hP))
    · intro c r w res h hP
      rw [propagate_release_lock] at h
      obtain ⟨self, -, h⟩ := bind_ok h
      exact foldlM_pres (fun acc => P acc.2) _
        (fun b a b' hs hQ => propagateStep_pres ihr hs hQ) _ _ _ h hP

/-- `tick` preserves a stable property. -/
theorem tick_pres (st : Stable env P peer) {fuel s : Nat} {w w' : World}
    (h : tick env fuel s w = .ok w') (hP : P w) : P w' := by
  unfold tick at h
  obtain ⟨sys, hsys, h⟩ := bind_ok h
  obtain ⟨w1, h1, h⟩ := bind_ok h
  obtain ⟨sys1, -, h⟩ := bind_ok h
  have p1 : P w1 := by
    rcases st.quiet with hp | hq
    · refine foldlM_pres P _ ?_ _ _ _ h1 hP
      intro b e b' hb hQ
      split at hb
      · exact Except.noConfusion hb
      · refine foldlM_pres P _ ?_ _ _ _ hb hQ
        intro b2 cid b2' hb2 hQ2
        exact (cache_ops_pres st fuel).2.2 false (fun _ => hp) _ _ _ _ _ _ _ _ _ hb2 hQ2
    · rw [hq w s sys hP (getSys_eq_ok.mp hsys)] at h1
      simp only [List.foldlM_nil, pure_eq_ok, Except.ok.injEq] at h1
      exact h1 ▸ hP
  split at h
  · exact Except.noConfusion h
  · obtain ⟨w3, h3, h⟩ := bind_ok h
    simp only [pure_eq_ok, Except.ok.injEq] at h
    rw [← h]
    refine st.frame _ _ (frame_updSys _ _ _ (fun x => ⟨rfl, Or.inl rfl⟩)) ?_
    refine foldlM_pres P _ ?_ _ _ _ h3
      (st.frame _ _ (frame_updSys _ _ _ (fun x => ⟨rfl, Or.inr rfl⟩)) p1)
    intro b e b' hb hQ
    split at hb
    · obtain ⟨res, hres, hb⟩ := bind_ok hb
      simp only [pure_eq_ok, Except.ok.injEq] at hb
      rw [← hb]
      exact (release_pres st fuel).1 _ _ _ _ hres hQ
    · simp only [pure_eq_ok, Except.ok.injEq] at hb
      exact hb ▸ hQ

theorem map_snd_ok {α : Type} {x : Except Err (α × World)} {w' : World}
    (h : x.map (fun r => r.2) = .ok w') : ∃ r, x = .ok r ∧ r.2 = w' := by
  cases x with
  | error e => simp [Except.map] at h
  | ok r =>
    simp only [Except.map, Except.ok.injEq] at h
    exact ⟨r, rfl, h⟩

/-- Every operation preserves a stable property, given that a top-level `invalidate` does
and that a top-level broadcast from another hierarchy is admitted. -/
theorem op_pres (st : Stable env P peer) (op : Op) (fuel : Nat) (w w' : World)
    (hinv : ∀ c addr tid tr, op = .invalidate c addr tid tr →
      invalidate fuel c addr tid tr w = .ok w' → P w')
    (hcoh : ∀ c a addr tid lg lat tr, op = .handle_coherence_action c a addr tid lg lat tr false →
      peer)
    (h : op.run env fuel w = .ok w') (hP : P w) : P w' := by
  cases op with
  | lookupAndFillCache c addr k tid lg lat =>
    obtain ⟨r, hr, e⟩ := map_snd_ok h
    exact e ▸ (cache_ops_pres st fuel).2.1 _ _ _ _ _ _ _ _ hr hP
  | invalidate c addr tid tr => exact hinv c addr tid tr rfl h
  | handle_coherence_action c a addr tid lg lat tr same =>
    refine (cache_ops_pres st fuel).2.2 same ?_ _ _ _ _ _ _ _ _ _ h hP
    intro hs
    subst hs
    exact hcoh c a addr tid lg lat tr rfl
  | release_lock c r =>
    obtain ⟨res, hr, e⟩ := map_snd_ok h
    exact e ▸ (release_pres st fuel).1 _ _ _ _ hr hP
  | tick s => exact tick_pres st h hP
  | sysLookup s addr k =>
    obtain ⟨r, hr, e⟩ := map_snd_ok h
    unfold CacheSys_lookupAndFillCache at hr
    obtain ⟨sys, -, hr⟩ := bind_ok hr
    split at hr
    · exact e ▸ (cache_ops_pres st fuel).2.1 _ _ _ _ _ _ _ _ hr hP
    · exact Except.noConfusion hr

end Preservation

/-! ## Properties of every set of every cache -/

theorem allSets_iff (S : List CacheLine → Prop) (w : World) :
    AllSets S w ↔ ∀ (c i : Nat) (cx : Cache) (set : List CacheLine),
      w.caches[c]? = some cx → cx.m_tagStore[i]? = some set → S set := by
  constructor
  · intro h c i cx set hc hs
    exact h cx (List.getElem?_mem hc) set (List.getElem?_mem hs)
  · intro h cx hcx set hset
    obtain ⟨c, hc⟩ := List.getElem?_of_mem hcx
    obtain ⟨i, hi⟩ := List.getElem?_of_mem hset
    exact h c i cx set hc hi

/-- A line update preserves `AllSets S` when it preserves `S` on the set it touches. -/
theorem allSets_updLine {S : List CacheLine → Prop} {w : World} (c i p : Nat)
    (f : CacheLine → CacheLine) (h : AllSets S w)
    (hf : ∀ (cx : Cache) (set : List CacheLine), w.caches[c]? = some cx →
      cx.m_tagStore[i]? = some set → S set → S (set.modify f p)) :
    AllSets S (updLine w c i p f) := by
  rw [allSets_iff] at h ⊢
  intro c' i' cx' set' hc' hs'
  simp only [updLine, updCache_getElem?] at hc'
  cases hcx : w.caches[c']? with
  | none => simp [hcx] at hc'
  | some cx =>
    simp only [hcx, Option.map_eq_map, Option.map_some', Option.some.injEq] at hc'
    by_cases hcc : c = c'
    · simp only [hcc, if_true] at hc'
      subst hc'
      rw [Cache_updLine_getElem?] at hs'
      cases hsx : cx.m_tagStore[i']? with
      | none => simp [hsx] at hs'
      | some set =>
        simp only [hsx, Option.map_eq_map, Option.map_some', Option.some.injEq] at hs'
        by_cases hii : i = i'
        · simp only [hii, if_true] at hs'
          subst hs'
          exact hf cx set (hcc ▸ hcx) (hii ▸ hsx) (h c' i' cx set hcx hsx)
        · simp only [hii, if_false] at hs'
          subst hs'
          exact h c' i' cx set hcx hsx
    · simp only [hcc, if_false] at hc'
      subst hc'
      exact h c' i' cx set' hcx hs'

/-- `AllSets S` depends on the tag stores only. -/
theorem allSets_frame {S : List CacheLine → Prop} {w w' : World}
    (hc : w'.caches.map Cache.core = w.caches.map Cache.core) (h : AllSets S w) :
    AllSets S w' := by
  intro cx' hcx' set hset
  have : cx'.core ∈ w.caches.map Cache.core := hc ▸ List.mem_map_of_mem _ hcx'
  obtain ⟨cx, hcx, e⟩ := List.mem_map.mp this
  have ets : cx.core.m_tagStore = cx'.core.m_tagStore := by rw [e]
  exact h cx hcx set (ets ▸ hset)

/-- `AllSets S` survives the clearing of valid bits when `S` does. -/
theorem allSets_cleared {S : List CacheLine → Prop} {w w' : World} (hcl : Cleared w w')
    (hS : ∀ (set set' : List CacheLine), S set →
      (∀ (p : Nat) (l' : CacheLine), set'[p]? = some l' →
        ∃ l, set[p]? = some l ∧ (l' = l ∨ l' = { l with valid := false })) → S set')
    (h : AllSets S w) : AllSets S w' := by
  rw [allSets_iff] at h ⊢
  intro c i cx' set' hc hs
  obtain ⟨cx, set, hx, -, hset, hl⟩ := hcl.back hc hs
  exact hS set set' (h c i cx set hx hset) hl

/-! ## No two valid lines of a set share a key -/

theorem modify_getElem?_some {f : CacheLine → CacheLine} {set : List CacheLine} {p i : Nat}
    {l : CacheLine} (h : (set.modify f p)[i]? = some l) :
    ∃ l0, set[i]? = some l0 ∧ l = if p = i then f l0 else l0 := by
  rw [List.getElem?_modify] at h
  cases hs : set[i]? with
  | none => simp [hs] at h
  | some l0 =>
    simp only [hs, Option.map_eq_map, Option.map_some', Option.some.injEq] at h
    exact ⟨l0, rfl, h.symm⟩

/-- An update under which a line that is valid afterwards was valid with the same key. -/
theorem noDup_modify {f : CacheLine → CacheLine} {set : List CacheLine} (p : Nat)
    (hf : ∀ l, (f l).valid = true → l.valid = true ∧ (f l).key = l.key)
    (h : NoDupKeys set) : NoDupKeys (set.modify f p) := by
  intro i j li lj hi hj vi vj hk
  obtain ⟨li0, hi0, ei⟩ := modify_getElem?_some hi
  obtain ⟨lj0, hj0, ej⟩ := modify_getElem?_some hj
  have ki : li0.valid = true ∧ li.key = li0.key := by
    rw [ei] at vi ⊢
    split
    · rename_i hp; simp only [hp, if_true] at vi; exact hf li0 vi
    · rename_i hp; simp only [hp, if_false] at vi; exact ⟨vi, rfl⟩
  have kj : lj0.valid = true ∧ lj.key = lj0.key := by
    rw [ej] at vj ⊢
    split
    · rename_i hp; simp only [hp, if_true] at vj; exact hf lj0 vj
    · rename_i hp; simp only [hp, if_false] at vj; exact ⟨vj, rfl⟩
  exact h i j li0 lj0 hi0 hj0 ki.1 kj.1 (by rw [← ki.2, ← kj.2]; exact hk)

theorem noDup_cleared {set set' : List CacheLine} (h : NoDupKeys set)
    (hl : ∀ (p : Nat) (l' : CacheLine), set'[p]? = some l' →
      ∃ l, set[p]? = some l ∧ (l' = l ∨ l' = { l with valid := false })) :
    NoDupKeys set' := by
  intro i j li lj hi hj vi vj hk
  obtain ⟨li0, hi0, ri⟩ := hl i li hi
  obtain ⟨lj0, hj0, rj⟩ := hl j lj hj
  have ei : li = li0 := by
    rcases ri with r | r
    · exact r
    · rw [r] at vi; exact Bool.noConfusion vi
  have ej : lj = lj0 := by
    rcases rj with r | r
    · exact r
    · rw [r] at vj; exact Bool.noConfusion vj
  subst ei ej
  exact h i j li lj hi0 hj0 vi vj hk

theorem lineMatches_of_key {l : CacheLine} {tag : Nat} {tr : Bool} {tid : Nat}
    (hv : l.valid = true) (hk : l.key = (tag, tr, tid)) : lineMatches tag tr tid l = true := by
  simp only [CacheLine.key, Prod.mk.injEq] at hk
  exact (lineMatches_iff _ _ _ _).mpr ⟨hv, hk.1, hk.2.1, hk.2.2⟩

/-- The overwrite of a miss fill keeps keys unique: the slot is the one that already holds
the key, or no valid line holds it. -/
theorem noDup_fill {set : List CacheLine} {tag : Nat} {tr : Bool} {tid : Nat} {pos : Nat}
    (f : CacheLine → CacheLine)
    (hf : ∀ l, (f l).key = (tag, tr, tid))
    (hpos : ((is_found set tag tr tid).1 = true ∧ pos = (is_found set tag tr tid).2) ∨
      (is_found set tag tr tid).1 = false)
    (h : NoDupKeys set) : NoDupKeys (set.modify f pos) := by
  -- a valid line other than the slot whose key is the filled key must be the slot
  have other : ∀ (j : Nat) (lj : CacheLine), set[j]? = some lj → lj.valid = true →
      lj.key = (tag, tr, tid) → pos = j := by
    intro j lj hj vj kj
    have hm := lineMatches_of_key vj kj
    rcases hpos with ⟨hfound, hp⟩ | hnot
    · obtain ⟨l0, hl0, hm0⟩ := is_found_true hfound
      rw [← hp] at hl0
      have hm0' := (lineMatches_iff _ _ _ _).mp hm0
      exact h pos j l0 lj hl0 hj hm0'.1 vj
        (by
          rw [kj]
          simp only [CacheLine.key, Prod.mk.injEq]
          exact ⟨hm0'.2.1, hm0'.2.2.1, hm0'.2.2.2⟩)
    · have := is_found_false hnot lj (List.getElem?_mem hj)
      rw [hm] at this
      exact Bool.noConfusion this
  intro i j li lj hi hj vi vj hk
  obtain ⟨li0, hi0, ei⟩ := modify_getElem?_some hi
  obtain ⟨lj0, hj0, ej⟩ := modify_getElem?_some hj
  by_cases hpi : pos = i <;> by_cases hpj : pos = j
  · exact hpi ▸ hpj
  · simp only [hpi, if_true] at ei
    simp only [hpj, if_false] at ej
    subst ej
    have : lj.key = (tag, tr, tid) := by rw [← hk, ei]; exact hf li0
    exact absurd (other j lj hj0 vj this) hpj
  · simp only [hpi, if_false] at ei
    simp only [hpj, if_true] at ej
    subst ei
    have : li.key = (tag, tr, tid) := by rw [hk, ej]; exact hf lj0
    exact absurd (other i li hi0 vi this) hpi
  · simp only [hpi, if_false] at ei
    simp only [hpj, if_false] at ej
    subst ei ej
    exact h i j li lj hi0 hj0 vi vj hk

theorem insertPos_cases {self : Cache} {set : List CacheLine} {addr : Nat} {k : kind}
    {tid pos : Nat} (h : self.insertPos set addr k tid = .ok pos) :
    ((is_found set (self.get_tag addr) k.is_translation_txn tid).1 = true ∧
      pos = (is_found set (self.get_tag addr) k.is_translation_txn tid).2) ∨
    (is_found set (self.get_tag addr) k.is_translation_txn tid).1 = false := by
  unfold Cache.insertPos at h
  cases hf : (is_found set (self.get_tag addr) k.is_translation_txn tid).1 with
  | false => exact Or.inr rfl
  | true =>
    simp only [hf, if_true, pure_eq_ok, Except.ok.injEq] at h
    exact Or.inl ⟨rfl, h.symm⟩

theorem enqueueBroadcast_caches {self : Cache} {c : Nat} {a : CoherenceAction}
    {addr tid : Nat} {lg tr : Bool} {w w' : World}
    (h : enqueueBroadcast self c a addr tid lg tr w = .ok w') : w'.caches = w.caches := by
  unfold enqueueBroadcast at h
  obtain ⟨sys, -, h⟩ := bind_ok h
  refine foldlM_pres (fun x => x.caches = w.caches) _ ?_ _ _ _ h rfl
  intro b p b' hb hQ
  obtain ⟨x, -, hb⟩ := bind_ok hb
  simp only [pure_eq_ok, Except.ok.injEq] at hb
  rw [← hb]; exact hQ

theorem allSets_updCache {S : List CacheLine → Prop} {w : World} (c : Nat)
    (g : Cache → Cache) (hg : ∀ x, (g x).core = x.core) (h : AllSets S w) :
    AllSets S (updCache w c g) :=
  allSets_frame (frame_updCache w c g hg).1 h

/-- What the handling of a broadcast from another hierarchy does to the world: nothing, or
a new protocol state for one line, possibly followed by the clearing of its valid bit. -/
theorem peerBroadcast_cases {env : Env} {self : Cache} {c : Nat} {a : CoherenceAction}
    {addr tid : Nat} {w w' : World} (h : peerBroadcast env self c a addr tid w = .ok w') :
    w' = w ∨ ∃ (i p : Nat) (s : CoherenceState),
      w' = updLine w c i p (fun l => { l with m_coherence_prot := s }) ∨
      w' = updLine (updLine w c i p (fun l => { l with m_coherence_prot := s })) c i p
        (fun l => { l with valid := false }) := by
  unfold peerBroadcast at h
  obtain ⟨set, -, h⟩ := bind_ok h
  dsimp only at h
  generalize (is_found set (self.get_tag addr) (tid != 0)
    (if ((a == CoherenceAction.BROADCAST_TRANSLATION_WRITE) ||
      (a == CoherenceAction.BROADCAST_TRANSLATION_READ)) = true then 1 else 0)) = f at h
  cases hf : f.1 with
  | false =>
    simp only [hf, Bool.false_eq_true, if_false, pure_eq_ok, Except.ok.injEq] at h
    exact Or.inl h.symm
  | true =>
    simp only [hf, if_true] at h
    obtain ⟨line, -, h⟩ := bind_ok h
    refine Or.inr ⟨self.get_index addr, f.2,
      (env.setNextCoherenceState line.m_coherence_prot (env.txnKindForCohAction a)).1, ?_⟩
    by_cases hk : env.txnKindForCohAction a = env.DIRECTORY_DATA_WRITE ∨
        env.txnKindForCohAction a = env.DIRECTORY_TRANSLATION_WRITE
    · simp only [hk, if_true] at h
      split at h
      · simp only [pure_eq_ok, Except.ok.injEq] at h
        exact Or.inr h.symm
      · exact Except.noConfusion h
    · simp only [hk, if_false, pure_eq_ok, Except.ok.injEq] at h
      exact Or.inl h.symm

/-- Uniqueness of keys is stable. -/
theorem stable_noDuplicateLines (env : Env) : Stable env NoDuplicateLines True where
  soft := by
    intro w c i p f hf h
    exact allSets_updLine c i p f h (fun _ set _ _ hs => noDup_modify p
      (fun l hv => ⟨(hf l).1 ▸ hv, by
        simp only [CacheLine.key, (hf l).2.2.1, (hf l).2.2.2.1, (hf l).2.2.2.2]⟩) hs)
  unlock := by
    intro w c i p h
    exact allSets_updLine c i p _ h (fun _ set _ _ hs => noDup_modify p
      (fun l hv => ⟨hv, rfl⟩) hs)
  fill := by
    intro w c self set addr k tid lg pos hself hset hpos h
    show AllSets NoDupKeys (updCache (updLine w c (self.get_index addr) pos _) c _)
    refine allSets_updCache c _ (fun _ => rfl) ?_
    refine allSets_updLine c _ pos _ h ?_
    intro cx set' hcx hset' hs
    rw [hself] at hcx
    cases Option.some.inj hcx
    rw [hset] at hset'
    cases Option.some.inj hset'
    exact noDup_fill _ (fun l => rfl) (insertPos_cases hpos) hs
  frame := by
    intro w w' hf h
    exact allSets_frame hf.1 h
  enqueue := by
    intro w w' self c a addr tid lg tr _ h he
    have := enqueueBroadcast_caches he
    exact allSets_frame (by rw [this]) h
  inval := by
    intro w w' _ fuel hh addr tid tr h hi
    exact allSets_cleared (invalidate_cleared _ _ _ _ _ _ _ hi)
      (fun set set' hs hl => noDup_cleared hs hl) h
  peerB := by
    intro _ w w' self c a addr tid hself h hp
    have soft : ∀ (w0 : World) (i p : Nat) (s : CoherenceState), NoDuplicateLines w0 →
        NoDuplicateLines (updLine w0 c i p (fun l => { l with m_coherence_prot := s })) :=
      fun w0 i p s h0 => allSets_updLine c _ _ _ h0 (fun _ set _ _ hs => noDup_modify _
        (fun l hv => ⟨hv, rfl⟩) hs)
    rcases peerBroadcast_cases hp with e | ⟨i, p, s, e | e⟩
    · exact e ▸ h
    · exact e ▸ soft w i p s h
    · rw [e]
      exact allSets_updLine c _ _ _ (soft w i p s h) (fun _ set _ _ hs => noDup_modify _
        (fun l hv => Bool.noConfusion hv) hs)
  quiet := Or.inl trivial

theorem noDup_of_empty {w : World} (h : EmptyCaches w) : NoDuplicateLines w := by
  intro c hc set hs i j li lj hi _ vi _ _
  have := ((h c hc).1 set hs li (List.getElem?_mem hi)).1
  rw [this] at vi
  exact Bool.noConfusion vi

/-- C6: in every state reachable from empty caches through `lookupAndFillCache`,
`invalidate`, `handle_coherence_action`, `release_lock` and `tick` (and the entry point of
the hierarchy), whatever the collaborators do, no set of any cache contains two distinct
valid lines with the same `(tag, is_translation, tid)`. -/
theorem no_duplicate_lines_invariant (env : Env) (w0 w : World) (h0 : EmptyCaches w0)
    (hr : Reachable env Op.any w0 w) : NoDuplicateLines w := by
  induction hr with
  | init => exact noDup_of_empty h0
  | step op fuel _ _ hrun ih =>
    refine op_pres (stable_noDuplicateLines env) op fuel _ _ ?_ (fun _ _ _ _ _ _ _ _ => trivial)
      hrun ih
    intro c addr tid tr _ hi
    exact allSets_cleared (invalidate_cleared _ _ _ _ _ _ _ hi)
      (fun set set' hs hl => noDup_cleared hs hl) ih

/-! ## A locked line is valid where nothing invalidates -/

theorem quiet_caches {w w' : World}
    (hc : w'.caches.map Cache.core = w.caches.map Cache.core)
    (h : ∀ c ∈ w.caches, c.m_inclusive = false) : ∀ c ∈ w'.caches, c.m_inclusive = false := by
  intro cx' hcx'
  have : cx'.core ∈ w.caches.map Cache.core := hc ▸ List.mem_map_of_mem _ hcx'
  obtain ⟨cx, hcx, e⟩ := List.mem_map.mp this
  have ei : cx.core.m_inclusive = cx'.core.m_inclusive := by rw [e]
  exact ei ▸ h cx hcx

theorem quiet_frame {w w' : World} (hf : Frame w w') (h : Quiet w) : Quiet w' := by
  refine ⟨quiet_caches hf.1 h.1, ?_⟩
  intro s' hs'
  obtain ⟨n, hn⟩ := List.getElem?_of_mem hs'
  have hlt : n < w.systems.length := hf.2.1 ▸ (List.getElem?_eq_some.mp hn).1
  obtain ⟨s2, hs2, hp, hcoh⟩ := hf.2.2 n _ (List.getElem?_eq_getElem hlt)
  rw [hn] at hs2
  cases Option.some.inj hs2
  have hq := h.2 _ (List.getElem_mem hlt)
  refine ⟨hp.trans hq.1, ?_⟩
  rcases hcoh with e | e
  · exact e.trans hq.2
  · exact e

theorem quiet_updLine {w : World} (c i p : Nat) (f : CacheLine → CacheLine) (h : Quiet w) :
    Quiet (updLine w c i p f) := by
  refine ⟨?_, h.2⟩
  intro cx' hcx'
  obtain ⟨n, hn⟩ := List.getElem?_of_mem hcx'
  simp only [updLine, updCache_getElem?] at hn
  cases hx : w.caches[n]? with
  | none => simp [hx] at hn
  | some cx =>
    simp only [hx, Option.map_eq_map, Option.map_some', Option.some.injEq] at hn
    have := h.1 cx (List.getElem?_mem hx)
    rw [← hn]
    split
    · exact this
    · exact this

theorem liv_modify {f : CacheLine → CacheLine} {set : List CacheLine} (p : Nat)
    (hf : ∀ l, (l.lock = true → l.valid = true) → (f l).lock = true → (f l).valid = true)
    (h : ∀ l ∈ set, l.lock = true → l.valid = true) :
    ∀ l ∈ set.modify f p, l.lock = true → l.valid = true := by
  intro l hl
  obtain ⟨n, hn⟩ := List.getElem?_of_mem hl
  obtain ⟨l0, hl0, e⟩ := modify_getElem?_some hn
  rw [e]
  split
  · exact hf l0 (h l0 (List.getElem?_mem hl0))
  · exact h l0 (List.getElem?_mem hl0)

/-- Without inclusive caches, peers and queued coherence actions, "locked implies valid" is
stable. -/
theorem stable_lockImpliesValid (env : Env) :
    Stable env (fun w => Quiet w ∧ LockImpliesValid w) False where
  soft := by
    intro w c i p f hf h
    exact ⟨quiet_updLine c i p f h.1, allSets_updLine c i p f h.2 (fun _ set _ _ hs =>
      liv_modify p (fun l hl hk => by rw [(hf l).1]; exact hl ((hf l).2.1 ▸ hk)) hs)⟩
  unlock := by
    intro w c i p h
    exact ⟨quiet_updLine c i p _ h.1, allSets_updLine c i p _ h.2 (fun _ set _ _ hs =>
      liv_modify p (fun l _ hk => Bool.noConfusion hk) hs)⟩
  fill := by
    intro w c self set addr k tid lg pos _ _ _ h
    have hfr : Frame (updLine w c (self.get_index addr) pos
        (fun l => { l with valid := true, lock := true, tag := self.get_tag addr,
                           is_translation := k.is_translation_txn,
                           is_large := lg, tid := tid, dirty := k.is_write_txn }))
        (fillLine self c addr k tid lg pos w) := frame_updCache _ _ _ (fun _ => rfl)
    exact ⟨quiet_frame hfr (quiet_updLine c _ pos _ h.1),
      allSets_frame hfr.1 (allSets_updLine c _ pos _ h.2 (fun _ set _ _ hs =>
        liv_modify pos (fun l _ _ => rfl) hs))⟩
  frame := by
    intro w w' hf h
    exact ⟨quiet_frame hf h.1, allSets_frame hf.1 h.2⟩
  enqueue := by
    intro w w' self c a addr tid lg tr _ h he
    unfold enqueueBroadcast at he
    obtain ⟨sys, hsys, he⟩ := bind_ok he
    have := (h.1.2 sys (List.getElem?_mem (getSys_eq_ok.mp hsys))).1
    rw [this] at he
    simp only [List.foldlM_nil, pure_eq_ok, Except.ok.injEq] at he
    exact he ▸ h
  inval := by
    intro w w' hi fuel hh addr tid tr h _
    obtain ⟨c, self, hc, hincl⟩ := hi
    have := h.1.1 self (List.getElem?_mem hc)
    rw [this] at hincl
    exact Bool.noConfusion hincl
  peerB := fun hp => False.elim hp
  quiet := Or.inr (fun w s sys h hs => (h.1.2 sys (List.getElem?_mem hs)).2)

theorem liv_of_empty {w : World} (h : EmptyCaches w) : LockImpliesValid w := by
  intro c hc set hs l hl hk
  have := ((h c hc).1 set hs l hl).2
  rw [this] at hk
  exact Bool.noConfusion hk

/-- C9, amended: in a world without inclusive caches, without peer hierarchies and without
queued coherence actions, in every state reachable from empty caches through
`lookupAndFillCache`, `handle_coherence_action` called from within the hierarchy,
`release_lock` and `tick`, every line whose lock bit is true is valid. -/
theorem lock_implies_valid_quiet (env : Env) (w0 w : World) (h0 : EmptyCaches w0)
    (hq : Quiet w0) (hr : Reachable env Op.isOwnTraffic w0 w) :
    LockImpliesValid w := by
  have key : Quiet w ∧ LockImpliesValid w := by
    induction hr with
    | init => exact ⟨hq, liv_of_empty h0⟩
    | step op fuel _ hal hrun ih =>
      refine op_pres (stable_lockImpliesValid env) op fuel _ _ ?_ ?_ hrun ih
      · intro c addr tid tr e
        rw [e] at hal
        exact Bool.noConfusion hal
      · intro c a addr tid lg lat tr e
        rw [e] at hal
        exact Bool.noConfusion hal
  exact key.2

/-- The invariant of C6 at the state an inclusive two-level hierarchy reaches after two
completed reads that conflict in L2. -/
theorem no_duplicate_lines_invariant_witness :
    EmptyCaches (twoLevel 1 1 true 1 0 1 true 1 1) ∧
    ∃ w, Reachable quietEnv Op.any (twoLevel 1 1 true 1 0 1 true 1 1) w ∧
      w.caches.map Cache.validLines = [[(0x0, false, 0)], [(0x40, false, 0)]] ∧
      NoDuplicateLines w := by
  obtain ⟨w, hr, hv⟩ := exists_reachable quietEnv Op.any 4
    [.lookupAndFillCache 0 0 .DATA_READ 0 false 0, .tick 0, .tick 0,
     .lookupAndFillCache 0 0x40 .DATA_READ 0 false 0, .tick 0, .tick 0]
    (twoLevel 1 1 true 1 0 1 true 1 1)
    (fun w => w.caches.map Cache.validLines = [[(0x0, false, 0)], [(0x40, false, 0)]])
    (by decide!) (by decide!)
  exact ⟨by decide!, w, hr, hv,
    no_duplicate_lines_invariant quietEnv _ w (by decide!) hr⟩

/-- The amended invariant of C9 at the state a single cache reaches after a completed read
and a conflicting write that is still in flight. -/
theorem lock_implies_valid_quiet_witness :
    EmptyCaches (oneLevel 1) ∧ Quiet (oneLevel 1) ∧
    ∃ w, Reachable quietEnv Op.isOwnTraffic (oneLevel 1) w ∧
      (w.line? 0 0 0).map (fun l => (l.valid, l.lock, l.tag)) = some (true, true, 1) ∧
      LockImpliesValid w := by
  obtain ⟨w, hr, hv⟩ := exists_reachable quietEnv Op.isOwnTraffic 4
    [.lookupAndFillCache 0 0 .DATA_READ 0 false 0, .tick 0,
     .handle_coherence_action 0 .MEMORY_DATA_WRITEBACK 0 0 false 0 false true,
     .lookupAndFillCache 0 0x40 .DATA_WRITE 0 false 0]
    (oneLevel 1)
    (fun w => (w.line? 0 0 0).map (fun l => (l.valid, l.lock, l.tag)) = some (true, true, 1))
    (by decide!) (by decide!)
  exact ⟨by decide!, by decide!, w, hr, hv,
    lock_implies_valid_quiet quietEnv _ w (by decide!) (by decide!) hr⟩

/-! ## The LRU policy -/

theorem findIdx_first {p : Nat → Bool} {st : List Nat} (h : ∃ x ∈ st, p x = true) :
    ∃ x, st[st.findIdx p]? = some x ∧ p x = true ∧
      ∀ j y, j < st.findIdx p → st[j]? = some y → p y = false := by
  have hlt : st.findIdx p < st.length := List.findIdx_lt_length_of_exists h
  refine ⟨st[st.findIdx p], List.getElem?_eq_getElem hlt, List.findIdx_getElem, ?_⟩
  intro j y hj hy
  have hjl : j < st.length := Nat.lt_trans hj hlt
  have := List.not_of_lt_findIdx hj
  rw [List.getElem?_eq_getElem hjl] at hy
  cases hy
  exact this

theorem getVictim_of_exists (r : LRURepl) (set_num : Nat) (st : List Nat)
    (hset : set_num < r.m_num_sets) (hst : r.replStateArr[set_num]? = some st)
    (hex : ∃ i : Nat, st[i]? = some (r.m_associativity - 1)) :
    ∃ v, r.getVictim set_num = .ok v ∧ st[v]? = some (r.m_associativity - 1) ∧
      ∀ j, j < v → st[j]? ≠ some (r.m_associativity - 1) := by
  obtain ⟨i, hi⟩ := hex
  have hex' : ∃ x ∈ st, (fun p => p == r.m_associativity - 1) x = true :=
    ⟨_, List.getElem?_mem hi, by simp⟩
  obtain ⟨x, hx, hpx, hlow⟩ := findIdx_first hex'
  have hlt : st.findIdx (fun p => p == r.m_associativity - 1) < st.length :=
    List.findIdx_lt_length_of_exists hex'
  refine ⟨st.findIdx (fun p => p == r.m_associativity - 1), ?_, ?_, ?_⟩
  · simp only [LRURepl.getVictim, hset, if_true, hst, hlt]
  · rw [hx]
    simp only [beq_iff_eq] at hpx
    rw [hpx]
  · intro j hj hjv
    have := hlow j _ hj hjv
    simp at this

theorem perm_range_has_top {n : Nat} {st : List Nat} (hn : 0 < n)
    (hperm : st.Perm (List.range n)) : ∃ i : Nat, st[i]? = some (n - 1) := by
  have hm : n - 1 ∈ st := hperm.mem_iff.mpr (List.mem_range.mpr (by omega))
  exact List.getElem?_of_mem hm

/-- C11: for a set of the policy whose state has a way at the top of the stack (a position
`p` with `p + 1 = associativity`), `getVictim` returns the lowest-indexed such way; and when
the positions of a set with ways are a permutation of `[0, associativity)` the assertion
`victim != -1` holds and the victim is that way.  `getVictim` reads a copy of the set's
state and writes no member, so the policy object it is applied to is the state after the
call. -/
theorem getVictim_lowest_lru (r : LRURepl) (set_num : Nat) (st : List Nat)
    (hset : set_num < r.m_num_sets) (hst : r.replStateArr[set_num]? = some st) :
    ((∃ (i p : Nat), st[i]? = some p ∧ p + 1 = r.m_associativity) →
      ∃ v p, r.getVictim set_num = .ok v ∧ st[v]? = some p ∧ p + 1 = r.m_associativity ∧
        ∀ (j q : Nat), j < v → st[j]? = some q → q + 1 ≠ r.m_associativity) ∧
    (0 < r.m_associativity → st.Perm (List.range r.m_associativity) →
      ∃ v p, r.getVictim set_num = .ok v ∧ v < r.m_associativity ∧ st[v]? = some p ∧
        p + 1 = r.m_associativity ∧
        ∀ (j q : Nat), j < v → st[j]? = some q → q + 1 ≠ r.m_associativity) := by
  have key : (∃ i : Nat, st[i]? = some (r.m_associativity - 1)) → 0 < r.m_associativity →
      ∃ v p, r.getVictim set_num = .ok v ∧ st[v]? = some p ∧ p + 1 = r.m_associativity ∧
        ∀ (j q : Nat), j < v → st[j]? = some q → q + 1 ≠ r.m_associativity := by
    intro hex hpos
    obtain ⟨v, hv, hat, hlow⟩ := getVictim_of_exists r set_num st hset hst hex
    refine ⟨v, _, hv, hat, by omega, ?_⟩
    intro j q hj hq hq1
    apply hlow j hj
    rw [hq]
    congr 1
    omega
  constructor
  · rintro ⟨i, p, hi, hp⟩
    exact key ⟨i, by rw [hi]; congr 1; omega⟩ (by omega)
  · intro hpos hperm
    obtain ⟨v, p, hv, hat, hp, hlow⟩ := key (perm_range_has_top hpos hperm) hpos
    refine ⟨v, p, hv, ?_, hat, hp, hlow⟩
    have := (List.getElem?_eq_some.mp hat).1
    rw [hperm.length_eq, List.length_range] at this
    exact this

/-- The victim of the first set of `lruExample`, whose stack is `[2, 3, 0, 1]`, is way 1: an
instance of `getVictim_lowest_lru`. -/
theorem getVictim_lowest_lru_witness :
    ∃ v p, lruExample.getVictim 0 = .ok v ∧ v < 4 ∧ ([2, 3, 0, 1] : List Nat)[v]? = some p ∧
      p + 1 = 4 := by
  obtain ⟨v, p, h1, h2, h3, h4, -⟩ :=
    (getVictim_lowest_lru lruExample 0 [2, 3, 0, 1] (by decide) rfl).2 (by decide) (by decide)
  exact ⟨v, p, h1, h2, h3, h4⟩

theorem updateReplState_eq (r : LRURepl) (set_num way : Nat) (st : List Nat) (pivot : Nat)
    (hset : set_num < r.m_num_sets) (hway : way < r.m_associativity)
    (hst : r.replStateArr[set_num]? = some st) (hp : st[way]? = some pivot) :
    ∃ r', r.updateReplState set_num way = .ok r' ∧
      r'.replStateArr = r.replStateArr.set set_num
        ((st.map (fun p => if p < pivot then p + 1 else p)).set way 0) ∧
      r'.m_num_sets = r.m_num_sets ∧ r'.m_associativity = r.m_associativity := by
  simp only [LRURepl.updateReplState, hset, hway, if_true, hst, hp]
  exact ⟨_, rfl, rfl, rfl, rfl⟩

/-- C12: for `set_num < num_sets` and `way < associativity`, in a policy whose set has one
position per way, `updateReplState(set_num, way)` returns; the accessed way is at position 0,
every other way whose position was strictly less than the accessed way's old position has it
increased by 1, every other way keeps its position, and the other sets, the number of sets
and the associativity are unchanged. -/
theorem updateReplState_spec (r : LRURepl) (set_num way : Nat) (st : List Nat)
    (hset : set_num < r.m_num_sets) (hway : way < r.m_associativity)
    (hst : r.replStateArr[set_num]? = some st) (hlen : st.length = r.m_associativity) :
    ∃ r' pivot st', st[way]? = some pivot ∧ r.updateReplState set_num way = .ok r' ∧
      r'.replStateArr[set_num]? = some st' ∧ st'.length = st.length ∧
      st'[way]? = some 0 ∧
      (∀ (i p : Nat), i ≠ way → st[i]? = some p →
        st'[i]? = some (if p < pivot then p + 1 else p)) ∧
      (∀ t : Nat, t ≠ set_num → r'.replStateArr[t]? = r.replStateArr[t]?) ∧
      r'.replStateArr.length = r.replStateArr.length ∧
      r'.m_num_sets = r.m_num_sets ∧ r'.m_associativity = r.m_associativity := by
  have hwl : way < st.length := hlen ▸ hway
  have hsl : set_num < r.replStateArr.length := (List.getElem?_eq_some.mp hst).1
  obtain ⟨r', hr', harr, hns, has⟩ :=
    updateReplState_eq r set_num way st _ hset hway hst (List.getElem?_eq_getElem hwl)
  refine ⟨r', st[way], (st.map (fun p => if p < st[way] then p + 1 else p)).set way 0,
    List.getElem?_eq_getElem hwl, hr', ?_, ?_, ?_, ?_, ?_, ?_, hns, has⟩
  · rw [harr]
    simp only [List.getElem?_set, if_true, hsl]
  · simp
  · simp only [List.getElem?_set, if_true, List.length_map, hwl]
  · intro i p hi hpi
    have : ¬ way = i := fun e => hi e.symm
    simp only [List.getElem?_set, this, if_false, List.getElem?_map, hpi, Option.map_some']
  · intro t ht
    have : ¬ set_num = t := fun e => ht e.symm
    rw [harr]
    simp only [List.getElem?_set, this, if_false]
  · rw [harr]
    simp

/-- An access to way 1 of the first set of `lruExample`. -/
theorem updateReplState_spec_witness :
    ∃ r' st', lruExample.updateReplState 0 1 = .ok r' ∧
      r'.replStateArr[0]? = some st' ∧ st'[1]? = some 0 ∧
      st'[0]? = some 3 ∧ st'[2]? = some 1 ∧ st'[3]? = some 2 ∧
      r'.replStateArr[1]? = some [0, 1, 2, 3] := by
  obtain ⟨r', pivot, st', hp, hr, hs, -, h0, hi, ht, -, -, -⟩ :=
    updateReplState_spec lruExample 0 1 [2, 3, 0, 1] (by decide) (by decide) rfl rfl
  have e : pivot = 3 := by
    have : ([2, 3, 0, 1] : List Nat)[1]? = some 3 := rfl
    rw [this] at hp
    exact (Option.some.inj hp).symm
  subst e
  exact ⟨r', st', hr, hs, h0, hi 0 2 (by decide) rfl, hi 2 0 (by decide) rfl,
    hi 3 1 (by decide) rfl, (ht 1 (by decide)).trans rfl⟩

/-- The renumbering an access to the way at position `pivot` applies to the positions. -/
theorem bump_injective (pivot : Nat) :
    Function.Injective (fun p : Nat => if p = pivot then 0 else if p < pivot then p + 1 else p) := by
  intro a b h
  simp only at h
  split at h <;> split at h <;> (try split at h) <;> (try split at h) <;> omega

theorem map_bump_perm {n pivot : Nat} (hp : pivot < n) :
    ((List.range n).map
      (fun p : Nat => if p = pivot then 0 else if p < pivot then p + 1 else p)).Perm
      (List.range n) := by
  apply List.Subperm.perm_of_length_le
  · apply List.subperm_of_subset
    · exact List.Nodup.map (bump_injective pivot) (List.nodup_range n)
    · intro x hx
      obtain ⟨p, hpn, rfl⟩ := List.mem_map.mp hx
      have := List.mem_range.mp hpn
      apply List.mem_range.mpr
      split
      · omega
      · split <;> omega
  · simp

theorem set_map_eq_map_bump {st : List Nat} (hnd : st.Nodup) {way pivot : Nat}
    (hp : st[way]? = some pivot) :
    (st.map (fun p => if p < pivot then p + 1 else p)).set way 0 =
      st.map (fun p : Nat => if p = pivot then 0 else if p < pivot then p + 1 else p) := by
  have hwl : way < st.length := (List.getElem?_eq_some.mp hp).1
  apply List.ext_getElem?
  intro i
  simp only [List.getElem?_set, List.length_map, hwl, if_true, List.getElem?_map]
  by_cases hi : way = i
  · subst hi
    simp [hp]
  · simp only [hi, if_false]
    cases hx : st[i]? with
    | none => rfl
    | some x =>
      have hne : x ≠ pivot := by
        intro e
        subst e
        have hil : i < st.length := (List.getElem?_eq_some.mp hx).1
        have e1 : st[i] = st[way] := by
          have a := (List.getElem?_eq_some.mp hx).2
          have b := (List.getElem?_eq_some.mp hp).2
          rw [a, b]
        exact hi ((hnd.getElem_inj_iff).mp e1).symm
      simp [hne]

/-- C13: when the stack positions of the set are a permutation of `[0, associativity)`,
`updateReplState(set_num, way)` returns for every `way < associativity` and the positions of
the set are again a permutation of `[0, associativity)`. -/
theorem updateReplState_perm (r : LRURepl) (set_num way : Nat) (st : List Nat)
    (hset : set_num < r.m_num_sets) (hway : way < r.m_associativity)
    (hst : r.replStateArr[set_num]? = some st)
    (hperm : st.Perm (List.range r.m_associativity)) :
    ∃ r' st', r.updateReplState set_num way = .ok r' ∧
      r'.replStateArr[set_num]? = some st' ∧ st'.Perm (List.range r.m_associativity) := by
  have hlen : st.length = r.m_associativity := by
    rw [hperm.length_eq, List.length_range]
  have hwl : way < st.length := hlen ▸ hway
  have hsl : set_num < r.replStateArr.length := (List.getElem?_eq_some.mp hst).1
  have hnd : st.Nodup := hperm.nodup_iff.mpr (List.nodup_range _)
  have hp : st[way]? = some st[way] := List.getElem?_eq_getElem hwl
  have hpn : st[way] < r.m_associativity :=
    List.mem_range.mp (hperm.mem_iff.mp (List.getElem_mem hwl))
  obtain ⟨r', hr', harr, -, -⟩ := updateReplState_eq r set_num way st _ hset hway hst hp
  refine ⟨r', (st.map (fun p => if p < st[way] then p + 1 else p)).set way 0, hr', ?_, ?_⟩
  · rw [harr]
    simp only [List.getElem?_set, if_true, hsl]
  · rw [set_map_eq_map_bump hnd hp]
    exact (hperm.map _).trans (map_bump_perm hpn)

/-- The first set of `lruExample` stays a permutation after an access to way 1. -/
theorem updateReplState_perm_witness :
    ∃ r' st', lruExample.updateReplState 0 1 = .ok r' ∧
      r'.replStateArr[0]? = some st' ∧ st'.Perm (List.range 4) :=
  updateReplState_perm lruExample 0 1 [2, 3, 0, 1] (by decide) (by decide) rfl (by decide)

/-! ## Scenarios of the event engine and of the coherence handling -/

/-- C17: in a single cache with two sets, `DATA_READ 0x0` and then `DATA_READ 0x40` both miss
with MSHR room at clock 0; the second call returns REQUEST_MISS, yet the wait list still
holds the first request only, because `std::map::insert` keeps the entry that already has
the key 100.  After 200 calls to `tick` the line of `0x40` is still locked and its MSHR
entry is still open. -/
theorem second_miss_not_queued :
    EmptyCaches (flatLevel 1 1 100) ∧
    (∃ w, Reachable quietEnv Op.isLookupReleaseTick (flatLevel 1 1 100) w ∧
      w.waitList 0 = [(100, requestOf 0 0 .DATA_READ 0 false)] ∧
      (lookupAndFillCache quietEnv 4 0 0x40 .DATA_READ 7 false 0 w).map
          (fun r => (r.1, r.2.snapshot)) =
        .ok (.REQUEST_MISS,
          { lines := [[[(true, true, 0)], [(true, true, 0)]]],
            mshr := [[(0, .DATA_READ), (0x40, .DATA_READ)]],
            wait := [(100, requestOf 0 0 .DATA_READ 0 false)], rob := [] })) ∧
    (runOps quietEnv 4 ([.lookupAndFillCache 0 0 .DATA_READ 0 false 0,
        .lookupAndFillCache 0 0x40 .DATA_READ 7 false 0] ++ List.replicate 200 (.tick 0))
        (flatLevel 1 1 100)).map World.snapshot =
      .ok { lines := [[[(true, false, 0)], [(true, true, 0)]]],
            mshr := [[(0x40, .DATA_READ)]], wait := [], rob := [(0, .DATA_READ)] } := by
  refine ⟨by decide!, ?_, by decide!⟩
  exact exists_reachable quietEnv _ 4 [.lookupAndFillCache 0 0 .DATA_READ 0 false 0] _ _
    (by decide!) (by decide!)

/-- C19: in a two-level hierarchy with empty caches, `DATA_WRITEBACK 0x0` misses in L1 with
MSHR room, L1 is not the last level, and the miss is forwarded all the same: on return L2
holds the line and an MSHR entry of kind `DATA_WRITEBACK`, and the writeback request, with
its callback bound to L2, is in the wait list. -/
theorem writeback_miss_is_forwarded :
    EmptyCaches (twoLevel 0 1 false 1 0 1 false 1 1) ∧
    (twoLevel 0 1 false 1 0 1 false 1 1).atLastLevel 0 0 = some false ∧
    (lookupAndFillCache quietEnv 4 0 0 .DATA_WRITEBACK 0 false 0
        (twoLevel 0 1 false 1 0 1 false 1 1)).map (fun r => (r.1, r.2.snapshot)) =
      .ok (.REQUEST_MISS,
        { lines := [[[(true, true, 0)]], [[(true, true, 0)]]],
          mshr := [[(0, .DATA_WRITEBACK)], [(0, .DATA_WRITEBACK)]],
          wait := [(2, requestOf 1 0 .DATA_WRITEBACK 0 false)], rob := [] }) := by
  refine ⟨by decide!, by decide!, by decide!⟩

/-- The peer branch of `handle_coherence_action` searches the set for a valid line with the
tag of the address whose `is_translation` is `tid != 0` and whose `tid` is the flag of the
action; when there is none the call returns the world as it is, whatever the
collaborators. -/
theorem peer_broadcast_search_key (env : Env) (fuel c : Nat) (a : CoherenceAction)
    (addr tid : Nat) (lg : Bool) (lat : Nat) (tr : Bool) (w : World) (self : Cache)
    (set : List CacheLine) (hself : getCache w c = .ok self)
    (hset : self.getSet (self.get_index addr) = .ok set) (hb : a.is_broadcast = true)
    (hnf : (is_found set (self.get_tag addr) (tid != 0)
      (if (a == CoherenceAction.BROADCAST_TRANSLATION_WRITE) ||
          (a == CoherenceAction.BROADCAST_TRANSLATION_READ) then 1 else 0)).1 = false) :
    handle_coherence_action env (fuel + 1) c a addr tid lg lat tr false w = .ok w := by
  have hm : a.is_memory_writeback = false := by
    cases a <;> first | rfl | exact absurd hb (by decide)
  rw [handle_coherence_action]
  simp only [hself, ok_bind, hm, hb, if_true, Bool.false_eq_true, if_false, pure_eq_ok,
    Bool.not_false]
  unfold peerBroadcast
  simp only [hset, ok_bind, hnf, Bool.false_eq_true, if_false, pure_eq_ok]

/-- C20: a data line of thread 1 is valid in the cache (after `DATA_READ 0x0` of thread 1
has completed); `handle_coherence_action(BROADCAST_DATA_WRITE, 0x0, tid 1, ...,
same_cache_sys = false)` leaves the world as it is, the line still valid, because
`is_found` is searched with `tid` in the place of `is_translation`.  For a line of thread 0
the same call clears `valid`. -/
theorem peer_write_leaves_line_valid :
    EmptyCaches (oneLevel 1) ∧
    (∃ w, Reachable dirEnv Op.isLookupReleaseTick (oneLevel 1) w ∧
      w.line? 0 0 0 = some { emptyLine with valid := true, tid := 1 } ∧
      handle_coherence_action dirEnv 4 0 .BROADCAST_DATA_WRITE 0 1 false 0 false false w =
        .ok w) ∧
    (∃ w, Reachable dirEnv Op.isLookupReleaseTick (oneLevel 1) w ∧
      w.line? 0 0 0 = some { emptyLine with valid := true } ∧
      (handle_coherence_action dirEnv 4 0 .BROADCAST_DATA_WRITE 0 0 false 0 false false w).map
          (fun w' => w'.line? 0 0 0) = .ok (some emptyLine)) := by
  refine ⟨by decide!, ?_, ?_⟩
  · exact exists_reachable dirEnv _ 4
      [.lookupAndFillCache 0 0 .DATA_READ 1 false 0, .tick 0] _ _ (by decide!) (by decide!)
  · exact exists_reachable dirEnv _ 4
      [.lookupAndFillCache 0 0 .DATA_READ 0 false 0, .tick 0] _ _ (by decide!) (by decide!)

/-- C16: in a translation hierarchy of two TLBs both are at the last level (level 1 of
`2 / 2`), yet `tick` applies a queued `BROADCAST_TRANSLATION_WRITE` to TLB 0, whose line it
invalidates; in a translation hierarchy of one TLB the TLB is not at the last level (level 1
of `1 / 2 = 0`), yet `tick` does not apply the action to it and the line stays valid. -/
theorem tick_coherence_targets_by_index :
    (∃ w, Reachable dirEnv Op.isLookupReleaseTick (tlbHier 2 100) w ∧
      w.atLastLevel 0 0 = some true ∧ w.atLastLevel 0 1 = some true ∧
      (w.line? 0 0 0).map (fun l => (l.valid, l.is_translation, l.tid)) =
        some (true, true, 1) ∧
      (tick dirEnv 4 0 (w.withQueued 0 (peerWrite, .BROADCAST_TRANSLATION_WRITE))).map
          (fun w' => (w'.line? 0 0 0).map (fun l => l.valid)) = .ok (some false)) ∧
    (∃ w, Reachable dirEnv Op.isLookupReleaseTick (tlbHier 1 100) w ∧
      w.atLastLevel 0 0 = some false ∧
      (w.line? 0 0 0).map (fun l => (l.valid, l.is_translation, l.tid)) =
        some (true, true, 1) ∧
      (tick dirEnv 4 0 (w.withQueued 0 (peerWrite, .BROADCAST_TRANSLATION_WRITE))).map
          (fun w' => (w'.line? 0 0 0).map (fun l => l.valid)) = .ok (some true)) := by
  constructor
  · exact exists_reachable dirEnv _ 4
      [.lookupAndFillCache 0 0 .TRANSLATION_READ 1 false 0] _ _ (by decide!) (by decide!)
  · exact exists_reachable dirEnv _ 4
      [.lookupAndFillCache 0 0 .TRANSLATION_READ 1 false 0] _ _ (by decide!) (by decide!)

/-! ## Writebacks and the replacement state -/

theorem replKept_refl (rk : Nat → Nat) (m : Nat) (w : World) : ReplKept rk m w w :=
  ⟨rfl, fun _ cy h => ⟨cy, h, rfl, fun _ => rfl⟩⟩

theorem replKept_trans {rk : Nat → Nat} {m : Nat} {w1 w2 w3 : World}
    (h12 : ReplKept rk m w1 w2) (h23 : ReplKept rk m w2 w3) : ReplKept rk m w1 w3 := by
  refine ⟨h23.1.trans h12.1, fun y cy hy => ?_⟩
  obtain ⟨c2, hc2, e2, r2⟩ := h12.2 y cy hy
  obtain ⟨c3, hc3, e3, r3⟩ := h23.2 y c2 hc2
  exact ⟨c3, hc3, e3.trans e2, fun hm => (r3 hm).trans (r2 hm)⟩

/-- A change of the tag store or the MSHR table of one cache keeps every replacement
state. -/
theorem replKept_updCache (rk : Nat → Nat) (m : Nat) (w : World) (c : Nat) (g : Cache → Cache)
    (hg : ∀ x, (g x).wiring = x.wiring ∧ (g x).m_repl = x.m_repl) :
    ReplKept rk m w (updCache w c g) := by
  refine ⟨updCache_length _ _ _, fun y cy hy => ?_⟩
  simp only [updCache_getElem?, hy, Option.map_eq_map, Option.map_some', Option.some.injEq,
    exists_eq_left']
  split
  · exact ⟨(hg cy).1, fun _ => (hg cy).2⟩
  · exact ⟨rfl, fun _ => rfl⟩

theorem replKept_updLine (rk : Nat → Nat) (m : Nat) (w : World) (c i p : Nat)
    (f : CacheLine → CacheLine) : ReplKept rk m w (updLine w c i p f) :=
  replKept_updCache rk m w c _ (fun _ => ⟨rfl, rfl⟩)

theorem replKept_of_caches (rk : Nat → Nat) (m : Nat) {w w' : World}
    (h : w'.caches = w.caches) : ReplKept rk m w w' := by
  refine ⟨by rw [h], fun y cy hy => ⟨cy, by rw [h]; exact hy, rfl, fun _ => rfl⟩⟩

theorem replKept_fillLine (rk : Nat → Nat) (m : Nat) (w : World) (self : Cache) (c addr : Nat)
    (k : kind) (tid : Nat) (lg : Bool) (pos : Nat) :
    ReplKept rk m w (fillLine self c addr k tid lg pos w) :=
  replKept_trans (replKept_updLine rk m w c _ pos _)
    (replKept_updCache rk m _ c _ (fun _ => ⟨rfl, rfl⟩))

theorem replKept_of_cleared (rk : Nat → Nat) (m : Nat) {w w' : World} (h : Cleared w w') :
    ReplKept rk m w w' := by
  obtain ⟨-, -, hlen, hc⟩ := h
  refine ⟨hlen, fun y cy hy => ?_⟩
  obtain ⟨cy', hy', e, -, -⟩ := hc y cy hy
  refine ⟨cy', hy', ?_, fun _ => ?_⟩
  · rw [e]; rfl
  · rw [e]

/-- An update of the replacement state of cache `c` keeps the replacement state of every
other cache. -/
theorem replKept_updateRepl {rk : Nat → Nat} {m : Nat} {w w' : World} {c i p : Nat}
    (hc : m < rk c) (h : updateRepl w c i p = .ok w') : ReplKept rk m w w' := by
  obtain ⟨self, r, -, -, hw⟩ := updateRepl_ok h
  rw [hw]
  refine ⟨updCache_length _ _ _, fun y cy hy => ?_⟩
  simp only [updCache_getElem?, hy, Option.map_eq_map, Option.map_some', Option.some.injEq,
    exists_eq_left']
  split
  · rename_i e
    subst e
    exact ⟨rfl, fun hm => absurd hm (by omega)⟩
  · exact ⟨rfl, fun _ => rfl⟩

theorem find_lower_congr (env : Env) {w w' : World} {cx cx' : Cache}
    (hw : cx'.wiring = cx.wiring) (hl : w'.caches.length = w.caches.length) (addr : Nat)
    (tr lg : Bool) :
    find_lower_cache_in_core env w' cx' addr tr lg =
      find_lower_cache_in_core env w cx addr tr lg := by
  have e1 : cx'.wiring.m_lower_cache = cx.wiring.m_lower_cache := by rw [hw]
  have e2 : cx'.wiring.m_core = cx.wiring.m_core := by rw [hw]
  have e3 : cx'.wiring.m_cache_level = cx.wiring.m_cache_level := by rw [hw]
  have e4 : cx'.wiring.m_cache_type = cx.wiring.m_cache_type := by rw [hw]
  have f1 : cx'.m_lower_cache = cx.m_lower_cache := e1
  have f2 : cx'.m_core = cx.m_core := e2
  have f3 : cx'.m_cache_level = cx.m_cache_level := e3
  have f4 : cx'.m_cache_type = cx.m_cache_type := e4
  simp only [find_lower_cache_in_core, resolve, f1, f2, f3, f4, hl]

theorem descending_of_kept {env : Env} {rk : Nat → Nat} {m : Nat} {w w' : World}
    (h : ReplKept rk m w w') (hd : Descending env rk w) : Descending env rk w' := by
  intro x cx' addr tr lg l hx hf
  have hlt : x < w.caches.length := h.1 ▸ (List.getElem?_eq_some.mp hx).1
  obtain ⟨cy', hy', e, -⟩ := h.2 x _ (List.getElem?_eq_getElem hlt)
  rw [hx] at hy'
  cases Option.some.inj hy'
  rw [find_lower_congr env e h.1] at hf
  exact hd x _ addr tr lg l (List.getElem?_eq_getElem hlt) hf

section Kept

variable {env : Env} {rk : Nat → Nat} {m : Nat}

theorem replStep_kept {b : Bool} {w w' : World} {c i p : Nat} (hb : b = true → m < rk c)
    (h : (if b = true then updateRepl w c i p else pure w) = Except.ok w') :
    ReplKept rk m w w' := by
  split at h
  · rename_i hbt
    exact replKept_updateRepl (hb hbt) h
  · simp only [pure_eq_ok, Except.ok.injEq] at h
    exact h ▸ replKept_refl rk m w

theorem cohDispatch_kept {hca : CohHandler} {c : Nat} (hh : HcaKept env rk m hca c)
    {loc : Nat × Nat} {s : CoherenceState} {subject : CacheLine}
    {cur_addr addr tid : Nat} {lg tr : Bool} {lat : Nat} {k : kind} {w w' : World}
    (hd : Descending env rk w)
    (h : cohDispatch env hca c loc s subject cur_addr addr tid lg tr lat k w = .ok w') :
    ReplKept rk m w w' := by
  unfold cohDispatch at h
  have k1 : ReplKept rk m w (updLine w c loc.1 loc.2
      (fun l => { l with m_coherence_prot := (env.setNextCoherenceState s k).1 })) :=
    replKept_updLine rk m w c _ _ _
  exact replKept_trans k1 (hh _ _ _ _ _ _ _ _ _ (descending_of_kept k1 hd) h)

theorem hitPath_kept {hca : CohHandler} {self : Cache} {c addr : Nat} {k : kind}
    (hrepl : k.is_writeback = false → m < rk c) (hh : HcaKept env rk m hca c)
    {tid : Nat} {lg : Bool} {lat : Nat} {set : List CacheLine} {pos : Nat} {w : World}
    {r : RequestStatus × World} (hd : Descending env rk w)
    (h : hitPath env hca self c addr k tid lg lat set pos w = .ok r) :
    ReplKept rk m w r.2 := by
  unfold hitPath at h
  obtain ⟨line, -, h⟩ := bind_ok h
  split at h
  · exact Except.noConfusion h
  · obtain ⟨w2, h2, h⟩ := bind_ok h
    obtain ⟨sys, -, h⟩ := bind_ok h
    obtain ⟨w4, h4, h⟩ := bind_ok h
    simp only [pure_eq_ok, Except.ok.injEq] at h
    rw [← h]
    have k1 : ReplKept rk m w (updLine w c (self.get_index addr) pos
        (fun l => { l with dirty := l.dirty || k.is_write_txn })) :=
      replKept_updLine rk m w c _ _ _
    have k2 := replKept_trans k1
      (replStep_kept (fun hb => hrepl (by simpa using hb)) h2)
    refine replKept_trans (replKept_trans k2 ?_) (cohDispatch_kept hh ?_ h4)
    · exact replKept_of_caches rk m rfl
    · exact descending_of_kept (replKept_trans k2 (replKept_of_caches rk m rfl)) hd

theorem mshrPath_kept {hca : CohHandler} {self : Cache} {c addr : Nat} {k : kind}
    (hrepl : k.is_writeback = false → m < rk c) (hh : HcaKept env rk m hca c)
    {tid : Nat} {lg : Bool} {lat pos : Nat} {line : CacheLine} {entry : MSHREntry}
    {w : World} {r : RequestStatus × World} (hd : Descending env rk w)
    (h : mshrPath env hca self c addr k tid lg lat pos line entry w = .ok r) :
    ReplKept rk m w r.2 := by
  unfold mshrPath at h
  obtain ⟨mline, -, h⟩ := bind_ok h
  obtain ⟨w2, h2, h⟩ := bind_ok h
  obtain ⟨w3, h3, h⟩ := bind_ok h
  have k1 : ReplKept rk m w (if (k.is_write_txn && ((self.get_tag addr == mline.tag) &&
      (k.is_translation_txn == mline.is_translation))) = true then
        updLine w c entry.m_line.1 entry.m_line.2 (fun l => { l with dirty := true })
      else w) := by
    split
    · exact replKept_updLine rk m w c _ _ _
    · exact replKept_refl rk m w
  have k2 : ReplKept rk m w w2 := by
    split at h2
    · exact replKept_trans k1 (cohDispatch_kept hh (descending_of_kept k1 hd) h2)
    · simp only [pure_eq_ok, Except.ok.injEq] at h2
      exact h2 ▸ k1
  have k3 : ReplKept rk m w w3 :=
    replKept_trans k2 (replStep_kept (fun hb => hrepl (by simpa using hb)) h3)
  split at h
  · obtain ⟨s3, -, h⟩ := bind_ok h
    obtain ⟨m3, -, h⟩ := bind_ok h
    split at h
    · simp only [pure_eq_ok, Except.ok.injEq] at h
      rw [← h]; exact k3
    · exact Except.noConfusion h
  · simp only [pure_eq_ok, Except.ok.injEq] at h
    rw [← h]; exact k3

theorem forwardMiss_kept {laf : Lookup} (hl : LafKept env rk m laf) {self : Cache}
    {c addr : Nat} {k : kind} {tid : Nat} {lg : Bool} {lat : Nat} {w w' : World}
    (hlow : ∀ a tr g l, find_lower_cache_in_core env w self a tr g = some l → m < rk l)
    (hd : Descending env rk w)
    (h : forwardMiss env laf self c addr k tid lg lat w = .ok w') :
    ReplKept rk m w w' := by
  unfold forwardMiss at h
  obtain ⟨sys, -, h⟩ := bind_ok h
  have hw : ∀ (due : Nat) (r : Request), ReplKept rk m w (updSys w self.m_cache_sys
      (fun s => { s with m_wait_list := mapInsert s.m_wait_list due r })) :=
    fun _ _ => replKept_of_caches rk m rfl
  cases hf : find_lower_cache_in_core env w self addr k.is_translation_txn lg with
  | none =>
    simp only [hf] at h
    split at h
    · simp only [pure_eq_ok, Except.ok.injEq] at h
      exact h ▸ replKept_refl rk m w
    · split at h
      · simp only [pure_eq_ok, Except.ok.injEq] at h
        rw [← h]; exact hw _ _
      · simp only [pure_eq_ok, Except.ok.injEq] at h
        exact h ▸ replKept_refl rk m w
  | some l =>
    have hml := hlow _ _ _ _ hf
    simp only [hf] at h
    split at h
    · obtain ⟨lower, -, h⟩ := bind_ok h
      obtain ⟨res, hres, h⟩ := bind_ok h
      simp only [pure_eq_ok, Except.ok.injEq] at h
      rw [← h]; exact hl _ _ _ _ _ _ _ _ hml hd hres
    · split at h
      · simp only [pure_eq_ok, Except.ok.injEq] at h
        rw [← h]; exact hw _ _
      · obtain ⟨res, hres, h⟩ := bind_ok h
        simp only [pure_eq_ok, Except.ok.injEq] at h
        rw [← h]; exact hl _ _ _ _ _ _ _ _ hml hd hres

theorem missPath_kept {ev : Evictor} {laf : Lookup} {hca : CohHandler} {self : Cache}
    {c addr : Nat} {k : kind} (hrepl : k.is_writeback = false → m < rk c)
    (he : EvKept env rk m ev c) (hl : LafKept env rk m laf) (hh : HcaKept env rk m hca c)
    {tid : Nat} {lg : Bool} {lat pos : Nat} {ne : Bool} {old_tag : Nat} {w : World}
    {r : RequestStatus × World}
    (hlow : ∀ a tr g l, find_lower_cache_in_core env w self a tr g = some l → m < rk l)
    (hd : Descending env rk w)
    (h : missPath env ev laf hca self c addr k tid lg lat pos ne old_tag w = .ok r) :
    ReplKept rk m w r.2 := by
  unfold missPath at h
  obtain ⟨w3, h3, h⟩ := bind_ok h
  obtain ⟨w4, h4, h⟩ := bind_ok h
  obtain ⟨w5, h5, h⟩ := bind_ok h
  obtain ⟨s5, -, h⟩ := bind_ok h
  obtain ⟨l5, -, h⟩ := bind_ok h
  obtain ⟨w7, h7, h⟩ := bind_ok h
  simp only [pure_eq_ok, Except.ok.injEq] at h
  rw [← h]
  have k2 : ReplKept rk m w (fillLine self c addr k tid lg pos w) :=
    replKept_fillLine rk m w self c addr k tid lg pos
  have k3 : ReplKept rk m w w3 := by
    split at h3
    · exact replKept_trans k2 (he _ _ _ _ (descending_of_kept k2 hd) h3)
    · simp only [pure_eq_ok, Except.ok.injEq] at h3
      exact h3 ▸ k2
  have k4 : ReplKept rk m w w4 :=
    replKept_trans k3 (replStep_kept (fun hb => hrepl (by simpa using hb)) h4)
  have hlow4 : ∀ a tr g l, find_lower_cache_in_core env w4 self a tr g = some l → m < rk l := by
    intro a tr g l hf
    rw [find_lower_congr env rfl k4.1] at hf
    exact hlow a tr g l hf
  have k5 : ReplKept rk m w w5 :=
    replKept_trans k4 (forwardMiss_kept hl hlow4 (descending_of_kept k4 hd) h5)
  exact replKept_trans k5 (cohDispatch_kept hh (descending_of_kept k5 hd) h7)

end Kept

theorem forHigher_inval_kept (rk : Nat → Nat) (m fuel addr tid : Nat) (tr : Bool)
    (hs : List Nat) (w w' : World)
    (h : forHigher (fun h wacc => invalidate fuel h addr tid tr wacc) hs w = .ok w') :
    ReplKept rk m w w' :=
  replKept_of_cleared rk m
    (forHigher_cleared _ (fun a wa wb hh => invalidate_cleared addr tid tr fuel a wa wb hh)
      hs w w' h)

/-- On a hierarchy without a cycle on the way down, `evict` and `handle_coherence_action` on
a cache of rank at least `m`, and `lookupAndFillCache` on a cache of rank above `m` or, for a
writeback, of rank `m`, keep the replacement state of every cache of rank at most `m`. -/
theorem cache_ops_kept (env : Env) (rk : Nat → Nat) (m : Nat) :
    ∀ fuel : Nat,
      (∀ x, m ≤ rk x → EvKept env rk m (evict env fuel) x) ∧
      (∀ x addr k tid lg lat w r, (m < rk x ∨ (m ≤ rk x ∧ k.is_writeback = true)) →
        Descending env rk w → lookupAndFillCache env fuel x addr k tid lg lat w = .ok r →
        ReplKept rk m w r.2) ∧
      (∀ x, m ≤ rk x → HcaKept env rk m (handle_coherence_action env fuel) x) := by
  intro fuel
  induction fuel with
  | zero =>
    refine ⟨?_, ?_, ?_⟩
    · intro x _ i p w w' _ h; simp [evict] at h
    · intro x addr k tid lg lat w r _ _ h; simp [lookupAndFillCache] at h
    · intro x _ a addr tid lg lat tr same w w' _ h; simp [handle_coherence_action] at h
  | succ fuel ih =>
    obtain ⟨ihe, ihl, ihh⟩ := ih
    have ihl' : LafKept env rk m (lookupAndFillCache env fuel) :=
      fun l addr k tid lg lat w r hml hd h => ihl l addr k tid lg lat w r (Or.inl hml) hd h
    refine ⟨?_, ?_, ?_⟩
    · -- evict
      intro x hx i p w w' hd h
      rw [evict] at h
      obtain ⟨self, hself, h⟩ := bind_ok h
      obtain ⟨line, -, h⟩ := bind_ok h
      obtain ⟨w1, h1, h⟩ := bind_ok h
      have k1 : ReplKept rk m w w1 := by
        split at h1
        · exact forHigher_inval_kept rk m _ _ _ _ _ _ _ h1
        · simp only [pure_eq_ok, Except.ok.injEq] at h1
          exact h1 ▸ replKept_refl rk m w
      cases hlow : find_lower_cache_in_core env w1 self
          (self.line_addr line.tag i) line.is_translation line.is_large with
      | none =>
        simp only [hlow] at h
        split at h
        · simp only [pure_eq_ok, Except.ok.injEq] at h
          exact h ▸ k1
        · simp only [pure_eq_ok, Except.ok.injEq] at h
          exact h ▸ k1
      | some l =>
        have hml : m < rk l := by
          have hf := hlow
          rw [find_lower_congr env rfl k1.1] at hf
          have := hd x self _ _ _ l (getCache_eq_ok.mp hself) hf
          omega
        simp only [hlow] at h
        split at h
        · obtain ⟨res, hres, h⟩ := bind_ok h
          have k2 : ReplKept rk m w res.2 :=
            replKept_trans k1 (ihl' _ _ _ _ _ _ _ _ hml (descending_of_kept k1 hd) hres)
          have k3 : ReplKept rk m w (updLine res.2 x i p
              (fun l => { l with m_coherence_prot := CoherenceState.INVALID })) :=
            replKept_trans k2 (replKept_updLine rk m _ x _ _ _)
          split at h
          · split at h
            · simp only [pure_eq_ok, Except.ok.injEq] at h
              exact h ▸ k3
            · exact Except.noConfusion h
          · simp only [pure_eq_ok, Except.ok.injEq] at h
            exact h ▸ k3
        · split at h
          · obtain ⟨lower, -, h⟩ := bind_ok h
            obtain ⟨set, -, h⟩ := bind_ok h
            split at h
            · simp only [pure_eq_ok, Except.ok.injEq] at h
              exact h ▸ k1
            · exact Except.noConfusion h
          · simp only [pure_eq_ok, Except.ok.injEq] at h
            exact h ▸ k1
    · -- lookupAndFillCache
      intro x addr k tid lg lat w r hx hd h
      have hmx : m ≤ rk x := by
        rcases hx with h1 | h1
        · omega
        · exact h1.1
      have hrepl : k.is_writeback = false → m < rk x := by
        intro hk
        rcases hx with h1 | h1
        · exact h1
        · rw [h1.2] at hk
          exact Bool.noConfusion hk
      rw [lookupAndFillCache] at h
      obtain ⟨self, hself, h⟩ := bind_ok h
      obtain ⟨set, hset, h⟩ := bind_ok h
      have hlow : ∀ a tr g l, find_lower_cache_in_core env w self a tr g = some l →
          m < rk l := by
        intro a tr g l hf
        have := hd x self a tr g l (getCache_eq_ok.mp hself) hf
        omega
      by_cases hh : (is_hit set (self.get_tag addr) k.is_translation_txn tid).1 = true
      · simp only [hh, if_true] at h
        exact hitPath_kept hrepl (ihh x hmx) hd h
      · simp only [hh, if_false] at h
        obtain ⟨pos, hpos, h⟩ := bind_ok h
        obtain ⟨line, -, h⟩ := bind_ok h
        cases hm : (if line.valid = true then mapFind self.m_mshr_entries addr else none) with
        | some entry =>
          simp only [hm] at h
          exact mshrPath_kept hrepl (ihh x hmx) hd h
        | none =>
          simp only [hm] at h
          split at h
          · exact missPath_kept hrepl (ihe x hmx) ihl' (ihh x hmx) hlow hd h
          · simp only [pure_eq_ok, Except.ok.injEq] at h
            rw [← h]; exact replKept_refl rk m w
    · -- handle_coherence_action
      intro x hx a addr tid lg lat tr same w w' hd h
      rw [handle_coherence_action] at h
      obtain ⟨self, hself, h⟩ := bind_ok h
      split at h
      · cases hlow : find_lower_cache_in_core env w self addr tr lg with
        | none =>
          simp only [hlow, pure_eq_ok, Except.ok.injEq] at h
          exact h ▸ replKept_refl rk m w
        | some l =>
          have hml : m < rk l := by
            have := hd x self _ _ _ l (getCache_eq_ok.mp hself) hlow
            omega
          simp only [hlow] at h
          obtain ⟨res, hres, h⟩ := bind_ok h
          simp only [pure_eq_ok, Except.ok.injEq] at h
          rw [← h]; exact ihl' _ _ _ _ _ _ _ _ hml hd hres
      · split at h
        · obtain ⟨b, -, h⟩ := bind_ok h
          split at h
          · exact replKept_of_caches rk m (enqueueBroadcast_caches h)
          · split at h
            · rcases peerBroadcast_cases h with e | ⟨i, p, s, e | e⟩
              · exact e ▸ replKept_refl rk m w
              · exact e ▸ replKept_updLine rk m w x _ _ _
              · exact e ▸ replKept_trans (replKept_updLine rk m w x _ _ _)
                  (replKept_updLine rk m _ x _ _ _)
            · simp only [pure_eq_ok, Except.ok.injEq] at h
              exact h ▸ replKept_refl rk m w
        · simp only [pure_eq_ok, Except.ok.injEq] at h
          exact h ▸ replKept_refl rk m w

/-- C14: on a hierarchy without a cycle on the way down, a returning
`lookupAndFillCache` whose kind is `DATA_WRITEBACK` or `TRANSLATION_WRITEBACK` leaves the
replacement state of the cache it is called on (and of every cache of no larger rank) as it
was, whatever status it returns. -/
theorem writeback_keeps_replacement_state (env : Env) (rk : Nat → Nat) (fuel c addr : Nat)
    (k : kind) (tid : Nat) (lg : Bool) (lat : Nat) (w : World) (r : RequestStatus × World)
    (self : Cache) (hk : k.is_writeback = true) (hd : Descending env rk w)
    (hself : w.caches[c]? = some self)
    (h : lookupAndFillCache env fuel c addr k tid lg lat w = .ok r) :
    ∃ self', r.2.caches[c]? = some self' ∧ self'.m_repl = self.m_repl := by
  have key := (cache_ops_kept env rk (rk c) fuel).2.1 c addr k tid lg lat w r
    (Or.inr ⟨Nat.le_refl _, hk⟩) hd h
  obtain ⟨self', hs', -, hr⟩ := key.2 c self hself
  exact ⟨self', hs', hr (Nat.le_refl _)⟩

/-- A world wired as `twoLevel` wires it has no cycle on the way down. -/
theorem descending_twoLevel (w : World)
    (h : w.caches.map Cache.m_lower_cache = [some 1, none]) :
    Descending quietEnv (fun x => x) w := by
  intro x cx addr tr lg l hx hf
  have hlen : w.caches.length = 2 := by
    have := congrArg List.length h
    simpa using this
  have hm : (w.caches.map Cache.m_lower_cache)[x]? = some cx.m_lower_cache := by
    rw [List.getElem?_map, hx]; rfl
  rw [h] at hm
  match x, hm with
  | 0, hm =>
    simp only [List.getElem?_cons_zero, Option.some.injEq] at hm
    simp only [find_lower_cache_in_core, resolve, ← hm, hlen, quietEnv] at hf
    simp at hf
    show 0 < l
    omega
  | 1, hm =>
    simp only [List.getElem?_cons_succ, List.getElem?_cons_zero, Option.some.injEq] at hm
    simp only [find_lower_cache_in_core, resolve, ← hm, quietEnv] at hf
    simp at hf
  | n + 2, hm => simp at hm

/-- After `DATA_WRITE 0x0` has completed in a two-way L1 whose set then has the stack
`[1, 0]`, `DATA_WRITEBACK 0x0` hits and `DATA_WRITEBACK 0x40` misses with MSHR room, and the
stack is `[1, 0]` after each: instances of `writeback_keeps_replacement_state`. -/
theorem writeback_keeps_replacement_state_witness :
    ∃ w, Reachable quietEnv Op.isLookupReleaseTick (twoLevel 0 2 false 1 0 2 false 1 1) w ∧
      (∃ r self', lookupAndFillCache quietEnv 4 0 0 .DATA_WRITEBACK 0 false 0 w = .ok r ∧
        r.1 = .REQUEST_HIT ∧ r.2.caches[0]? = some self' ∧
        self'.m_repl.replStateArr = [[1, 0]]) ∧
      (∃ r self', lookupAndFillCache quietEnv 4 0 0x40 .DATA_WRITEBACK 0 false 0 w = .ok r ∧
        r.1 = .REQUEST_MISS ∧ r.2.caches[0]? = some self' ∧
        self'.m_repl.replStateArr = [[1, 0]]) := by
  obtain ⟨w, hr, hw, hrepl, h1, h2⟩ := exists_reachable quietEnv Op.isLookupReleaseTick 4
    [.lookupAndFillCache 0 0 .DATA_WRITE 0 false 0, .tick 0, .tick 0]
    (twoLevel 0 2 false 1 0 2 false 1 1)
    (fun w => w.caches.map Cache.m_lower_cache = [some 1, none] ∧
      w.caches[0]?.map (fun c => c.m_repl.replStateArr) = some [[1, 0]] ∧
      (lookupAndFillCache quietEnv 4 0 0 .DATA_WRITEBACK 0 false 0 w).map (fun r => r.1) =
        .ok .REQUEST_HIT ∧
      (lookupAndFillCache quietEnv 4 0 0x40 .DATA_WRITEBACK 0 false 0 w).map (fun r => r.1) =
        .ok .REQUEST_MISS)
    (by decide!) (by decide!)
  refine ⟨w, hr, ?_, ?_⟩
  · cases hl : lookupAndFillCache quietEnv 4 0 0 .DATA_WRITEBACK 0 false 0 w with
    | error e => rw [hl] at h1; exact Except.noConfusion h1
    | ok r =>
      rw [hl] at h1
      cases hc : w.caches[0]? with
      | none => rw [hc] at hrepl; exact Option.noConfusion hrepl
      | some self =>
        rw [hc] at hrepl
        obtain ⟨self', hs', e⟩ := writeback_keeps_replacement_state quietEnv (fun x => x) 4 0 0
          .DATA_WRITEBACK 0 false 0 w r self rfl (descending_twoLevel w hw) hc hl
        refine ⟨r, self', rfl, Except.ok.inj h1, hs', ?_⟩
        rw [e]
        exact Option.some.inj hrepl
  · cases hl : lookupAndFillCache quietEnv 4 0 0x40 .DATA_WRITEBACK 0 false 0 w with
    | error e => rw [hl] at h2; exact Except.noConfusion h2
    | ok r =>
      rw [hl] at h2
      cases hc : w.caches[0]? with
      | none => rw [hc] at hrepl; exact Option.noConfusion hrepl
      | some self =>
        rw [hc] at hrepl
        obtain ⟨self', hs', e⟩ := writeback_keeps_replacement_state quietEnv (fun x => x) 4 0
          0x40 .DATA_WRITEBACK 0 false 0 w r self rfl (descending_twoLevel w hw) hc hl
        refine ⟨r, self', rfl, Except.ok.inj h2, hs', ?_⟩
        rw [e]
        exact Option.some.inj hrepl

/-! ## One call of `tick` -/

theorem foldlM_filter {α β : Type} (p : α → Prop) [DecidablePred p]
    (f : β → α → Except Err β) :
    ∀ (l : List α) (b : β),
      l.foldlM (fun acc e => if p e then f acc e else pure acc) b =
        (l.filter (fun e => decide (p e))).foldlM f b := by
  intro l
  induction l with
  | nil => intro b; rfl
  | cons a rest ih =>
    intro b
    by_cases hp : p a
    · simp only [List.foldlM_cons, hp, if_true, List.filter_cons, decide_True]
      cases f b a with
      | error e => rfl
      | ok b1 => exact ih b1
    · simp only [List.foldlM_cons, hp, if_false, List.filter_cons, decide_False, pure_eq_ok,
        ok_bind]
      exact ih b

/-- A coherence action that is not a memory writeback, handled as coming from another
hierarchy, leaves the hierarchies as they are. -/
theorem handle_peer_systems (env : Env) (fuel c : Nat) (a : CoherenceAction)
    (addr tid : Nat) (lg : Bool) (lat : Nat) (tr : Bool) (w w' : World)
    (ha : a.is_memory_writeback = false)
    (h : handle_coherence_action env fuel c a addr tid lg lat tr false w = .ok w') :
    w'.systems = w.systems := by
  cases fuel with
  | zero => simp [handle_coherence_action] at h
  | succ fuel =>
    rw [handle_coherence_action] at h
    obtain ⟨self, -, h⟩ := bind_ok h
    simp only [ha, Bool.false_eq_true, if_false, pure_eq_ok, ok_bind, Bool.not_false,
      if_true] at h
    split at h
    · rcases peerBroadcast_cases h with e | ⟨i, p, s, e | e⟩
      · rw [e]
      · rw [e]; rfl
      · rw [e]; rfl
    · simp only [Except.ok.injEq] at h
      rw [← h]

theorem tickCoherence_systems (env : Env) (fuel : Nat) (sys : CacheSys) (w w1 : World)
    (hb : ∀ e ∈ sys.m_coh_act_list, e.2.is_memory_writeback = false)
    (h : tickCoherence env fuel sys w = .ok w1) : w1.systems = w.systems := by
  unfold tickCoherence at h
  revert h hb
  generalize sys.m_coh_act_list = acts
  intro hb
  induction acts generalizing w with
  | nil =>
    intro h
    simp only [List.foldlM_nil, pure_eq_ok, Except.ok.injEq] at h
    rw [h]
  | cons e rest ih =>
    intro h
    simp only [List.foldlM_cons] at h
    obtain ⟨wa, ha, h⟩ := bind_ok h
    have e1 : wa.systems = w.systems := by
      split at ha
      · exact Except.noConfusion ha
      · refine foldlM_pres (fun x => x.systems = w.systems) _ ?_ _ _ _ ha rfl
        intro b cid b' hb' hQ
        rw [handle_peer_systems env fuel cid _ _ _ _ _ _ b b'
          (hb e (List.mem_cons_self _ _)) hb']
        exact hQ
    rw [← e1]
    exact ih wa (fun x hx => hb x (List.mem_cons_of_mem _ hx)) h

theorem releaseEntry_systems {self : Cache} {c : Nat} {r : Request} {w w' : World}
    (h : releaseEntry self c r w = .ok w') : w'.systems = w.systems := by
  unfold releaseEntry at h
  split at h
  · obtain ⟨mline, -, h⟩ := bind_ok h
    obtain ⟨self', -, h⟩ := bind_ok h
    split at h
    · simp only [pure_eq_ok, Except.ok.injEq] at h
      rw [← h]
      show (if _ then _ else _ : World).systems = w.systems
      split <;> rfl
    · exact Except.noConfusion h
  · simp only [pure_eq_ok, Except.ok.injEq] at h
    rw [h]

theorem markDone_systems (self : Cache) (r : Request) (w : World) :
    (markDone self r w).systems = w.systems := by
  unfold markDone
  split <;> rfl

/-- `release_lock` and `propagate_release_lock` leave the hierarchies as they are. -/
theorem release_systems (env : Env) :
    ∀ fuel : Nat,
      (∀ c r w res, release_lock env fuel c r w = .ok res → res.2.systems = w.systems) ∧
      (∀ c r w res, propagate_release_lock env fuel c r w = .ok res →
        res.2.systems = w.systems) := by
  intro fuel
  induction fuel with
  | zero =>
    refine ⟨?_, ?_⟩
    · intro c r w res h; simp [release_lock] at h
    · intro c r w res h; simp [propagate_release_lock] at h
  | succ fuel ih =>
    obtain ⟨ihr, ihp⟩ := ih
    refine ⟨?_, ?_⟩
    · intro c r w res h
      rw [release_lock] at h
      obtain ⟨self, -, h⟩ := bind_ok h
      obtain ⟨w1, h1, h⟩ := bind_ok h
      rw [ihp _ _ _ _ h, markDone_systems, releaseEntry_systems h1]
    · intro c r w res h
      rw [propagate_release_lock] at h
      obtain ⟨self, -, h⟩ := bind_ok h
      refine foldlM_pres (fun acc => acc.2.systems = w.systems) _ ?_ _ _ _ h rfl
      intro b a b' hs hQ
      have hr : RelPres (fun x => x.systems = w.systems) (release_lock env fuel) :=
        fun c r wa res hh hP => (ihr c r wa res hh).trans hP
      exact propagateStep_pres hr hs hQ

theorem tickCallbacks_systems (env : Env) (fuel : Nat) (due : List (Nat × Request))
    (w w' : World) (h : tickCallbacks env fuel due w = .ok w') : w'.systems = w.systems := by
  unfold tickCallbacks at h
  refine foldlM_pres (fun x => x.systems = w.systems) _ ?_ _ _ _ h rfl
  intro b e b' hb hQ
  obtain ⟨res, hres, hb⟩ := bind_ok hb
  simp only [pure_eq_ok, Except.ok.injEq] at hb
  rw [← hb, (release_systems env fuel).1 _ _ _ _ hres]
  exact hQ

theorem filter_not_ge (l : List (Nat × Request)) (clk : Nat) :
    l.filter (fun e => !(decide (clk ≥ e.1))) = l.filter (fun e => decide (clk < e.1)) := by
  apply List.filter_congr
  intro e _
  by_cases h : clk < e.1
  · have : ¬ clk ≥ e.1 := by omega
    simp [h, this]
  · have : clk ≥ e.1 := by omega
    simp [h, this]

/-- The run of `tick` in two steps: the coherence loop, then the callbacks of the due
entries on the pruned state, after which the wait list is pruned. -/
theorem tick_eq (env : Env) (fuel s : Nat) (w : World) (sys : CacheSys)
    (hs : w.systems[s]? = some sys)
    (hb : ∀ e ∈ sys.m_coh_act_list, e.2.is_memory_writeback = false) :
    tick env fuel s w =
      (do
        let w1 ← tickCoherence env fuel sys w
        let w3 ← tickCallbacks env fuel
          (sys.m_wait_list.filter (fun e => decide (sys.m_clk + 1 ≥ e.1)))
          (w1.pruned s (sys.m_clk + 1))
        pure (w3.waitPruned s (sys.m_clk + 1))) := by
  unfold tick
  simp only [getSys_eq_ok.mpr hs, ok_bind]
  show (tickCoherence env fuel sys w >>= _) = _
  cases h1 : tickCoherence env fuel sys w with
  | error e => rfl
  | ok w1 =>
    have hsys1 : w1.systems = w.systems := tickCoherence_systems env fuel sys w w1 hb h1
    have hg : getSys w1 s = .ok sys := getSys_eq_ok.mpr (hsys1 ▸ hs)
    simp only [ok_bind, hg, ne_eq, not_true_eq_false, if_false]
    rw [foldlM_filter (fun e : Nat × Request => sys.m_clk + 1 ≥ e.1)]
    rfl

/-- C15: on a hierarchy whose queued coherence actions are not memory writebacks, a
returning `tick` leaves the clock increased by exactly 1, the coherence-action list empty,
and in the hit list and in the wait list exactly the previous entries whose cycle is
strictly greater than the new clock; the other hierarchies are as they were; the caches and
the ROB log are those left by the coherence loop followed by the callback of each removed
wait-list entry, invoked once each in key order, and by nothing else (no callback of a
hit-list entry).  And `tick` returns whenever the coherence loop and these callbacks
return. -/
theorem tick_effect (env : Env) (fuel s : Nat) (w : World) (sys : CacheSys)
    (hs : w.systems[s]? = some sys)
    (hb : ∀ e ∈ sys.m_coh_act_list, e.2.is_memory_writeback = false) :
    (∀ w', tick env fuel s w = .ok w' →
      (∃ sys', w'.systems[s]? = some sys' ∧ sys'.m_clk = sys.m_clk + 1 ∧
        sys'.m_coh_act_list = [] ∧
        sys'.m_hit_list = sys.m_hit_list.filter (fun e => decide (sys.m_clk + 1 < e.1)) ∧
        sys'.m_wait_list = sys.m_wait_list.filter (fun e => decide (sys.m_clk + 1 < e.1))) ∧
      (∀ t : Nat, t ≠ s → w'.systems[t]? = w.systems[t]?) ∧
      ∃ w1 w3, tickCoherence env fuel sys w = .ok w1 ∧
        tickCallbacks env fuel
          (sys.m_wait_list.filter (fun e => decide (sys.m_clk + 1 ≥ e.1)))
          (w1.pruned s (sys.m_clk + 1)) = .ok w3 ∧
        w'.caches = w3.caches ∧ w'.rob_done = w3.rob_done) ∧
    (∀ w1 w3, tickCoherence env fuel sys w = .ok w1 →
      tickCallbacks env fuel
        (sys.m_wait_list.filter (fun e => decide (sys.m_clk + 1 ≥ e.1)))
        (w1.pruned s (sys.m_clk + 1)) = .ok w3 →
      ∃ w', tick env fuel s w = .ok w') := by
  constructor
  · intro w' h
    rw [tick_eq env fuel s w sys hs hb] at h
    obtain ⟨w1, h1, h⟩ := bind_ok h
    obtain ⟨w3, h3, h⟩ := bind_ok h
    simp only [pure_eq_ok, Except.ok.injEq] at h
    have e1 : w1.systems = w.systems := tickCoherence_systems env fuel sys w w1 hb h1
    have e3 : w3.systems = (w1.pruned s (sys.m_clk + 1)).systems :=
      tickCallbacks_systems env fuel _ _ _ h3
    have ht : ∀ t : Nat, w'.systems[t]? =
        (fun a => if s = t then
            { a with m_wait_list :=
                a.m_wait_list.filter (fun e => !(decide (sys.m_clk + 1 ≥ e.1))) }
          else a) <$>
        ((fun a => if s = t then
            { a with m_coh_act_list := [], m_clk := sys.m_clk + 1,
                     m_hit_list :=
                       a.m_hit_list.filter (fun e => !(decide (sys.m_clk + 1 ≥ e.1))) }
          else a) <$> w.systems[t]?) := by
      intro t
      rw [← h]
      unfold World.waitPruned
      rw [updSys_getElem?, e3]
      unfold World.pruned
      rw [updSys_getElem?, e1]
    refine ⟨?_, ?_, w1, w3, h1, h3, ?_, ?_⟩
    · have hsx := ht s
      rw [hs] at hsx
      simp only [Option.map_eq_map, Option.map_some', if_true] at hsx
      exact ⟨_, hsx, rfl, rfl, filter_not_ge _ _, filter_not_ge _ _⟩
    · intro t hts
      have : ¬ s = t := fun e => hts e.symm
      rw [ht t]
      cases w.systems[t]? with
      | none => rfl
      | some a => simp [this]
    · rw [← h]; rfl
    · rw [← h]; rfl
  · intro w1 w3 h1 h3
    refine ⟨w3.waitPruned s (sys.m_clk + 1), ?_⟩
    rw [tick_eq env fuel s w sys hs hb, h1]
    simp only [ok_bind, h3, pure_eq_ok]

/-- The tick that completes `DATA_READ 0x0` in `oneLevel 1`: the clock becomes 1, the three
lists are empty and the ROB has been notified once; an instance of `tick_effect`. -/
theorem tick_effect_witness :
    ∃ w w', Reachable quietEnv Op.isLookupReleaseTick (oneLevel 1) w ∧
      w.systems[0]? = some inFlightSys ∧ tick quietEnv 4 0 w = .ok w' ∧
      w'.rob_done = [(0, .DATA_READ)] ∧
      ∃ sys', w'.systems[0]? = some sys' ∧ sys'.m_clk = 1 ∧ sys'.m_coh_act_list = [] ∧
        sys'.m_hit_list = [] ∧ sys'.m_wait_list = [] := by
  obtain ⟨w, hr, hsys, htick⟩ := exists_reachable quietEnv Op.isLookupReleaseTick 4
    [.lookupAndFillCache 0 0 .DATA_READ 0 false 0] (oneLevel 1)
    (fun w => w.systems[0]? = some inFlightSys ∧
      (tick quietEnv 4 0 w).map (fun w' => w'.rob_done) = .ok [(0, .DATA_READ)])
    (by decide!) (by decide!)
  cases ht : tick quietEnv 4 0 w with
  | error e => rw [ht] at htick; exact Except.noConfusion htick
  | ok w' =>
    rw [ht] at htick
    obtain ⟨⟨sys', h1, h2, h3, h4, h5⟩, -, -⟩ :=
      (tick_effect quietEnv 4 0 w inFlightSys hsys
        (by intro e he; simp [inFlightSys, mkSys] at he)).1 w' ht
    exact ⟨w, w', hr, hsys, ht, Except.ok.inj htick, sys', h1, h2, h3, h4.trans rfl,
      h5.trans (by decide)⟩

/-! ## What the coherence-action lists hold -/

theorem nqw_of_systems {w w' : World} (h : w'.systems = w.systems)
    (hq : NoQueuedWriteback w) : NoQueuedWriteback w' := by
  intro s hs
  rw [h] at hs
  exact hq s hs

theorem nqw_updSys {w : World} (p : Nat) (g : CacheSys → CacheSys)
    (hg : ∀ x, ∀ e ∈ (g x).m_coh_act_list,
      e ∈ x.m_coh_act_list ∨ e.2.is_memory_writeback = false)
    (hq : NoQueuedWriteback w) : NoQueuedWriteback (updSys w p g) := by
  intro s hs e he
  obtain ⟨n, hn⟩ := List.getElem?_of_mem hs
  rw [updSys_getElem?] at hn
  cases hx : w.systems[n]? with
  | none => simp [hx] at hn
  | some x =>
    simp only [hx, Option.map_eq_map, Option.map_some', Option.some.injEq] at hn
    have hxm := List.getElem?_mem hx
    by_cases hpn : p = n
    · simp only [hpn, if_true] at hn
      rw [← hn] at he
      rcases hg x e he with h1 | h1
      · exact hq x hxm e h1
      · exact h1
    · simp only [hpn, if_false] at hn
      rw [← hn] at he
      exact hq x hxm e he

theorem nqw_frame {w w' : World} (hf : Frame w w') (hq : NoQueuedWriteback w) :
    NoQueuedWriteback w' := by
  intro s' hs' e he
  obtain ⟨n, hn⟩ := List.getElem?_of_mem hs'
  have hlt : n < w.systems.length := hf.2.1 ▸ (List.getElem?_eq_some.mp hn).1
  obtain ⟨s2, hs2, -, hcoh⟩ := hf.2.2 n _ (List.getElem?_eq_getElem hlt)
  rw [hn] at hs2
  cases Option.some.inj hs2
  rcases hcoh with h1 | h1
  · rw [h1] at he
    exact hq _ (List.getElem_mem hlt) e he
  · rw [h1] at he
    exact absurd he (List.not_mem_nil e)

/-- Nothing but broadcasts is ever queued: the absence of queued memory writebacks is
stable. -/
theorem stable_noQueuedWriteback (env : Env) : Stable env NoQueuedWriteback True where
  soft := fun w c i p f _ h => nqw_of_systems rfl h
  unlock := fun w c i p h => nqw_of_systems rfl h
  fill := fun w c self set addr k tid lg pos _ _ _ h => nqw_of_systems rfl h
  frame := fun w w' hf h => nqw_frame hf h
  enqueue := by
    intro w w' self c a addr tid lg tr ha h he
    have ham : a.is_memory_writeback = false := by
      cases a <;> first | rfl | exact absurd ha (by decide)
    unfold enqueueBroadcast at he
    obtain ⟨sys, -, he⟩ := bind_ok he
    refine foldlM_pres NoQueuedWriteback _ ?_ _ _ _ he h
    intro b p b' hb hQ
    obtain ⟨x, -, hb⟩ := bind_ok hb
    simp only [pure_eq_ok, Except.ok.injEq] at hb
    rw [← hb]
    refine nqw_updSys p _ ?_ hQ
    intro y e hey
    rcases List.mem_append.mp hey with h1 | h1
    · exact Or.inl h1
    · rw [List.mem_singleton.mp h1]
      exact Or.inr ham
  inval := fun w w' _ fuel h addr tid tr hq hi =>
    nqw_of_systems (invalidate_cleared addr tid tr fuel h w w' hi).1 hq
  peerB := by
    intro _ w w' self c a addr tid _ h hp
    rcases peerBroadcast_cases hp with e | ⟨i, p, s, e | e⟩
    · exact e ▸ h
    · exact e ▸ nqw_of_systems rfl h
    · exact e ▸ nqw_of_systems rfl h
  quiet := Or.inl trivial

/-- In every state reachable from a state without queued memory writebacks, no memory
writeback is queued. -/
theorem no_queued_writeback_reachable (env : Env) (w0 w : World)
    (h0 : NoQueuedWriteback w0) (hr : Reachable env Op.any w0 w) : NoQueuedWriteback w := by
  induction hr with
  | init => exact h0
  | step op fuel _ _ hrun ih =>
    refine op_pres (stable_noQueuedWriteback env) op fuel _ _ ?_
      (fun _ _ _ _ _ _ _ _ => trivial) hrun ih
    intro c addr tid tr _ hi
    exact nqw_of_systems (invalidate_cleared addr tid tr fuel c _ _ hi).1 ih

/-! ## The comparators -/

/-- C25: `RequestComparator` relates no request to itself, it is transitive (no request is
both above one and below another, since `m_is_large` cannot decrease twice), and
incomparability under it is not transitive: there are requests `a`, `b`, `c` with `a` and `c`
incomparable, `c` and `b` incomparable, and `a` related to `b`. -/
theorem requestComparator_not_weak_order :
    (∀ r : Request, RequestComparator r r = false) ∧
    (∀ a b c : Request, RequestComparator a b = true → RequestComparator b c = true →
      RequestComparator a c = true) ∧
    (∀ a b c : Request, ¬ (RequestComparator a b = true ∧ RequestComparator b c = true)) ∧
    ∃ a b c : Request,
      RequestComparator a c = false ∧ RequestComparator c a = false ∧
      RequestComparator c b = false ∧ RequestComparator b c = false ∧
      RequestComparator a b = true := by
  have chain : ∀ a b c : Request,
      ¬ (RequestComparator a b = true ∧ RequestComparator b c = true) := by
    intro a b c h
    obtain ⟨h1, h2⟩ := h
    simp only [RequestComparator, Bool.and_eq_true, decide_eq_true_eq] at h1 h2
    have ha := h1.1.2
    have hb := h2.1.2
    cases hx : a.m_is_large <;> cases hy : b.m_is_large <;> cases hz : c.m_is_large <;>
      simp [hx, hy, hz] at ha hb
  refine ⟨?_, ?_, chain, ?_⟩
  · intro r
    simp [RequestComparator]
  · intro a b c h1 h2
    exact absurd ⟨h1, h2⟩ (chain a b c)
  · exact ⟨⟨2, .DATA_WRITE, 1, 0, 1, true, 0⟩, ⟨0, .DATA_READ, 0, 0, 0, false, 0⟩,
      ⟨5, .DATA_READ, 0, 0, 0, false, 0⟩, by decide, by decide, by decide, by decide,
      by decide⟩

/-- C28: `AddrMapComparator` relates no key to itself, but it is neither asymmetric nor
transitive: the keys `(0x1000, tid 2)` and `(0x2000, tid 1)` are each below the other, the
first by its address and the second by its tid, and neither is below itself. -/
theorem addrMapComparator_not_asymmetric :
    (∀ a : AddrMapKey, AddrMapComparator a a = false) ∧
    AddrMapComparator ⟨0x1000, 2, false⟩ ⟨0x2000, 1, false⟩ = true ∧
    AddrMapComparator ⟨0x2000, 1, false⟩ ⟨0x1000, 2, false⟩ = true ∧
    AddrMapComparator ⟨0x1000, 2, false⟩ ⟨0x1000, 2, false⟩ = false := by
  refine ⟨?_, by decide, by decide, by decide⟩
  intro a
  simp [AddrMapComparator]

/-! ## The subscript in `is_hit` -/

/-- C27: the subscript `set[hit_pos]` in `is_hit` is out of range exactly when no line of the
set matches the key, and then the position read is `set.size()`; where it is in range the
checked evaluation returns what `is_hit` returns.  In a set of two invalid lines the lookup
of `(0, false, 0)` reads position 2. -/
theorem is_hit_reads_at_size :
    (∀ (set : List CacheLine) (tag : Nat) (tr : Bool) (tid : Nat),
      (is_hit_checked set tag tr tid = .error .outOfBounds ↔
        (is_found set tag tr tid).1 = false) ∧
      ((is_found set tag tr tid).1 = false ↔ (is_found set tag tr tid).2 = set.length) ∧
      ((is_found set tag tr tid).1 = true ↔
        is_hit_checked set tag tr tid = .ok (is_hit set tag tr tid))) ∧
    is_found [emptyLine, emptyLine] 0 false 0 = (false, 2) ∧
    is_hit_checked [emptyLine, emptyLine] 0 false 0 = .error .outOfBounds := by
  refine ⟨?_, by decide, by decide⟩
  intro set tag tr tid
  have hlt : (is_found set tag tr tid).1 = true ↔ (is_found set tag tr tid).2 < set.length := by
    simp [is_found]
  have hle : (is_found set tag tr tid).2 ≤ set.length := by
    simp only [is_found]
    exact List.findIdx_le_length _
  cases hf : (is_found set tag tr tid).1 with
  | false =>
    have hge : ¬ (is_found set tag tr tid).2 < set.length := by
      intro h
      rw [hlt.mpr h] at hf
      cases hf
    have hn : set[(is_found set tag tr tid).2]? = none :=
      List.getElem?_eq_none (Nat.le_of_not_lt hge)
    refine ⟨?_, ?_, ?_⟩
    · simp [is_hit_checked, hn]
    · simp only [true_iff]
      omega
    · simp [is_hit_checked, hn]
  | true =>
    have hl := hlt.mp hf
    have hs : set[(is_found set tag tr tid).2]? = some (set[(is_found set tag tr tid).2]) :=
      List.getElem?_eq_getElem hl
    refine ⟨?_, ?_, ?_⟩
    · simp [is_hit_checked, hs]
    · simp only [Bool.true_eq_false, false_iff]
      omega
    · simp only [true_iff, is_hit_checked, hs, is_hit]
      rw [List.getD_eq_getElem?_getD, hs]
      simp [hf]

/-! ## The inclusion assertion of `evict` -/

/-- C23: the inclusion assertion of `evict` searches the set of the lower cache for the set
index of the victim address, not for its tag.  First state: L1 holds the clean line `0x40`
and the lower cache holds it too, as a valid line with tag `get_tag(0x40) = 1` in set 0;
evicting the line from L1 fails the assertion, which looked for tag `get_index(0x40) = 0`,
and so does a read of `0x80` at L1 although the lower cache holds `0x80`.  Second state: L1
holds the clean line `0x40` in its set 1, the lower cache holds address `0x0` only, with tag
0, and evicting the line from L1 passes the assertion. -/
theorem evict_inclusion_compares_index :
    (∃ w, Reachable quietEnv Op.isLookupReleaseTick (twoLevel 0 1 true 1 0 2 false 1 1) w ∧
      w.bitsAt 0 0 0 = some (true, false, 1) ∧
      w.bitsAt 1 0 0 = some (true, false, 2) ∧ w.bitsAt 1 0 1 = some (true, false, 1) ∧
      evict quietEnv 4 0 0 0 w = .error (.assertFailed .evictInclusion) ∧
      lookupAndFillCache quietEnv 4 0 0x80 .DATA_READ 0 false 0 w =
        .error (.assertFailed .evictInclusion)) ∧
    (∃ w, Reachable quietEnv Op.isLookupReleaseTick (twoLevel 1 1 true 1 0 1 false 1 1) w ∧
      w.bitsAt 0 1 0 = some (true, false, 0) ∧ w.bitsAt 1 0 0 = some (true, false, 0) ∧
      w.caches.map (fun c => (c.get_index 0x40, c.get_tag 0x40)) = [(1, 0), (0, 1)] ∧
      evict quietEnv 4 0 1 0 w = .ok w) := by
  constructor
  · exact exists_reachable quietEnv _ 4
      ([.lookupAndFillCache 0 0x40 .DATA_READ 0 false 0] ++ List.replicate 3 (.tick 0) ++
        [.lookupAndFillCache 1 0x80 .DATA_READ 0 false 0] ++ List.replicate 3 (.tick 0))
      _ _ (by decide!) (by decide!)
  · exact exists_reachable quietEnv _ 4
      ([.lookupAndFillCache 0 0x40 .DATA_READ 0 false 0] ++ List.replicate 3 (.tick 0) ++
        [.lookupAndFillCache 0 0x0 .DATA_READ 0 false 0] ++ List.replicate 3 (.tick 0))
      _ _ (by decide!) (by decide!)

/-! ## Back-pressure from the lower cache -/

/-- C26: in a two-level data hierarchy whose L2 has its sixteen MSHR entries taken, a read of
`0x400` at L2 returns REQUEST_RETRY and changes nothing; the same read at L1, which is not the
last level, misses, is forwarded to L2, and returns REQUEST_MISS with the line of L1 valid
and locked and an MSHR entry of L1 allocated, while no request for `0x400` is in the wait
list.  After 200 further calls of `tick` the line is still locked and the entry still
open. -/
theorem lower_retry_is_dropped :
    EmptyCaches (twoLevel 0 1 false 1 4 1 false 1 100) ∧
    (∃ w, Reachable quietEnv Op.isLookupReleaseTick (twoLevel 0 1 false 1 4 1 false 1 100) w ∧
      w.atLastLevel 0 0 = some false ∧
      w.bitsAt 0 0 0 = some (false, false, 0) ∧ w.mshrOf 0 = [] ∧
      (w.mshrOf 1).length = 16 ∧
      lookupAndFillCache quietEnv 4 1 0x400 .DATA_READ 0 false 1 w =
        .ok (.REQUEST_RETRY, w) ∧
      (lookupAndFillCache quietEnv 4 0 0x400 .DATA_READ 0 false 0 w).map (fun r => r.1) =
        .ok .REQUEST_MISS ∧
      (lookupAndFillCache quietEnv 4 0 0x400 .DATA_READ 0 false 0 w).map
          (fun r => r.2.bitsAt 0 0 0) = .ok (some (true, true, 16)) ∧
      (lookupAndFillCache quietEnv 4 0 0x400 .DATA_READ 0 false 0 w).map
          (fun r => r.2.mshrOf 0) = .ok [(0x400, .DATA_READ)] ∧
      (lookupAndFillCache quietEnv 4 0 0x400 .DATA_READ 0 false 0 w).map
          (fun r => decide (0x400 ∈ r.2.waiting 0)) = .ok false) ∧
    (runOps quietEnv 4 (sixteenMisses ++ .lookupAndFillCache 0 0x400 .DATA_READ 0 false 0 ::
        List.replicate 200 (.tick 0)) (twoLevel 0 1 false 1 4 1 false 1 100)).map
        World.snapshot =
      .ok { lines := [[[(true, true, 16)]], List.replicate 16 [(true, false, 0)]],
            mshr := [[(0x400, .DATA_READ)], []], wait := [],
            rob := (List.range 16).map (fun i => (0x40 * i, kind.DATA_READ)) } := by
  refine ⟨by decide!, ?_, by decide!⟩
  exact exists_reachable quietEnv _ 4 sixteenMisses _ _ (by decide!) (by decide!)

/-- One call of `add_cache_to_hier` on a data hierarchy whose levels are chained, for a fresh
cache, returns and leaves the levels chained with the cache as the new last level; the
caches outside the hierarchy are left as they are. -/
theorem add_cache_step {N core s c : Nat} {pre : List Nat} {w : World}
    (hw : Chained s pre w) (hnd : pre.Nodup) (hc : FreshDataCache w c) (hnot : c ∉ pre)
    (hN : pre.length + 1 ≤ N) :
    ∃ w', add_cache_to_hier N core s c w = .ok w' ∧ Chained s (pre ++ [c]) w' ∧
      ∀ d, d ≠ c → d ∉ pre → w'.caches[d]? = w.caches[d]? := by
  obtain ⟨sys, hsys, hcs, htr, hall⟩ := hw
  obtain ⟨x, hx, hty, hhi⟩ := hc
  have hgs : getSys w s = .ok sys := getSys_eq_ok.mpr hsys
  have hgc : getCache w c = .ok x := getCache_eq_ok.mpr hx
  have htyb : (x.m_cache_type != CacheType.TRANSLATION_ONLY) = true := by
    simpa using hty
  have hok : ∀ w1 : World, w1.systems = w.systems →
      (∃ xc, w1.caches[c]? = some xc ∧ xc.m_cache_level = pre.length + 1 ∧
        xc.m_higher_caches = (if pre.length = 0 then [] else pre[pre.length - 1]?.toList)) →
      (∀ i d, pre[i]? = some d → ∃ y, w1.caches[d]? = some y ∧ y.m_cache_level = i + 1 ∧
        y.m_lower_cache = (pre ++ [c])[i + 1]? ∧
        y.m_higher_caches = (if i = 0 then [] else pre[i - 1]?.toList)) →
      Chained s (pre ++ [c]) (updSys (updCache w1 c
        (fun x => { x with m_lower_cache := none, m_cache_sys := s, m_core := core })) s
        (fun x => { x with m_caches := x.m_caches ++ [c] })) := by
    intro w1 hs1 hc1 hp1
    refine ⟨{ sys with m_caches := sys.m_caches ++ [c] }, ?_, by simp [hcs], htr, ?_⟩
    · rw [updSys_getElem?]
      show _ <$> (updCache w1 c _).systems[s]? = _
      have : (updCache w1 c
        (fun x => { x with m_lower_cache := none, m_cache_sys := s, m_core := core })).systems
          = w.systems := hs1
      rw [this, hsys]
      simp
    · intro i d hid
      have hcaches : ∀ e, (updSys (updCache w1 c
          (fun x => { x with m_lower_cache := none, m_cache_sys := s, m_core := core })) s
          (fun x => { x with m_caches := x.m_caches ++ [c] })).caches[e]? =
          (fun a => if c = e then
            { a with m_lower_cache := none, m_cache_sys := s, m_core := core } else a) <$>
            w1.caches[e]? := by
        intro e
        exact updCache_getElem? w1 c e _
      rw [hcaches]
      by_cases hi : i < pre.length
      · have hid2 : pre[i]? = some d := by
          rw [List.getElem?_append_left hi] at hid
          exact hid
        have hdm : d ∈ pre := List.getElem?_mem hid2
        have hdc : c ≠ d := fun h => hnot (h ▸ hdm)
        obtain ⟨y, hy, hl, hlo, hh⟩ := hp1 i d hid2
        refine ⟨y, by simp [hy, hdc], hl, hlo, ?_, ?_⟩
        · rw [hh]
          by_cases h0 : i = 0
          · simp [h0]
          · simp only [h0, if_false]
            rw [List.getElem?_append_left (by omega)]
        · simp only [CacheSys.is_last_level, htr, hl, hcs, List.length_append,
            List.length_singleton]
          simp
      · have hlen : i < (pre ++ [c]).length := (List.getElem?_eq_some.mp hid).1
        simp only [List.length_append, List.length_singleton] at hlen
        have hie : i = pre.length := by omega
        subst hie
        have hdc : d = c := by
          rw [List.getElem?_append_right (Nat.le_refl _)] at hid
          simpa using hid.symm
        subst hdc
        obtain ⟨xc, hxc, hl, hh⟩ := hc1
        refine ⟨{ xc with m_lower_cache := none, m_cache_sys := s, m_core := core },
          by simp [hxc], hl, ?_, ?_, ?_⟩
        · rw [List.getElem?_eq_none]
          simp
        · show xc.m_higher_caches = _
          rw [hh]
          by_cases h0 : pre.length = 0
          · simp [h0]
          · simp only [h0, if_false]
            rw [List.getElem?_append_left (by omega)]
        · simp only [CacheSys.is_last_level, htr, hcs, List.length_append,
            List.length_singleton]
          simp [hl]
  have hfr : ∀ (w1 : World) (d : Nat), d ≠ c → w1.caches[d]? = w.caches[d]? →
      (updSys (updCache w1 c
        (fun x => { x with m_lower_cache := none, m_cache_sys := s, m_core := core })) s
        (fun x => { x with m_caches := x.m_caches ++ [c] })).caches[d]? = w.caches[d]? := by
    intro w1 d hd h1
    have : (updSys (updCache w1 c
        (fun x => { x with m_lower_cache := none, m_cache_sys := s, m_core := core })) s
        (fun x => { x with m_caches := x.m_caches ++ [c] })).caches[d]? =
        (fun a => if c = d then
          { a with m_lower_cache := none, m_cache_sys := s, m_core := core } else a) <$>
          w1.caches[d]? := updCache_getElem? w1 c d _
    rw [this, h1]
    cases w.caches[d]? <;> simp [Ne.symm hd]
  unfold add_cache_to_hier
  simp only [hgs, hgc, ok_bind, htr, htyb, if_true, Bool.false_eq_true, if_false, Bool.not_false,
    hcs]
  by_cases h0 : pre.length = 0
  · have hpre : pre = [] := List.length_eq_zero.mp h0
    subst hpre
    simp only [List.length_nil, gt_iff_lt, Nat.lt_irrefl, if_false, ok_bind, pure_eq_ok]
    have hN2 : 0 + 1 ≤ N := hN
    simp only [hN2, if_true]
    refine ⟨_, rfl, hok _ rfl ?_ ?_, ?_⟩
    · refine ⟨{ x with m_cache_level := 0 + 1 }, ?_, rfl, ?_⟩
      · rw [updCache_getElem?, hx]
        simp
      · simpa using hhi
    · intro i d hid
      simp at hid
    · intro d hd _
      apply hfr _ d hd
      rw [updCache_getElem?]
      cases w.caches[d]? <;> simp [Ne.symm hd]
  · have hpos : pre.length > 0 := Nat.pos_of_ne_zero h0
    have hlt : pre.length - 1 < pre.length := by omega
    have hprev : pre[pre.length - 1]? = some pre[pre.length - 1] := List.getElem?_eq_getElem hlt
    obtain ⟨xp, hxp, -⟩ := hall _ _ hprev
    have hpm : pre[pre.length - 1] ∈ pre := List.getElem_mem hlt
    have hpc : c ≠ pre[pre.length - 1] := fun h => hnot (h ▸ hpm)
    have hga : getCache (updCache w c (fun x =>
        { x with m_higher_caches := x.m_higher_caches ++ [pre[pre.length - 1]],
                 m_cache_level := pre.length + 1 })) pre[pre.length - 1] = .ok xp := by
      rw [getCache_updCache_ne _ hpc]
      exact getCache_eq_ok.mpr hxp
    simp only [hpos, if_true, hprev, hga, ok_bind, pure_eq_ok, hN]
    refine ⟨_, rfl, hok _ rfl ?_ ?_, ?_⟩
    · refine ⟨{ x with m_higher_caches := x.m_higher_caches ++ [pre[pre.length - 1]],
                       m_cache_level := pre.length + 1 }, ?_, rfl, ?_⟩
      · rw [updCache_getElem?, updCache_getElem?, hx]
        simp [Ne.symm hpc]
      · simp [hhi, h0, hprev]
    · intro i d hid
      obtain ⟨y, hy, hl, hlo, hh, -⟩ := hall i d hid
      have hdm : d ∈ pre := List.getElem?_mem hid
      have hdc : c ≠ d := fun h => hnot (h ▸ hdm)
      have hil : i < pre.length := (List.getElem?_eq_some.mp hid).1
      by_cases hip : i = pre.length - 1
      · have hd : d = pre[pre.length - 1] := by
          subst hip
          rw [hprev] at hid
          exact (Option.some.inj hid).symm
        refine ⟨{ y with m_lower_cache := some c }, ?_, hl, ?_, hh⟩
        · rw [updCache_getElem?, updCache_getElem?, hy, hd]
          simp [hpc]
        · show some c = _
          have : i + 1 = pre.length := by omega
          rw [this, List.getElem?_append_right (Nat.le_refl _)]
          simp
      · have hd : pre[pre.length - 1] ≠ d := by
          intro h
          have h1 : pre[i] = d := (List.getElem?_eq_some.mp hid).2
          have := (List.Nodup.getElem_inj_iff hnd).mp (h.trans h1.symm)
          omega
        refine ⟨y, ?_, hl, ?_, hh⟩
        · rw [updCache_getElem?, updCache_getElem?, hy]
          simp [hdc, hd]
        · rw [hlo, List.getElem?_append_left (by omega)]
    · intro d hd hdp
      apply hfr _ d hd
      have hd2 : pre[pre.length - 1] ≠ d := fun h => hdp (h ▸ hpm)
      rw [updCache_getElem?, updCache_getElem?]
      cases w.caches[d]? <;> simp [Ne.symm hd, hd2]

/-- Adding fresh caches one after the other keeps the levels chained. -/
theorem add_caches_chained (N core s : Nat) :
    ∀ (rest pre : List Nat) (w : World), Chained s pre w → (pre ++ rest).Nodup →
      (∀ c ∈ rest, FreshDataCache w c) → (pre ++ rest).length ≤ N →
      ∃ w', rest.foldlM (fun wacc c => add_cache_to_hier N core s c wacc) w = .ok w' ∧
        Chained s (pre ++ rest) w' := by
  intro rest
  induction rest with
  | nil =>
    intro pre w hw _ _ _
    exact ⟨w, rfl, by simpa using hw⟩
  | cons c rest ih =>
    intro pre w hw hnd hf hN
    have hnd2 : (pre ++ [c] ++ rest).Nodup := by simpa using hnd
    have hpre : pre.Nodup := (List.nodup_append.mp hnd).1
    have hcp : c ∉ pre := by
      intro h
      exact (List.nodup_append.mp hnd).2.2 h (List.mem_cons_self _ _)
    have hlen : pre.length + 1 ≤ N := by
      simp only [List.length_append, List.length_cons] at hN
      omega
    obtain ⟨w1, h1, hch, hfr⟩ :=
      @add_cache_step N core s c pre w hw hpre (hf c (List.mem_cons_self _ _)) hcp hlen
    have hf1 : ∀ d ∈ rest, FreshDataCache w1 d := by
      intro d hd
      have hdc : d ≠ c := by
        intro h
        have := (List.nodup_cons.mp (List.nodup_append.mp hnd).2.1).1
        exact this (h ▸ hd)
      have hdp : d ∉ pre := by
        intro h
        exact (List.nodup_append.mp hnd).2.2 h (List.mem_cons_of_mem _ hd)
      obtain ⟨x, hx, h2, h3⟩ := hf d (List.mem_cons_of_mem _ hd)
      exact ⟨x, by rw [hfr d hdc hdp]; exact hx, h2, h3⟩
    obtain ⟨w2, h2, hch2⟩ := ih (pre ++ [c]) w1 hch hnd2 hf1 (by simpa using hN)
    refine ⟨w2, ?_, by simpa using hch2⟩
    simp only [List.foldlM_cons, h1]
    exact h2

/-- C22: adding distinct fresh caches `cs` (none of them a TLB, none with a higher cache yet),
at most `NUM_MAX_CACHES` of them, to an empty data hierarchy with `add_cache_to_hier` returns,
and afterwards the hierarchy lists them in the order added, the cache added at position `i`
(from 0) has level `i + 1`, its lower cache is the cache added next and is absent for the
last one, its higher caches are exactly the cache added before it and none for the first,
and `is_last_level` of its level holds exactly for the last one. -/
theorem add_cache_to_hier_chains (N core s : Nat) (cs : List Nat) (w : World) (sys : CacheSys)
    (hs : w.systems[s]? = some sys) (he : sys.m_caches = [])
    (hd : sys.m_is_translation_hier = false) (hnd : cs.Nodup)
    (hf : ∀ c ∈ cs, FreshDataCache w c) (hN : cs.length ≤ N) :
    ∃ w', cs.foldlM (fun wacc c => add_cache_to_hier N core s c wacc) w = .ok w' ∧
      Chained s cs w' := by
  have h0 : Chained s [] w := ⟨sys, hs, he, hd, by intro i c h; simp at h⟩
  simpa using add_caches_chained N core s cs [] w h0 (by simpa using hnd) hf (by simpa using hN)

/-- Adding caches 2, 0 and 1 of `unwired`, in this order, to its hierarchy: cache 2 becomes
level 1 above cache 0, cache 0 level 2 between cache 2 and cache 1, cache 1 level 3. -/
theorem add_cache_to_hier_chains_witness :
    (∃ w', ([2, 0, 1] : List Nat).foldlM (fun wacc c => add_cache_to_hier 3 0 0 c wacc)
        unwired = .ok w' ∧ Chained 0 [2, 0, 1] w') ∧
    (([2, 0, 1] : List Nat).foldlM (fun wacc c => add_cache_to_hier 3 0 0 c wacc)
        unwired).map
        (fun w => w.caches.map (fun x => (x.m_cache_level, x.m_lower_cache, x.m_higher_caches)))
      = .ok [(2, some 1, [2]), (3, none, [0]), (1, some 0, [])] := by
  refine ⟨add_cache_to_hier_chains 3 0 0 [2, 0, 1] unwired (mkSys [] 100) rfl rfl rfl
    (by decide) ?_ (by decide), by decide!⟩
  intro c hc
  simp only [List.mem_cons, List.mem_singleton, List.not_mem_nil, or_false] at hc
  rcases hc with rfl | rfl | rfl
  · exact ⟨_, rfl, by decide, rfl⟩
  · exact ⟨_, rfl, by decide, rfl⟩
  · exact ⟨_, rfl, by decide, rfl⟩

/-! ## The effect of `release_lock` -/

theorem mapFind_mapErase {α : Type} (m : List (Nat × α)) (k : Nat) :
    mapFind (mapErase m k) k = none := by
  induction m with
  | nil => rfl
  | cons e rest ih =>
    obtain ⟨k', v⟩ := e
    unfold mapErase at ih ⊢
    by_cases h : k' = k
    · simp [List.filter_cons, h, ih]
    · simp [List.filter_cons, h, mapFind, ih]

theorem mapFind_mem {α : Type} {m : List (Nat × α)} {k : Nat} {v : α}
    (h : mapFind m k = some v) : (k, v) ∈ m := by
  induction m with
  | nil => simp [mapFind] at h
  | cons e rest ih =>
    obtain ⟨k', v'⟩ := e
    simp only [mapFind] at h
    split at h
    · rename_i hk
      simp only [Option.some.injEq] at h
      simp [hk, h]
    · exact List.mem_cons_of_mem _ (ih h)

theorem mem_of_mem_mapErase {α : Type} {m : List (Nat × α)} {k : Nat} {e : Nat × α}
    (h : e ∈ mapErase m k) : e ∈ m :=
  (List.mem_filter.mp h).1

theorem getLine_eq_ok {self : Cache} {i p : Nat} {l : CacheLine} :
    self.getLine i p = .ok l ↔ ∃ s, self.m_tagStore[i]? = some s ∧ s[p]? = some l := by
  unfold Cache.getLine getWay
  cases h : self.m_tagStore[i]? with
  | none => simp
  | some s =>
    cases h2 : s[p]? <;> simp [h2]

theorem getLine_of_shape {x y : Cache}
    (h : y.m_tagStore.map List.length = x.m_tagStore.map List.length) {i p : Nat}
    {l : CacheLine} (hl : x.getLine i p = .ok l) : ∃ l', y.getLine i p = .ok l' := by
  obtain ⟨s, hs, hp⟩ := getLine_eq_ok.mp hl
  have h1 : (y.m_tagStore.map List.length)[i]? = some s.length := by
    rw [h, List.getElem?_map, hs]; rfl
  rw [List.getElem?_map] at h1
  cases hy : y.m_tagStore[i]? with
  | none => rw [hy] at h1; simp at h1
  | some t =>
    rw [hy] at h1
    simp only [Option.map_some', Option.some.injEq] at h1
    have hpl : p < t.length := by
      rw [h1]
      exact (List.getElem?_eq_some.mp hp).1
    exact ⟨t[p], getLine_eq_ok.mpr ⟨t, hy, List.getElem?_eq_getElem hpl⟩⟩

theorem updLine_shape (self : Cache) (i p : Nat) (f : CacheLine → CacheLine) :
    (self.updLine i p f).m_tagStore.map List.length = self.m_tagStore.map List.length := by
  apply List.ext_getElem?
  intro n
  rw [List.getElem?_map, List.getElem?_map, Cache_updLine_getElem?]
  cases self.m_tagStore[n]? with
  | none => rfl
  | some s =>
    simp only [Option.map_eq_map, Option.map_some', Option.some.injEq]
    split <;> simp

theorem released_refl (rk : Nat → Nat) (m : Nat) (w : World) : Released rk m w w :=
  ⟨rfl, rfl, fun _ cy h => ⟨cy, h, rfl, rfl, fun _ he => he, fun _ => rfl⟩⟩

theorem released_trans {rk : Nat → Nat} {m : Nat} {w1 w2 w3 : World}
    (h12 : Released rk m w1 w2) (h23 : Released rk m w2 w3) : Released rk m w1 w3 := by
  refine ⟨h23.1.trans h12.1, h23.2.1.trans h12.2.1, fun y cy hy => ?_⟩
  obtain ⟨c2, hc2, e2, s2, m2, r2⟩ := h12.2.2 y cy hy
  obtain ⟨c3, hc3, e3, s3, m3, r3⟩ := h23.2.2 y c2 hc2
  exact ⟨c3, hc3, e3.trans e2, s3.trans s2, fun e he => m2 e (m3 e he),
    fun hm => (r3 hm).trans (r2 hm)⟩

theorem released_mono {rk : Nat → Nat} {m m' : Nat} {w w' : World} (hm : m ≤ m')
    (h : Released rk m w w') : Released rk m' w w' := by
  refine ⟨h.1, h.2.1, fun y cy hy => ?_⟩
  obtain ⟨c2, hc2, e2, s2, m2, r2⟩ := h.2.2 y cy hy
  exact ⟨c2, hc2, e2, s2, m2, fun h' => r2 (Nat.le_trans hm h')⟩

theorem higherAbove_of_released {rk : Nat → Nat} {m : Nat} {w w' : World}
    (ha : HigherAbove rk w) (h : Released rk m w w') : HigherAbove rk w' := by
  intro x cx' hh hx hmem hlt
  have hxl : x < w.caches.length := by
    rw [← h.1]
    exact (List.getElem?_eq_some.mp hx).1
  obtain ⟨c2, hc2, e2, -⟩ := h.2.2 x _ (List.getElem?_eq_getElem hxl)
  rw [hx] at hc2
  cases hc2
  have hw : cx'.m_higher_caches = (w.caches[x]).m_higher_caches := by
    have := congrArg Cache.m_higher_caches e2
    exact this
  exact ha x _ hh (List.getElem?_eq_getElem hxl) (hw ▸ hmem) (h.1 ▸ hlt)

theorem lineExists_iff {self : Cache} {i p : Nat} :
    self.lineExists i p = true ↔ ∃ l, self.getLine i p = .ok l := by
  unfold Cache.lineExists
  cases self.getLine i p <;> simp

theorem releaseReady_of_released {rk : Nat → Nat} {m : Nat} {w w' : World}
    (ha : ReleaseReady w) (h : Released rk m w w') : ReleaseReady w' := by
  intro cx' hmem
  obtain ⟨x, hx⟩ := List.mem_iff_getElem?.mp hmem
  have hxl : x < w.caches.length := by
    rw [← h.1]
    exact (List.getElem?_eq_some.mp hx).1
  obtain ⟨c2, hc2, e2, s2, m2, -⟩ := h.2.2 x _ (List.getElem?_eq_getElem hxl)
  rw [hx] at hc2
  cases hc2
  obtain ⟨hsys, hent⟩ := ha _ (List.getElem_mem hxl)
  have hcs : cx'.m_cache_sys = (w.caches[x]).m_cache_sys := by
    have := congrArg Cache.m_cache_sys e2
    exact this
  refine ⟨by rw [h.2.1, hcs]; exact hsys, fun e he => ?_⟩
  obtain ⟨l, hl⟩ := lineExists_iff.mp (hent e (m2 e he))
  exact lineExists_iff.mpr (getLine_of_shape s2 hl)

theorem foldlM_pres_mem {α β : Type} (Q : β → Prop) (f : β → α → Except Err β) :
    ∀ (l : List α), (∀ b a b', a ∈ l → f b a = .ok b' → Q b → Q b') →
      ∀ (b b' : β), l.foldlM f b = .ok b' → Q b → Q b' := by
  intro l
  induction l with
  | nil =>
    intro _ b b' h hQ
    simp only [List.foldlM_nil, pure_eq_ok, Except.ok.injEq] at h
    exact h ▸ hQ
  | cons a rest ih =>
    intro hf b b' h hQ
    simp only [List.foldlM_cons] at h
    obtain ⟨b1, h1, h⟩ := bind_ok h
    exact ih (fun b a b' ha => hf b a b' (List.mem_cons_of_mem _ ha)) b1 b' h
      (hf _ _ _ (List.mem_cons_self _ _) h1 hQ)

theorem foldlM_ok_mem {α β : Type} (Q : β → Prop) (f : β → α → Except Err β) :
    ∀ (l : List α), (∀ b a, a ∈ l → Q b → ∃ b', f b a = .ok b' ∧ Q b') →
      ∀ (b : β), Q b → ∃ b', l.foldlM f b = .ok b' ∧ Q b' := by
  intro l
  induction l with
  | nil =>
    intro _ b hQ
    exact ⟨b, rfl, hQ⟩
  | cons a rest ih =>
    intro hf b hQ
    obtain ⟨b1, h1, hQ1⟩ := hf b a (List.mem_cons_self _ _) hQ
    obtain ⟨b2, h2, hQ2⟩ := ih (fun b a ha => hf b a (List.mem_cons_of_mem _ ha)) b1 hQ1
    refine ⟨b2, ?_, hQ2⟩
    simp only [List.foldlM_cons, h1]
    exact h2

/-- What the first part of `release_lock` does to the cache it is called on, and that it
touches no other cache. -/
theorem releaseEntry_effect {self : Cache} {c : Nat} {r : Request} {w w1 : World}
    (hself : w.caches[c]? = some self) (h : releaseEntry self c r w = .ok w1) :
    w1.systems = w.systems ∧ w1.caches.length = w.caches.length ∧
    (∀ y, y ≠ c → w1.caches[y]? = w.caches[y]?) ∧
    ∃ self1, w1.caches[c]? = some self1 ∧ self1.wiring = self.wiring ∧
      self1.m_tagStore.map List.length = self.m_tagStore.map List.length ∧
      (∀ e ∈ self1.m_mshr_entries, e ∈ self.m_mshr_entries) ∧
      mapFind self1.m_mshr_entries r.m_addr = none ∧
      (∀ e, mapFind self.m_mshr_entries r.m_addr = some e →
        ∃ line, self.getLine e.m_line.1 e.m_line.2 = .ok line ∧
          (self.get_tag r.m_addr = line.tag →
            self1.m_tagStore =
              (self.updLine e.m_line.1 e.m_line.2
                (fun l => { l with lock := false })).m_tagStore) ∧
          (self.get_tag r.m_addr ≠ line.tag → self1.m_tagStore = self.m_tagStore)) ∧
      (mapFind self.m_mshr_entries r.m_addr = none → self1 = self) := by
  unfold releaseEntry at h
  cases hf : mapFind self.m_mshr_entries r.m_addr with
  | none =>
    simp only [hf, pure_eq_ok, Except.ok.injEq] at h
    subst h
    exact ⟨rfl, rfl, fun _ _ => rfl, self, hself, rfl, rfl, fun _ he => he, hf,
      fun e he => Option.noConfusion he, fun _ => rfl⟩
  | some entry =>
    simp only [hf] at h
    obtain ⟨mline, hml, h⟩ := bind_ok h
    obtain ⟨self', hs', h⟩ := bind_ok h
    split at h
    · simp only [pure_eq_ok, Except.ok.injEq] at h
      subst h
      by_cases ht : self.get_tag r.m_addr = mline.tag
      · have hb : (self.get_tag r.m_addr == mline.tag) = true := by simpa using ht
        simp only [hb, if_true]
        refine ⟨rfl, by simp, ?_, ?_⟩
        · intro y hy
          rw [updCache_getElem?, updLine, updCache_getElem?]
          cases w.caches[y]? <;> simp [Ne.symm hy]
        · refine ⟨(fun x : Cache =>
              { x with m_mshr_entries := mapErase x.m_mshr_entries r.m_addr })
              (self.updLine entry.m_line.1 entry.m_line.2 (fun l => { l with lock := false })),
            by rw [updCache_getElem?, updLine, updCache_getElem?, hself]; simp,
            rfl, updLine_shape _ _ _ _, fun e he => mem_of_mem_mapErase he,
            mapFind_mapErase _ _, ?_, fun hn => Option.noConfusion hn⟩
          intro e he
          cases he
          exact ⟨mline, hml, fun _ => rfl, fun hne => absurd ht hne⟩
      · have hb : (self.get_tag r.m_addr == mline.tag) = false := by simpa using ht
        simp only [hb, Bool.false_eq_true, if_false]
        refine ⟨rfl, by simp, ?_, ?_⟩
        · intro y hy
          rw [updCache_getElem?]
          cases w.caches[y]? <;> simp [Ne.symm hy]
        · refine ⟨(fun x : Cache =>
              { x with m_mshr_entries := mapErase x.m_mshr_entries r.m_addr }) self,
            by rw [updCache_getElem?, hself]; simp,
            rfl, rfl, fun e he => mem_of_mem_mapErase he,
            mapFind_mapErase _ _, ?_, fun hn => Option.noConfusion hn⟩
          intro e he
          cases he
          exact ⟨mline, hml, fun h' => absurd h' ht, fun _ => rfl⟩
    · exact Except.noConfusion h

/-- The first part of `release_lock` returns when the line the entry is bound to exists. -/
theorem releaseEntry_ok {self : Cache} {c : Nat} {r : Request} {w : World}
    (hself : w.caches[c]? = some self)
    (hl : ∀ e ∈ self.m_mshr_entries, ∃ l, self.getLine e.2.m_line.1 e.2.m_line.2 = .ok l) :
    ∃ w1, releaseEntry self c r w = .ok w1 := by
  unfold releaseEntry
  cases hf : mapFind self.m_mshr_entries r.m_addr with
  | none => exact ⟨w, rfl⟩
  | some entry =>
    obtain ⟨l, hl⟩ := hl _ (mapFind_mem hf)
    simp only [hl, ok_bind]
    by_cases ht : self.get_tag r.m_addr = l.tag
    · have hb : (self.get_tag r.m_addr == l.tag) = true := by simpa using ht
      simp only [hb, if_true]
      have hg : getCache (updCache (updLine w c entry.m_line.1 entry.m_line.2
          (fun l => { l with lock := false })) c
          (fun x => { x with m_mshr_entries := mapErase x.m_mshr_entries r.m_addr })) c =
          .ok { (self.updLine entry.m_line.1 entry.m_line.2
            (fun l => { l with lock := false })) with
            m_mshr_entries := mapErase self.m_mshr_entries r.m_addr } := by
        rw [getCache_eq_ok, updCache_getElem?, updLine, updCache_getElem?, hself]
        simp [Cache.updLine]
      simp only [hg, ok_bind, mapFind_mapErase, Option.isNone_none, if_true]
      exact ⟨_, rfl⟩
    · have hb : (self.get_tag r.m_addr == l.tag) = false := by simpa using ht
      simp only [hb, Bool.false_eq_true, if_false]
      have hg : getCache (updCache w c
          (fun x => { x with m_mshr_entries := mapErase x.m_mshr_entries r.m_addr })) c =
          .ok { self with m_mshr_entries := mapErase self.m_mshr_entries r.m_addr } := by
        rw [getCache_eq_ok, updCache_getElem?, hself]
        simp
      simp only [hg, ok_bind, mapFind_mapErase, Option.isNone_none, if_true]
      exact ⟨_, rfl⟩

/-- One iteration of the loop of `propagate_release_lock` either leaves the world as it is or
is a call of `release_lock` on the higher cache, which resolves. -/
theorem propagateStep_cases {env : Env}
    {rel : Nat → Request → World → Except Err (Request × World)} {self : Cache}
    {acc res : Request × World} {h : Nat}
    (hs : propagateStep env rel self acc h = .ok res) :
    res.2 = acc.2 ∨ (h < acc.2.caches.length ∧ ∃ r', rel h r' acc.2 = .ok res) := by
  unfold propagateStep at hs
  simp only [] at hs
  split at hs
  · rename_i hlt
    obtain ⟨hc, -, hs⟩ := bind_ok hs
    split at hs
    · obtain ⟨sys, -, hs⟩ := bind_ok hs
      split at hs
      · split at hs <;> split at hs <;>
          first
          | exact Or.inr ⟨hlt, _, hs⟩
          | (simp only [pure_eq_ok, Except.ok.injEq] at hs
             rw [← hs]; exact Or.inl rfl)
      · simp only [pure_eq_ok, Except.ok.injEq] at hs
        rw [← hs]; exact Or.inl rfl
    · simp only [pure_eq_ok, Except.ok.injEq] at hs
      rw [← hs]; exact Or.inl rfl
  · simp only [pure_eq_ok, Except.ok.injEq] at hs
    rw [← hs]; exact Or.inl rfl

/-- One iteration of the loop of `propagate_release_lock` returns when the hierarchy of the
cache exists and the call of `release_lock` on the higher cache returns. -/
theorem propagateStep_ok {env : Env}
    {rel : Nat → Request → World → Except Err (Request × World)} {self : Cache}
    {acc : Request × World} {h : Nat}
    (hsys : ∃ sys, acc.2.systems[self.m_cache_sys]? = some sys)
    (hrel : h < acc.2.caches.length → ∀ r', ∃ res, rel h r' acc.2 = .ok res) :
    ∃ res, propagateStep env rel self acc h = .ok res := by
  unfold propagateStep
  simp only []
  split
  · rename_i hlt
    have hg : getCache acc.2 h = .ok (acc.2.caches[h]) :=
      getCache_eq_ok.mpr (List.getElem?_eq_getElem hlt)
    obtain ⟨sys, hsys⟩ := hsys
    simp only [hg, ok_bind, getSys_eq_ok.mpr hsys]
    split
    · split
      · split <;> split <;>
          first
          | exact hrel hlt _
          | exact ⟨_, rfl⟩
      · exact ⟨_, rfl⟩
    · exact ⟨_, rfl⟩
  · exact ⟨_, rfl⟩

theorem released_of_caches (rk : Nat → Nat) (m : Nat) {w w' : World}
    (hc : w'.caches = w.caches) (hs : w'.systems = w.systems) : Released rk m w w' :=
  ⟨by rw [hc], hs, fun y cy hy => ⟨cy, by rw [hc]; exact hy, rfl, rfl, fun _ he => he,
    fun _ => rfl⟩⟩

theorem released_markDone (rk : Nat → Nat) (m : Nat) (self : Cache) (r : Request)
    (w : World) : Released rk m w (markDone self r w) := by
  apply released_of_caches
  · unfold markDone; split <;> rfl
  · exact markDone_systems _ _ _

theorem released_releaseEntry (rk : Nat → Nat) {self : Cache} {c : Nat} {r : Request}
    {w w1 : World} (hself : w.caches[c]? = some self)
    (h : releaseEntry self c r w = .ok w1) : Released rk (rk c + 1) w w1 := by
  obtain ⟨hs, hl, hy, self1, h1, hw, hsh, hm, -⟩ := releaseEntry_effect hself h
  refine ⟨hl, hs, fun y cy hcy => ?_⟩
  by_cases hyc : y = c
  · subst hyc
    rw [hself] at hcy
    cases hcy
    exact ⟨self1, h1, hw, hsh, hm, fun hle => absurd hle (by omega)⟩
  · exact ⟨cy, by rw [hy y hyc]; exact hcy, rfl, rfl, fun _ he => he, fun _ => rfl⟩

/-- A call of `release_lock` on cache `c` changes caches of rank at most that of `c` only,
and the propagation from `c` changes caches of smaller rank only. -/
theorem release_released (env : Env) (rk : Nat → Nat) :
    ∀ fuel : Nat,
      (∀ c r w res, HigherAbove rk w → release_lock env fuel c r w = .ok res →
        Released rk (rk c + 1) w res.2) ∧
      (∀ c r w res, HigherAbove rk w → propagate_release_lock env fuel c r w = .ok res →
        Released rk (rk c) w res.2) := by
  intro fuel
  induction fuel with
  | zero =>
    refine ⟨?_, ?_⟩
    · intro c r w res _ h; simp [release_lock] at h
    · intro c r w res _ h; simp [propagate_release_lock] at h
  | succ fuel ih =>
    obtain ⟨ihr, ihp⟩ := ih
    refine ⟨?_, ?_⟩
    · intro c r w res ha h
      rw [release_lock] at h
      obtain ⟨self, hself, h⟩ := bind_ok h
      obtain ⟨w1, h1, h⟩ := bind_ok h
      have r1 : Released rk (rk c + 1) w (markDone self r w1) :=
        released_trans (released_releaseEntry rk (getCache_eq_ok.mp hself) h1)
          (released_markDone rk _ self r w1)
      exact released_trans r1
        (released_mono (Nat.le_succ _) (ihp _ _ _ _ (higherAbove_of_released ha r1) h))
    · intro c r w res ha h
      rw [propagate_release_lock] at h
      obtain ⟨self, hself, h⟩ := bind_ok h
      refine foldlM_pres_mem (fun acc => Released rk (rk c) w acc.2) _ _ ?_ _ _ h
        (released_refl _ _ _)
      intro b a b' hmem hs hQ
      rcases propagateStep_cases hs with hsame | ⟨hlt, r', hrel⟩
      · rw [hsame]; exact hQ
      · have hrk : rk a < rk c :=
          ha c self a (getCache_eq_ok.mp hself) hmem (hQ.1 ▸ hlt)
        exact released_trans hQ
          (released_mono hrk (ihr _ _ _ _ (higherAbove_of_released ha hQ) hrel))

/-- With no cycle on the way up, hierarchies that exist and MSHR entries bound to lines that
exist, `release_lock` on a cache that exists returns once the fuel covers the levels above
the cache. -/
theorem release_returns (env : Env) (rk : Nat → Nat) :
    ∀ fuel : Nat,
      (∀ c r w, HigherAbove rk w → ReleaseReady w → c < w.caches.length →
        2 * rk c + 2 ≤ fuel → ∃ res, release_lock env fuel c r w = .ok res) ∧
      (∀ c r w, HigherAbove rk w → ReleaseReady w → c < w.caches.length →
        2 * rk c + 1 ≤ fuel → ∃ res, propagate_release_lock env fuel c r w = .ok res) := by
  intro fuel
  induction fuel with
  | zero =>
    refine ⟨?_, ?_⟩
    · intro c r w _ _ _ hf; omega
    · intro c r w _ _ _ hf; omega
  | succ fuel ih =>
    obtain ⟨ihr, ihp⟩ := ih
    refine ⟨?_, ?_⟩
    · intro c r w ha hr hc hf
      have hself : w.caches[c]? = some w.caches[c] := List.getElem?_eq_getElem hc
      obtain ⟨w1, h1⟩ := releaseEntry_ok (r := r) hself
        (fun e he => lineExists_iff.mp ((hr _ (List.getElem_mem hc)).2 e he))
      have r1 : Released rk (rk c + 1) w (markDone w.caches[c] r w1) :=
        released_trans (released_releaseEntry rk hself h1) (released_markDone rk _ _ r w1)
      obtain ⟨res, hres⟩ := ihp c r _ (higherAbove_of_released ha r1)
        (releaseReady_of_released hr r1) (by rw [r1.1]; exact hc) (by omega)
      refine ⟨res, ?_⟩
      rw [release_lock]
      simp only [getCache_eq_ok.mpr hself, ok_bind, h1]
      exact hres
    · intro c r w ha hr hc hf
      have hself : w.caches[c]? = some w.caches[c] := List.getElem?_eq_getElem hc
      rw [propagate_release_lock]
      simp only [getCache_eq_ok.mpr hself, ok_bind]
      obtain ⟨res, hres, -⟩ := foldlM_ok_mem (fun acc => Released rk (rk c) w acc.2)
        (propagateStep env (release_lock env fuel) w.caches[c]) (w.caches[c]).m_higher_caches
        (by
          intro b a hmem hQ
          have hsys : ∃ sys, b.2.systems[(w.caches[c]).m_cache_sys]? = some sys := by
            rw [hQ.2.1]
            exact Option.isSome_iff_exists.mp (hr _ (List.getElem_mem hc)).1
          have hstep : ∃ res, propagateStep env (release_lock env fuel) w.caches[c] b a =
              .ok res := by
            apply propagateStep_ok hsys
            intro hlt r'
            have hrk : rk a < rk c := ha c _ a hself hmem (hQ.1 ▸ hlt)
            exact ihr a r' b.2 (higherAbove_of_released ha hQ)
              (releaseReady_of_released hr hQ) hlt (by omega)
          obtain ⟨res, hres⟩ := hstep
          refine ⟨res, hres, ?_⟩
          rcases propagateStep_cases hres with hsame | ⟨hlt, r', hrel⟩
          · rw [hsame]; exact hQ
          · have hrk : rk a < rk c := ha c _ a hself hmem (hQ.1 ▸ hlt)
            exact released_trans hQ (released_mono hrk
              ((release_released env rk fuel).1 _ _ _ _ (higherAbove_of_released ha hQ) hrel)))
        (r, w) (released_refl _ _ _)
      exact ⟨res, hres⟩

theorem getLine_updLine_same {self : Cache} {i p : Nat} {line : CacheLine}
    (f : CacheLine → CacheLine) (h : self.getLine i p = .ok line) :
    (self.updLine i p f).getLine i p = .ok (f line) := by
  obtain ⟨s, hs, hp⟩ := getLine_eq_ok.mp h
  refine getLine_eq_ok.mpr ⟨s.modify f p, ?_, ?_⟩
  · rw [Cache_updLine_getElem?, hs]
    simp
  · rw [List.getElem?_modify, hp]
    simp

/-- C21: with no cycle on the way up, a call of `release_lock(r)` on cache `c` that returns
leaves no MSHR entry of `c` for the address `r` carried on entry; when there was an entry,
the line it was bound to has `lock = false` and nothing else of the tag store is changed if
the tag of the line is `get_tag` of the address, and the tag store is as it was if the tag
differs; when there was no entry the tag store is as it was.  The call returns when, in
addition, every cache points to a hierarchy that exists, every MSHR entry is bound to a line
that exists, and the fuel covers the levels above the cache. -/
theorem release_lock_clears_entry (env : Env) (rk : Nat → Nat) (fuel c : Nat) (r : Request)
    (w : World) (self : Cache) (hself : w.caches[c]? = some self) (ha : HigherAbove rk w) :
    (∀ res, release_lock env fuel c r w = .ok res →
      ∃ self', res.2.caches[c]? = some self' ∧
        mapFind self'.m_mshr_entries r.m_addr = none ∧
        (∀ e, mapFind self.m_mshr_entries r.m_addr = some e →
          ∃ line, self.getLine e.m_line.1 e.m_line.2 = .ok line ∧
            (self.get_tag r.m_addr = line.tag →
              self'.getLine e.m_line.1 e.m_line.2 = .ok { line with lock := false } ∧
              self'.m_tagStore =
                (self.updLine e.m_line.1 e.m_line.2
                  (fun l => { l with lock := false })).m_tagStore) ∧
            (self.get_tag r.m_addr ≠ line.tag → self'.m_tagStore = self.m_tagStore)) ∧
        (mapFind self.m_mshr_entries r.m_addr = none →
          self'.m_tagStore = self.m_tagStore)) ∧
    (ReleaseReady w → 2 * rk c + 2 ≤ fuel → ∃ res, release_lock env fuel c r w = .ok res) := by
  refine ⟨?_, fun hr hf => (release_returns env rk fuel).1 c r w ha hr
    (List.getElem?_eq_some.mp hself).1 hf⟩
  intro res h
  cases fuel with
  | zero => simp [release_lock] at h
  | succ fuel =>
    rw [release_lock] at h
    obtain ⟨self0, hself0, h⟩ := bind_ok h
    have : self0 = self := by
      rw [getCache_eq_ok, hself] at hself0
      exact (Option.some.inj hself0).symm
    subst this
    obtain ⟨w1, h1, h⟩ := bind_ok h
    obtain ⟨hs, hl, hy, self1, hc1, hw, hsh, hm, hnone, hsome, hno⟩ :=
      releaseEntry_effect hself h1
    have r1 : Released rk (rk c + 1) w (markDone self0 r w1) :=
      released_trans (released_releaseEntry rk hself h1) (released_markDone rk _ self0 r w1)
    have r2 := (release_released env rk fuel).2 _ _ _ _ (higherAbove_of_released ha r1) h
    have hmd : (markDone self0 r w1).caches[c]? = some self1 := by
      have : (markDone self0 r w1).caches = w1.caches := by
        unfold markDone; split <;> rfl
      rw [this]
      exact hc1
    obtain ⟨c2, hc2, -, -, -, heq⟩ := r2.2.2 c self1 hmd
    rw [heq (Nat.le_refl _)] at hc2
    refine ⟨self1, hc2, hnone, ?_, fun hn => by rw [hno hn]⟩
    intro e he
    obtain ⟨line, hline, heqt, hnet⟩ := hsome e he
    refine ⟨line, hline, fun ht => ⟨?_, heqt ht⟩, hnet⟩
    have := getLine_updLine_same (fun l => { l with lock := false }) hline
    unfold Cache.getLine at this ⊢
    rw [heqt ht]
    exact this

/-- A world wired as `twoLevel` wires it has no cycle on the way up. -/
theorem higherAbove_twoLevel (w : World)
    (h : w.caches.map Cache.m_higher_caches = [[], [0]]) : HigherAbove (fun x => x) w := by
  intro x cx hh hx hmem _
  have hm : (w.caches.map Cache.m_higher_caches)[x]? = some cx.m_higher_caches := by
    rw [List.getElem?_map, hx]; rfl
  rw [h] at hm
  match x, hm with
  | 0, hm =>
    simp only [List.getElem?_cons_zero, Option.some.injEq] at hm
    rw [← hm] at hmem
    simp at hmem
  | 1, hm =>
    simp only [List.getElem?_cons_succ, List.getElem?_cons_zero, Option.some.injEq] at hm
    rw [← hm] at hmem
    simp only [List.mem_singleton] at hmem
    show hh < 1
    omega
  | n + 2, hm => simp at hm

/-- After `DATA_READ 0x0` has missed in both levels of a two-level hierarchy, the release of
its request at L2 returns and leaves L2 without an MSHR entry for `0x0` and with the line
unlocked: an instance of `release_lock_clears_entry`. -/
theorem release_lock_clears_entry_witness :
    ∃ w, Reachable quietEnv Op.isLookupReleaseTick (twoLevel 0 1 false 1 0 1 false 1 100) w ∧
      w.mshrOf 1 = [(0, .DATA_READ)] ∧ w.bitsAt 1 0 0 = some (true, true, 0) ∧
      ∃ res self' line, release_lock quietEnv 4 1 readOfLine0 w = .ok res ∧
        res.2.caches[1]? = some self' ∧ mapFind self'.m_mshr_entries 0 = none ∧
        self'.getLine 0 0 = .ok line ∧ line.lock = false ∧ line.valid = true := by
  obtain ⟨w, hr, hhi, hrdy, hm, hb, hf, hline⟩ :=
    exists_reachable quietEnv Op.isLookupReleaseTick 4
      [.lookupAndFillCache 0 0 .DATA_READ 0 false 0] (twoLevel 0 1 false 1 0 1 false 1 100)
      (fun w => w.caches.map Cache.m_higher_caches = [[], [0]] ∧ ReleaseReady w ∧
        w.mshrOf 1 = [(0, .DATA_READ)] ∧ w.bitsAt 1 0 0 = some (true, true, 0) ∧
        (w.caches[1]?).map (fun x => (mapFind x.m_mshr_entries 0).map (fun e => e.m_line)) =
          some (some (0, 0)) ∧
        (w.caches[1]?).map (fun x => (x.get_tag 0, (x.getLine 0 0).map
          (fun l => (l.tag, l.valid)))) = some (0, .ok (0, true)))
      (by decide!) (by decide!)
  cases hc : w.caches[1]? with
  | none => rw [hc] at hf; simp at hf
  | some self =>
    rw [hc] at hf hline
    simp only [Option.map_some', Option.some.injEq, Prod.mk.injEq] at hf hline
    obtain ⟨hpost, hret⟩ := release_lock_clears_entry quietEnv (fun x => x) 4 1 readOfLine0 w
      self hc (higherAbove_twoLevel w hhi)
    obtain ⟨res, hres⟩ := hret hrdy (by decide)
    obtain ⟨self', hs', hnone, hsome, -⟩ := hpost res hres
    cases he : mapFind self.m_mshr_entries 0 with
    | none => rw [he] at hf; simp at hf
    | some e =>
      rw [he] at hf
      simp only [Option.map_some', Option.some.injEq] at hf
      obtain ⟨line, hl, heq, -⟩ := hsome e he
      rw [hf] at hl heq
      rw [hl] at hline
      simp only [Except.map, Except.ok.injEq, Prod.mk.injEq] at hline
      have htag : self.get_tag readOfLine0.m_addr = line.tag := hline.1.trans hline.2.1.symm
      obtain ⟨hg, -⟩ := heq htag
      exact ⟨w, hr, hm, hb, res, self', _, hres, hs', hnone, hg, rfl, hline.2.2⟩

/-! ## The LRU order after a sequence of accesses -/

theorem takeWhile_ne_subset (v a : Nat) :
    ∀ l : List Nat, a ∈ l.takeWhile (fun x => x != v) →
      ∀ x ∈ l.takeWhile (fun x => x != a), x ∈ l.takeWhile (fun x => x != v) := by
  intro l
  induction l with
  | nil => intro h; simp at h
  | cons y l ih =>
    intro ha x hx
    by_cases hyv : y = v
    · simp [List.takeWhile_cons, hyv] at ha
    · by_cases hya : y = a
      · simp [List.takeWhile_cons, hya] at hx
      · have e1 : (y :: l).takeWhile (fun x => x != v) = y :: l.takeWhile (fun x => x != v) := by
          simp [List.takeWhile_cons, hyv]
        have e2 : (y :: l).takeWhile (fun x => x != a) = y :: l.takeWhile (fun x => x != a) := by
          simp [List.takeWhile_cons, hya]
        rw [e1] at ha ⊢
        rw [e2] at hx
        rcases List.mem_cons.mp ha with h | h
        · exact absurd h.symm hya
        · rcases List.mem_cons.mp hx with h' | h'
          · exact List.mem_cons.mpr (Or.inl h')
          · exact List.mem_cons_of_mem _ (ih h x h')

theorem not_mem_takeWhile_ne (a : Nat) (l : List Nat) : a ∉ l.takeWhile (fun x => x != a) := by
  intro h
  have := List.mem_takeWhile_imp h
  simp at this

theorem takeWhile_ne_dichotomy (v a : Nat) (hne : a ≠ v) :
    ∀ l : List Nat, a ∈ l → v ∈ l →
      a ∈ l.takeWhile (fun x => x != v) ∨ v ∈ l.takeWhile (fun x => x != a) := by
  intro l
  induction l with
  | nil => intro h; simp at h
  | cons y l ih =>
    intro ha hv
    by_cases hyv : y = v
    · right
      subst hyv
      simp [List.takeWhile_cons, Ne.symm hne]
    · by_cases hya : y = a
      · left
        subst hya
        simp [List.takeWhile_cons, hne]
      · have ha' : a ∈ l := by
          rcases List.mem_cons.mp ha with h | h
          · exact absurd h.symm hya
          · exact h
        have hv' : v ∈ l := by
          rcases List.mem_cons.mp hv with h | h
          · exact absurd h.symm hyv
          · exact h
        rcases ih ha' hv' with h | h
        · left; simp [List.takeWhile_cons, hyv, h]
        · right; simp [List.takeWhile_cons, hya, h]

theorem dedup_length_lt {X Y : List Nat} (hsub : ∀ x ∈ X, x ∈ Y) {z : Nat} (hz : z ∈ Y)
    (hnz : z ∉ X) : X.dedup.length < Y.dedup.length := by
  rw [← List.card_toFinset, ← List.card_toFinset]
  apply Finset.card_lt_card
  refine ⟨fun x hx => List.mem_toFinset.mpr (hsub x (List.mem_toFinset.mp hx)), ?_⟩
  intro h
  exact hnz (List.mem_toFinset.mp (h (List.mem_toFinset.mpr hz)))

/-- The number of distinct ways accessed after the last access to `v`, once `a` has been
accessed after the sequence `ways`. -/
theorem waysAfterLast_append (ways : List Nat) (a v : Nat) :
    (waysAfterLast (ways ++ [a]) v).length =
      if v = a then 0
      else if a ∈ ways.reverse.takeWhile (fun x => x != v) then (waysAfterLast ways v).length
      else (waysAfterLast ways v).length + 1 := by
  unfold waysAfterLast
  rw [List.reverse_append]
  by_cases hva : v = a
  · subst hva
    simp [List.takeWhile_cons]
  · have hav : a ≠ v := Ne.symm hva
    simp only [hva, if_false]
    have e : ([a].reverse ++ ways.reverse).takeWhile (fun x => x != v) =
        a :: ways.reverse.takeWhile (fun x => x != v) := by
      simp [List.takeWhile_cons, hav]
    rw [e]
    split
    · rename_i h
      rw [List.dedup_cons_of_mem h]
    · rename_i h
      rw [List.dedup_cons_of_not_mem h]
      simp

/-- One access: the call returns, the positions stay a permutation, the accessed way goes to
position 0 and the ways that were below its old position move up by one. -/
theorem access_step (r : LRURepl) (set_num way : Nat) (st : List Nat)
    (hset : set_num < r.m_num_sets) (hway : way < r.m_associativity)
    (hst : r.replStateArr[set_num]? = some st)
    (hperm : st.Perm (List.range r.m_associativity)) :
    ∃ r' st' pivot, r.updateReplState set_num way = .ok r' ∧
      r'.replStateArr[set_num]? = some st' ∧ r'.m_num_sets = r.m_num_sets ∧
      r'.m_associativity = r.m_associativity ∧ st'.Perm (List.range r.m_associativity) ∧
      st[way]? = some pivot ∧ st'[way]? = some 0 ∧
      ∀ (i p : Nat), i ≠ way → st[i]? = some p →
        st'[i]? = some (if p < pivot then p + 1 else p) := by
  have hlen : st.length = r.m_associativity := by
    rw [hperm.length_eq, List.length_range]
  have hwl : way < st.length := hlen ▸ hway
  have hsl : set_num < r.replStateArr.length := (List.getElem?_eq_some.mp hst).1
  have hnd : st.Nodup := hperm.nodup_iff.mpr (List.nodup_range _)
  have hp : st[way]? = some st[way] := List.getElem?_eq_getElem hwl
  have hpn : st[way] < r.m_associativity :=
    List.mem_range.mp (hperm.mem_iff.mp (List.getElem_mem hwl))
  obtain ⟨r', hr', harr, hns, has⟩ := updateReplState_eq r set_num way st _ hset hway hst hp
  refine ⟨r', (st.map (fun p => if p < st[way] then p + 1 else p)).set way 0, st[way], hr', ?_,
    hns, has, ?_, hp, ?_, ?_⟩
  · rw [harr]
    simp only [List.getElem?_set, if_true, hsl]
  · rw [set_map_eq_map_bump hnd hp]
    exact (hperm.map _).trans (map_bump_perm hpn)
  · simp [List.getElem?_set, hwl]
  · intro i p hi hip
    rw [List.getElem?_set]
    simp only [Ne.symm hi, if_false, List.getElem?_map, hip, Option.map_some']

/-- The positions after a sequence of accesses, each to a way of the set: a way that was
accessed is at the number of distinct ways accessed after its last access, and below every
way that was not accessed. -/
theorem accessAll_positions (r : LRURepl) (set_num : Nat) (st : List Nat)
    (hset : set_num < r.m_num_sets) (hst : r.replStateArr[set_num]? = some st)
    (hperm : st.Perm (List.range r.m_associativity)) :
    ∀ ways : List Nat, (∀ v ∈ ways, v < r.m_associativity) →
      ∃ r' st', accessAll r set_num ways = .ok r' ∧ r'.replStateArr[set_num]? = some st' ∧
        r'.m_num_sets = r.m_num_sets ∧ r'.m_associativity = r.m_associativity ∧
        st'.Perm (List.range r.m_associativity) ∧
        (∀ (v q : Nat), v ∈ ways → st'[v]? = some q → q = (waysAfterLast ways v).length) ∧
        (∀ (u p v q : Nat), u ∉ ways → v ∈ ways → st'[u]? = some p → st'[v]? = some q →
          q < p) := by
  intro ways
  induction ways using List.reverseRecOn with
  | nil =>
    intro _
    exact ⟨r, st, rfl, hst, rfl, rfl, hperm, fun v q hv => by simp at hv,
      fun u p v q _ hv => by simp at hv⟩
  | append_singleton ways a ih =>
    intro hways
    obtain ⟨r1, st1, h1, hst1, hns1, has1, hperm1, hA, hB⟩ :=
      ih (fun v hv => hways v (List.mem_append_left _ hv))
    have ha : a < r1.m_associativity := by
      rw [has1]
      exact hways a (by simp)
    obtain ⟨r2, st2, pivot, h2, hst2, hns2, has2, hperm2, hpiv, hzero, hmove⟩ :=
      access_step r1 set_num a st1 (hns1 ▸ hset) ha hst1 (has1 ▸ hperm1)
    have hlen1 : st1.length = r.m_associativity := by
      rw [hperm1.length_eq, List.length_range]
    have hlen2 : st2.length = r.m_associativity := by
      rw [hperm2.length_eq, List.length_range, has1]
    have hnd1 : st1.Nodup := hperm1.nodup_iff.mpr (List.nodup_range _)
    have hinj : ∀ (u pu : Nat), u ≠ a → st1[u]? = some pu → pu ≠ pivot := by
      intro u pu hu hpu he
      subst he
      obtain ⟨hul, hue⟩ := List.getElem?_eq_some.mp hpu
      obtain ⟨hal, hae⟩ := List.getElem?_eq_some.mp hpiv
      exact hu ((List.Nodup.getElem_inj_iff hnd1).mp (hue.trans hae.symm))
    have hold : ∀ (v q' : Nat), v ≠ a → st2[v]? = some q' →
        ∃ q, st1[v]? = some q ∧ q' = if q < pivot then q + 1 else q := by
      intro v q' hva hq'
      have hvl : v < st1.length := by
        rw [hlen1, ← hlen2]
        exact (List.getElem?_eq_some.mp hq').1
      refine ⟨st1[v], List.getElem?_eq_getElem hvl, ?_⟩
      have := hmove v _ hva (List.getElem?_eq_getElem hvl)
      rw [this] at hq'
      exact (Option.some.inj hq').symm
    refine ⟨r2, st2, ?_, hst2, hns2.trans hns1, has2.trans has1, has1 ▸ hperm2, ?_, ?_⟩
    · unfold accessAll at h1 ⊢
      rw [List.foldlM_append, h1]
      simp only [ok_bind, List.foldlM_cons, h2, List.foldlM_nil]
      rfl
    · intro v q' hv hq'
      rw [waysAfterLast_append]
      by_cases hva : v = a
      · subst hva
        rw [hzero] at hq'
        simp only [if_true]
        exact (Option.some.inj hq').symm
      · simp only [hva, if_false]
        have hvw : v ∈ ways := by
          rcases List.mem_append.mp hv with h | h
          · exact h
          · exact absurd (List.mem_singleton.mp h) hva
        obtain ⟨q, hq, hq'e⟩ := hold v q' hva hq'
        have hqA := hA v q hvw hq
        by_cases haw : a ∈ ways
        · have hpA := hA a pivot haw hpiv
          by_cases haT : a ∈ ways.reverse.takeWhile (fun x => x != v)
          · simp only [haT, if_true]
            have hlt : (waysAfterLast ways a).length < (waysAfterLast ways v).length :=
              dedup_length_lt (takeWhile_ne_subset v a _ haT) haT
                (not_mem_takeWhile_ne a _)
            have : ¬ q < pivot := by omega
            simp only [this, if_false] at hq'e
            omega
          · simp only [haT, if_false]
            have hvT : v ∈ ways.reverse.takeWhile (fun x => x != a) := by
              rcases takeWhile_ne_dichotomy v a (Ne.symm hva) ways.reverse
                (List.mem_reverse.mpr haw) (List.mem_reverse.mpr hvw) with h | h
              · exact absurd h haT
              · exact h
            have hlt : (waysAfterLast ways v).length < (waysAfterLast ways a).length :=
              dedup_length_lt (takeWhile_ne_subset a v _ hvT) hvT
                (not_mem_takeWhile_ne v _)
            have : q < pivot := by omega
            simp only [this, if_true] at hq'e
            omega
        · have haT : a ∉ ways.reverse.takeWhile (fun x => x != v) := by
            intro h
            exact haw (List.mem_reverse.mp ((List.takeWhile_sublist _).subset h))
          simp only [haT, if_false]
          have : q < pivot := hB a pivot v q haw hvw hpiv hq
          simp only [this, if_true] at hq'e
          omega
    · intro u p' v q' hu hv hp' hq'
      have hua : u ≠ a := by
        intro h
        exact hu (by simp [h])
      have huw : u ∉ ways := fun h => hu (List.mem_append_left _ h)
      obtain ⟨p, hp, hp'e⟩ := hold u p' hua hp'
      have hne := hinj u p hua hp
      by_cases hva : v = a
      · subst hva
        rw [hzero] at hq'
        have : q' = 0 := (Option.some.inj hq').symm
        subst this
        split at hp'e <;> omega
      · have hvw : v ∈ ways := by
          rcases List.mem_append.mp hv with h | h
          · exact h
          · exact absurd (List.mem_singleton.mp h) hva
        obtain ⟨q, hq, hq'e⟩ := hold v q' hva hq'
        have hlt := hB u p v q huw hvw hp hq
        split at hp'e <;> split at hq'e <;> omega

/-- C24: from a set whose positions are a permutation of `[0, associativity)`, a sequence of
`updateReplState` calls on that set, each for a way of the set and every way accessed at
least once, returns; afterwards the way accessed last is at position 0, the position of each
way is the number of distinct ways accessed after its own last access, and `getVictim`
returns the way after whose last access every other way was accessed. -/
theorem lru_order_after_accesses (r : LRURepl) (set_num : Nat) (st : List Nat)
    (ways : List Nat) (hset : set_num < r.m_num_sets)
    (hst : r.replStateArr[set_num]? = some st)
    (hperm : st.Perm (List.range r.m_associativity)) (hpos : 0 < r.m_associativity)
    (hways : ∀ v ∈ ways, v < r.m_associativity)
    (hall : ∀ v, v < r.m_associativity → v ∈ ways) :
    ∃ r' st', accessAll r set_num ways = .ok r' ∧ r'.replStateArr[set_num]? = some st' ∧
      (∀ v, ways.getLast? = some v → st'[v]? = some 0) ∧
      (∀ v, v < r.m_associativity → st'[v]? = some (waysAfterLast ways v).length) ∧
      ∃ victim, r'.getVictim set_num = .ok victim ∧ victim < r.m_associativity ∧
        ∀ u, u < r.m_associativity → u ≠ victim → u ∈ waysAfterLast ways victim := by
  obtain ⟨r', st', h1, hst', hns, has, hperm', hA, -⟩ :=
    accessAll_positions r set_num st hset hst hperm ways hways
  have hlen : st'.length = r.m_associativity := by
    rw [hperm'.length_eq, List.length_range]
  have hposn : ∀ v, v < r.m_associativity → st'[v]? = some (waysAfterLast ways v).length := by
    intro v hv
    have hvl : v < st'.length := hlen ▸ hv
    rw [List.getElem?_eq_getElem hvl, hA v _ (hall v hv) (List.getElem?_eq_getElem hvl)]
  refine ⟨r', st', h1, hst', ?_, hposn, ?_⟩
  · intro v hv
    rcases List.eq_nil_or_concat ways with hnil | ⟨l, b, hl⟩
    · rw [hnil] at hv
      simp at hv
    · rw [List.concat_eq_append] at hl
      have hb : b = v := by
        rw [hl] at hv
        simpa using hv
      subst hb
      have hvn : b < r.m_associativity := hways b (by rw [hl]; simp)
      rw [hposn b hvn, hl, waysAfterLast_append]
      simp
  · have hex : ∃ i : Nat, st'[i]? = some (r'.m_associativity - 1) := by
      rw [has]
      exact perm_range_has_top hpos hperm'
    obtain ⟨v, hv, hat, -⟩ := getVictim_of_exists r' set_num st' (hns ▸ hset) hst' hex
    have hvn : v < r.m_associativity := by
      rw [← hlen]
      exact (List.getElem?_eq_some.mp hat).1
    refine ⟨v, hv, hvn, ?_⟩
    have hcard : (waysAfterLast ways v).length = r.m_associativity - 1 := by
      have := hposn v hvn
      rw [hat, has] at this
      exact (Option.some.inj this).symm
    have hnd : (waysAfterLast ways v).Nodup := List.nodup_dedup _
    have hsub : (waysAfterLast ways v).toFinset ⊆
        (Finset.range r.m_associativity).erase v := by
      intro x hx
      have hx' : x ∈ ways.reverse.takeWhile (fun y => y != v) :=
        List.mem_dedup.mp (List.mem_toFinset.mp hx)
      have hxw : x ∈ ways := List.mem_reverse.mp ((List.takeWhile_sublist _).subset hx')
      have hxv : x ≠ v := by
        intro h
        exact not_mem_takeWhile_ne v _ (h ▸ hx')
      exact Finset.mem_erase.mpr ⟨hxv, Finset.mem_range.mpr (hways x hxw)⟩
    have heq : (waysAfterLast ways v).toFinset = (Finset.range r.m_associativity).erase v := by
      apply Finset.eq_of_subset_of_card_le hsub
      rw [Finset.card_erase_of_mem (Finset.mem_range.mpr hvn), Finset.card_range,
        List.toFinset_card_of_nodup hnd, hcard]
    intro u hu huv
    have : u ∈ (waysAfterLast ways v).toFinset := by
      rw [heq]
      exact Finset.mem_erase.mpr ⟨huv, Finset.mem_range.mpr hu⟩
    exact List.mem_toFinset.mp this

/-- The accesses to ways 1, 3, 0, 2, 3 of the first set of `lruExample` leave the positions
`[2, 3, 1, 0]`: way 3, accessed last, is at position 0, and the victim is way 1, whose last
access is the earliest.  An instance of `lru_order_after_accesses`. -/
theorem lru_order_after_accesses_witness :
    (∃ r' st', accessAll lruExample 0 [1, 3, 0, 2, 3] = .ok r' ∧
      r'.replStateArr[0]? = some st' ∧ st'[3]? = some 0 ∧
      st'[0]? = some (waysAfterLast [1, 3, 0, 2, 3] 0).length ∧
      ∃ victim, r'.getVictim 0 = .ok victim ∧ victim < 4 ∧
        ∀ u, u < 4 → u ≠ victim → u ∈ waysAfterLast [1, 3, 0, 2, 3] victim) ∧
    (accessAll lruExample 0 [1, 3, 0, 2, 3]).map (fun r => r.replStateArr[0]?) =
      .ok (some [2, 3, 1, 0]) ∧
    (accessAll lruExample 0 [1, 3, 0, 2, 3]).bind (fun r => r.getVictim 0) = .ok 1 ∧
    (List.range 4).map (fun v => (waysAfterLast [1, 3, 0, 2, 3] v).length) = [2, 3, 1, 0] := by
  refine ⟨?_, by decide, by decide, by decide⟩
  obtain ⟨r', st', h1, h2, h3, h4, h5⟩ :=
    lru_order_after_accesses lruExample 0 [2, 3, 0, 1] [1, 3, 0, 2, 3] (by decide) rfl
      (by decide) (by decide) (by decide)
      (by
        intro v hv
        have : v < 4 := hv
        match v, this with
        | 0, _ => decide
        | 1, _ => decide
        | 2, _ => decide
        | 3, _ => decide)
  exact ⟨r', st', h1, h2, h3 3 rfl, h4 0 (by decide), h5⟩

/-! ## Idempotence of `invalidate` on reachable states -/

theorem atMostOne_of_noDup {set : List CacheLine} (h : NoDupKeys set) (tag : Nat) (tr : Bool)
    (tid : Nat) : AtMostOneMatch set tag tr tid := by
  intro i j li lj hi hj mi mj
  obtain ⟨vi, ti, ri, di⟩ := (lineMatches_iff _ _ _ _).mp mi
  obtain ⟨vj, tj, rj, dj⟩ := (lineMatches_iff _ _ _ _).mp mj
  refine h i j li lj hi hj vi vj ?_
  simp only [CacheLine.key, Prod.mk.injEq]
  exact ⟨ti.trans tj.symm, ri.trans rj.symm, di.trans dj.symm⟩

/-- No state reachable from empty caches has two valid lines with one key in a set. -/
theorem noDup_reachable (env : Env) (w0 w : World) (h0 : EmptyCaches w0)
    (hr : Reachable env Op.any w0 w) : NoDuplicateLines w := by
  induction hr with
  | init => exact noDup_of_empty h0
  | step op fuel _ _ hrun ih =>
    refine op_pres (stable_noDuplicateLines env) op fuel _ _ ?_ (fun _ _ _ _ _ _ _ _ => trivial)
      hrun ih
    intro c addr tid tr _ hi
    exact allSets_cleared (invalidate_cleared _ _ _ _ _ _ _ hi)
      (fun set set' hs hl => noDup_cleared hs hl) ih

/-- C10: in every state reachable from empty caches, whatever the collaborators do, and for
every `(addr, tid, is_translation)`: `invalidate` returns whenever the caches it reaches
exist with the set of the address and the fuel covers the levels above; and when it returns,
calling it again returns the very same world, so the state of this cache and of all its
higher caches after two calls is the state after one, and no valid line with the key of the
address remains in the addressed set of this cache. -/
theorem invalidate_twice_same (env : Env) (w0 w : World) (h0 : EmptyCaches w0)
    (hr : Reachable env Op.any w0 w) (fuel c addr tid : Nat) (tr : Bool) :
    (invalidateReady w addr fuel c = true → ∃ w1, invalidate fuel c addr tid tr w = .ok w1) ∧
    ∀ w1, invalidate fuel c addr tid tr w = .ok w1 →
      invalidate fuel c addr tid tr w1 = .ok w1 ∧
      ∀ cx1 set1, w1.caches[c]? = some cx1 →
        cx1.m_tagStore[cx1.get_index addr]? = some set1 →
        ∀ l ∈ set1, ¬ (l.valid = true ∧ l.tag = cx1.get_tag addr ∧ l.is_translation = tr ∧
          l.tid = tid) := by
  have hnd : NoDuplicateLines w := noDup_reachable env w0 w h0 hr
  have hone : ∀ x cx set, Above w c x → w.caches[x]? = some cx →
      cx.m_tagStore[cx.get_index addr]? = some set →
      AtMostOneMatch set (cx.get_tag addr) tr tid := by
    intro x cx set _ hx hs
    exact atMostOne_of_noDup (hnd cx (List.getElem?_mem hx) set (List.getElem?_mem hs)) _ _ _
  exact invalidate_idempotent fuel c addr tid tr w hone

/-- After `DATA_READ 0x0` has completed in a two-level hierarchy both caches hold the line;
`invalidate(0x0)` on L2 returns and clears the line in L2 and in L1 above it, and a second
call changes nothing: an instance of `invalidate_twice_same`. -/
theorem invalidate_twice_same_witness :
    ∃ w w1, Reachable quietEnv Op.any (twoLevel 0 1 false 1 0 1 false 1 1) w ∧
      w.snapshot.lines = [[[(true, false, 0)]], [[(true, false, 0)]]] ∧
      invalidate 2 1 0 0 false w = .ok w1 ∧
      w1.snapshot.lines = [[[(false, false, 0)]], [[(false, false, 0)]]] ∧
      invalidate 2 1 0 0 false w1 = .ok w1 := by
  obtain ⟨w, hr, hb, hrdy, hres⟩ := exists_reachable quietEnv Op.any 4
    [.lookupAndFillCache 0 0 .DATA_READ 0 false 0, .tick 0, .tick 0]
    (twoLevel 0 1 false 1 0 1 false 1 1)
    (fun w => w.snapshot.lines = [[[(true, false, 0)]], [[(true, false, 0)]]] ∧
      invalidateReady w 0 2 1 = true ∧
      (invalidate 2 1 0 0 false w).map World.snapshot =
        .ok { lines := [[[(false, false, 0)]], [[(false, false, 0)]]], mshr := [[], []],
              wait := [], rob := [(0, .DATA_READ)] })
    (by decide!) (by decide!)
  obtain ⟨hret, hsame⟩ := invalidate_twice_same quietEnv (twoLevel 0 1 false 1 0 1 false 1 1) w
    (by decide!) hr 2 1 0 0 false
  obtain ⟨w1, h1⟩ := hret hrdy
  rw [h1] at hres
  have e : w1.snapshot = _ := Except.ok.inj hres
  exact ⟨w, w1, hr, hb, h1, by rw [e], (hsame w1 h1).1⟩

/-! ## The price of a memory access -/

/-- The latency tables after two levels have been added: the entry of the memory access has
grown by the latency of both levels, the last one included. -/
theorem latencyTables_two_levels (M l1 l2 : Nat) (t : LatencyTables) (hM : 2 ≤ M)
    (hlen : M < t.m_total_latency_cycles.length) (hc : 2 ≤ t.m_cache_latency_cycles.length) :
    ∃ t', latencyTablesAfter M [l1, l2] t = .ok t' ∧
      t'.m_total_latency_cycles[0]? = some l1 ∧
      t'.m_total_latency_cycles[1]? = some (l1 + l2) ∧
      t'.m_total_latency_cycles[M]? =
        (t.m_total_latency_cycles[M]?).map (fun m => m + l1 + l2) := by
  have hm : t.m_total_latency_cycles[M]? = some t.m_total_latency_cycles[M] :=
    List.getElem?_eq_getElem hlen
  have h0 : (0 : Nat) ≠ M := by omega
  have h1 : (1 : Nat) ≠ M := by omega
  have c0 : 0 < t.m_cache_latency_cycles.length := by omega
  have c1 : 1 < t.m_cache_latency_cycles.length := by omega
  have t0 : 0 < t.m_total_latency_cycles.length := by omega
  have t1 : 1 < t.m_total_latency_cycles.length := by omega
  have hM0 : M ≠ 0 := by omega
  have hM1 : M ≠ 1 := by omega
  simp [latencyTablesAfter, add_cache_to_hier_latency, setEntry, getEntry, List.enum,
    List.getElem?_set, hm, h0, h1, hM0, hM1, c0, c1, t0, t1, hlen, Nat.add_assoc]

/-- C18: in the scenario (inclusive 1-way L1 of latency 1 over a 2-way L2 of latency 10,
memory latency 100, empty caches, clock 0), `DATA_READ 0x0000` entering L1 with accumulated
latency 0 returns REQUEST_MISS and leaves exactly one wait-list entry, scheduled at cycle
101 and not at 111: the latency of L2, the level that sends the request to memory, is not
added.  The line is still locked in both caches after 100 calls of `tick` and the request
has completed after 101 calls (and so after 111): both lines valid and unlocked, both MSHR
tables empty, the ROB notified once.  The latency tables that `add_cache_to_hier` fills for
the two levels add both latencies, 1 + 10, to the entry of the memory access, whatever it
held before; started at the memory latency 100 the entry is 111. -/
theorem cold_miss_scheduled_at_101 :
    EmptyCaches (twoLevel 0 1 true 1 0 2 true 10 100) ∧
    (lookupAndFillCache quietEnv 4 0 0 .DATA_READ 0 false 0
        (twoLevel 0 1 true 1 0 2 true 10 100)).map (fun r => (r.1, r.2.waitList 0)) =
      .ok (.REQUEST_MISS, [(101, requestOf 1 0 .DATA_READ 0 false)]) ∧
    (lookupAndFillCache quietEnv 4 0 0 .DATA_READ 0 false 0
        (twoLevel 0 1 true 1 0 2 true 10 100)).map
        (fun r => (r.2.waitList 0).any (fun e => e.1 == 111)) = .ok false ∧
    (runOps quietEnv 4 (.lookupAndFillCache 0 0 .DATA_READ 0 false 0 ::
        List.replicate 100 (.tick 0)) (twoLevel 0 1 true 1 0 2 true 10 100)).map
        World.snapshot =
      .ok { lines := [[[(true, true, 0)]], [[(false, false, 0), (true, true, 0)]]],
            mshr := [[(0, .DATA_READ)], [(0, .DATA_READ)]],
            wait := [(101, requestOf 1 0 .DATA_READ 0 false)], rob := [] } ∧
    (runOps quietEnv 4 (.lookupAndFillCache 0 0 .DATA_READ 0 false 0 ::
        List.replicate 101 (.tick 0)) (twoLevel 0 1 true 1 0 2 true 10 100)).map
        World.snapshot =
      .ok { lines := [[[(true, false, 0)]], [[(false, false, 0), (true, false, 0)]]],
            mshr := [[], []], wait := [], rob := [(0, .DATA_READ)] } ∧
    (runOps quietEnv 4 (.lookupAndFillCache 0 0 .DATA_READ 0 false 0 ::
        List.replicate 111 (.tick 0)) (twoLevel 0 1 true 1 0 2 true 10 100)).map
        World.snapshot =
      .ok { lines := [[[(true, false, 0)]], [[(false, false, 0), (true, false, 0)]]],
            mshr := [[], []], wait := [], rob := [(0, .DATA_READ)] } ∧
    (∀ (M : Nat) (t : LatencyTables), 2 ≤ M → M < t.m_total_latency_cycles.length →
      2 ≤ t.m_cache_latency_cycles.length →
      ∃ t', latencyTablesAfter M [1, 10] t = .ok t' ∧
        t'.m_total_latency_cycles[1]? = some 11 ∧
        t'.m_total_latency_cycles[M]? =
          (t.m_total_latency_cycles[M]?).map (fun m => m + 1 + 10)) ∧
    latencyTablesAfter 3 [1, 10]
        { m_cache_latency_cycles := [0, 0, 0], m_total_latency_cycles := [0, 0, 0, 100] } =
      .ok { m_cache_latency_cycles := [1, 10, 0], m_total_latency_cycles := [1, 11, 0, 111] } := by
  refine ⟨by decide!, by decide!, by decide!, by decide!, by decide!, by decide!, ?_,
    by decide⟩
  intro M t hM hlen hc
  obtain ⟨t', h, -, h1, hm⟩ := latencyTables_two_levels M 1 10 t hM hlen hc
  exact ⟨t', h, h1, hm⟩

end TLBSim
